import Mathlib

/-!
# kdtree2d: a 2D KD tree over axis-aligned boxes

Shallow embedding of `src/kdtree2d.h` (namespace `kd2`).

Modelling conventions
* `float` coordinates are exact rationals; the literals `0.33f`, `0.50f`, `0.66f` are the
  decimals `33/100`, `50/100`, `66/100`.
* `size_t` values are natural numbers; the only arithmetic that can wrap (`NScanned +=`) is
  reduced modulo `2 ^ 64`.
* A C++ `Node` has three child pointers that are null together or non-null together (every
  writer of the pointers sets all three), and the code only ever tests `ChildA`.  A node is
  therefore either `Node.leaf` (all three null) or `Node.inner` (all three set).
* `std::vector` is `List`; `push_back` appends at the end.
* Copying is about object identity.  For it the nodes are objects at addresses in a store
  (`Store`): `new` takes a new address, `delete` releases the object, and the use of a null
  pointer or of a released object stops the run with a fault.  `Store.Holds` relates a tree
  of node objects to the tree as a value.
-/

namespace kd2

/-! ## Data model -/

/-- `struct Box { float X1, Y1, X2, Y2; }` -/
structure Box where
  X1 : ℚ
  Y1 : ℚ
  X2 : ℚ
  Y2 : ℚ
deriving DecidableEq

/-- `Box::Overlaps` (kdtree2d.h:43-46). -/
def Box.Overlaps (self b : Box) : Bool :=
  decide (b.X2 ≥ self.X1) && decide (b.X1 ≤ self.X2) &&
  decide (b.Y2 ≥ self.Y1) && decide (b.Y1 ≤ self.Y2)

/-- `Box::IsInsideMe` (kdtree2d.h:47-50). -/
def Box.IsInsideMe (self b : Box) : Bool :=
  decide (b.X1 ≥ self.X1) && decide (b.Y1 ≥ self.Y1) &&
  decide (b.X2 ≤ self.X2) && decide (b.Y2 ≤ self.Y2)

/-- `struct Elem { size_t Id; kd2::Box Box; }` -/
structure Elem where
  Id : Nat
  Box : kd2.Box
deriving DecidableEq

/-- `struct Tree::Node` (kdtree2d.h:71-82): the element vector and either no child or the three
children `ChildA`, `ChildB`, `ChildC`. -/
inductive Node where
  | leaf (Elems : List Elem) : Node
  | inner (Elems : List Elem) (ChildA ChildB ChildC : Node) : Node
deriving DecidableEq

/-- The field `Node::Elems`. -/
def Node.Elems : Node → List Elem
  | .leaf els => els
  | .inner els _ _ _ => els

/-- The test `n->ChildA != nullptr`. -/
def Node.hasChildA : Node → Bool
  | .leaf _ => false
  | .inner _ _ _ _ => true

/-- Number of nodes of a subtree. -/
def Node.size : Node → Nat
  | .leaf _ => 1
  | .inner _ a b c => 1 + a.size + b.size + c.size

/-- Every element stored in a subtree: the node's own collection, then the subtrees of
`ChildA`, `ChildB`, `ChildC`. -/
def Node.allElems : Node → List Elem
  | .leaf els => els
  | .inner els a b c => els ++ (a.allElems ++ (b.allElems ++ c.allElems))

/-- `class Tree` (kdtree2d.h:58-92): the public fields `NodeSize`, `NScanned` and the private
`Root`, `RootBox`. -/
structure Tree where
  NodeSize : Nat
  NScanned : Nat
  Root : Node
  RootBox : Box
deriving DecidableEq

/-- Width of `size_t`. -/
def SIZE_BITS : Nat := 64

/-- A default-constructed `Tree` whose public field `NodeSize` has then been set to `nodeSize`
(the default is 64).  `Root` is a leaf without elements and `NScanned` is 0.  `RootBox` has no
initializer in the class; it is the zero box here and every use below goes through `Initialize`,
which overwrites it. -/
def Tree.fresh (nodeSize : Nat) : Tree :=
  { NodeSize := nodeSize, NScanned := 0, Root := Node.leaf [], RootBox := ⟨0, 0, 0, 0⟩ }

/-! ## Subdivide -/

/-- `Tree::Subdivide` (kdtree2d.h:290-308).  Returns `(ca, cb, cc)`. -/
def Subdivide (depth : Nat) (b : Box) : Box × Box × Box :=
  if depth &&& 1 = 1 then
    -- odd splits left/right
    let m1 := (33 / 100 : ℚ) * (b.X1 + b.X2)
    let m2 := (50 / 100 : ℚ) * (b.X1 + b.X2)
    let m3 := (66 / 100 : ℚ) * (b.X1 + b.X2)
    (⟨b.X1, b.Y1, m2, b.Y2⟩, ⟨m2, b.Y1, b.X2, b.Y2⟩, ⟨m1, b.Y1, m3, b.Y2⟩)
  else
    -- even splits top/bottom
    let m1 := (33 / 100 : ℚ) * (b.Y1 + b.Y2)
    let m2 := (50 / 100 : ℚ) * (b.Y1 + b.Y2)
    let m3 := (66 / 100 : ℚ) * (b.Y1 + b.Y2)
    (⟨b.X1, b.Y1, b.X2, m2⟩, ⟨b.X1, m2, b.X2, b.Y2⟩, ⟨b.X1, m1, b.X2, m3⟩)

/-! ## Split -/

/-- The `for (auto elem : n->Elems)` loop of `Tree::Split` (kdtree2d.h:274-286).  The four
accumulators are `pruned` and the element vectors of the new children A, B, C. -/
def Split.loop (boxA boxB boxC : Box) :
    List Elem → List Elem → List Elem → List Elem → List Elem →
    List Elem × List Elem × List Elem × List Elem
  | [], pruned, ea, eb, ec => (pruned, ea, eb, ec)
  | elem :: rest, pruned, ea, eb, ec =>
    let qa := boxA.Overlaps elem.Box
    let qb := boxB.Overlaps elem.Box
    let qc := boxC.Overlaps elem.Box
    if qa && qb && qc then Split.loop boxA boxB boxC rest (pruned ++ [elem]) ea eb ec
    else if qa then Split.loop boxA boxB boxC rest pruned (ea ++ [elem]) eb ec
    else if qb then Split.loop boxA boxB boxC rest pruned ea (eb ++ [elem]) ec
    else Split.loop boxA boxB boxC rest pruned ea eb (ec ++ [elem])

/-- `Tree::Split` (kdtree2d.h:267-288): three new empty children are attached to `n`, the
elements of `n` are distributed, and `n` keeps `pruned`. -/
def Split (n : Node) (nbox : Box) (depth : Nat) : Node :=
  match Subdivide depth nbox with
  | (boxA, boxB, boxC) =>
    match Split.loop boxA boxB boxC n.Elems [] [] [] [] with
    | (pruned, ea, eb, ec) => Node.inner pruned (Node.leaf ea) (Node.leaf eb) (Node.leaf ec)

/-! ## Insert -/

/-- The body of `Tree::Insert(size_t, Box)` (kdtree2d.h:150-182) from the node `n` with region
`nbox` at `depth` onwards: the descent loop (one recursive call per iteration that moves to a
child), then the `push_back` and the overflow test at the node where the loop stops. -/
def InsertAt (NodeSize : Nat) (id : Nat) (box : Box) : Node → Box → Nat → Node
  | .leaf els, nbox, depth =>
    -- leaf node: break
    let n := Node.leaf (els ++ [⟨id, box⟩])
    if n.Elems.length ≥ NodeSize then Split n nbox depth else n
  | .inner els a b c, nbox, depth =>
    match Subdivide depth nbox with
    | (boxA, boxB, boxC) =>
      let qa := boxA.IsInsideMe box
      let qb := boxB.IsInsideMe box
      let qc := boxC.IsInsideMe box
      if !(qa || qb || qc) then
        -- not strictly inside any child: break; the node has children, so no Split
        Node.inner (els ++ [⟨id, box⟩]) a b c
      else if qa then Node.inner els (InsertAt NodeSize id box a boxA (depth + 1)) b c
      else if qb then Node.inner els a (InsertAt NodeSize id box b boxB (depth + 1)) c
      else Node.inner els a b (InsertAt NodeSize id box c boxC (depth + 1))

/-- `Tree::Insert(size_t id, Box box)`. -/
def Tree.Insert (t : Tree) (id : Nat) (box : Box) : Tree :=
  { t with Root := InsertAt t.NodeSize id box t.Root t.RootBox 0 }

/-- `Tree::Insert(size_t id, float x1, float y1, float x2, float y2)` (kdtree2d.h:146-148). -/
def Tree.Insert4 (t : Tree) (id : Nat) (x1 y1 x2 y2 : ℚ) : Tree :=
  t.Insert id ⟨x1, y1, x2, y2⟩

/-- `Tree::Initialize` (kdtree2d.h:141-144).  `none` is the failed `assert`. -/
def Tree.Initialize (t : Tree) (x1 y1 x2 y2 : ℚ) : Option Tree :=
  if !t.Root.hasChildA && t.Root.Elems.length == 0 then
    some { t with RootBox := ⟨x1, y1, x2, y2⟩ }
  else none

/-! ## VisitorFind -/

/-- `struct QueueItem` local to `VisitorFind`. -/
structure QueueItem where
  Node : kd2.Node
  Box : kd2.Box
  Depth : Nat

/-- Total number of tree nodes held by the worklist. -/
def queueWeight (queue : List QueueItem) : Nat :=
  (queue.map (fun q => q.Node.size)).sum

/-- The `for (const auto& el : q.Node->Elems)` loop of `VisitorFind` (kdtree2d.h:199-204) for a
visitor with state `V` whose call operator is `call`.  The Boolean is `false` when the visitor
returned `false`, in which case `VisitorFind` returns at once. -/
def scanElems {V : Type} (call : V → Elem → V × Bool) (findBox : Box) :
    List Elem → V → V × Bool
  | [], vis => (vis, true)
  | el :: rest, vis =>
    if el.Box.Overlaps findBox then
      match call vis el with
      | (vis1, true) => scanElems call findBox rest vis1
      | (vis1, false) => (vis1, false)
    else scanElems call findBox rest vis

/-- The three conditional `queue.push_back` calls of `VisitorFind` (kdtree2d.h:207-214).  The
head of the list is the back of the vector. -/
def pushChildren (findBox : Box) (a b c : Node) (box : Box) (depth : Nat)
    (queue : List QueueItem) : List QueueItem :=
  match Subdivide depth box with
  | (boxA, boxB, boxC) =>
    let queue1 := if boxA.Overlaps findBox then ⟨a, boxA, depth + 1⟩ :: queue else queue
    let queue2 := if boxB.Overlaps findBox then ⟨b, boxB, depth + 1⟩ :: queue1 else queue1
    if boxC.Overlaps findBox then ⟨c, boxC, depth + 1⟩ :: queue2 else queue2

/-- The `while (queue.size() != 0)` loop of `Tree::VisitorFind` (kdtree2d.h:194-215), on the
worklist `queue` (head = back of the vector), the function-local visitor `vis` and the counter
`NScanned`.  Returns the final state of the local visitor and of the counter. -/
def VisitorFind.loop {V : Type} (call : V → Elem → V × Bool) (findBox : Box) :
    List QueueItem → V → Nat → V × Nat
  | [], vis, nscanned => (vis, nscanned)
  | ⟨.leaf els, _, _⟩ :: queue, vis, nscanned =>
    let nscanned1 := (nscanned + els.length) % 2 ^ SIZE_BITS
    match scanElems call findBox els vis with
    | (vis1, false) => (vis1, nscanned1)
    | (vis1, true) => VisitorFind.loop call findBox queue vis1 nscanned1
  | ⟨.inner els a b c, box, depth⟩ :: queue, vis, nscanned =>
    let nscanned1 := (nscanned + els.length) % 2 ^ SIZE_BITS
    match scanElems call findBox els vis with
    | (vis1, false) => (vis1, nscanned1)
    | (vis1, true) =>
      VisitorFind.loop call findBox (pushChildren findBox a b c box depth queue) vis1 nscanned1
termination_by queue => queueWeight queue
decreasing_by
  · simp [queueWeight, Node.size]
  · have h : queueWeight (pushChildren findBox a b c box depth queue)
        ≤ a.size + b.size + c.size + queueWeight queue := by
      unfold pushChildren
      rcases Subdivide depth box with ⟨boxA, boxB, boxC⟩
      simp only
      split_ifs <;> simp [queueWeight] <;> omega
    simp only [queueWeight, List.map_cons, List.sum_cons, Node.size] at h ⊢
    omega

/-- `Tree::VisitorFind` (kdtree2d.h:184-216): the worklist is seeded with `{n, nbox, depth}`.
The parameter `vis` is taken by value, so the loop works on the callee's own visitor object;
its final state and the final `NScanned` are returned here, and each caller below keeps only
what C++ lets it observe. -/
def VisitorFind {V : Type} (call : V → Elem → V × Bool) (n : Node) (nbox : Box) (depth : Nat)
    (findBox : Box) (vis : V) (nscanned : Nat) : V × Nat :=
  VisitorFind.loop call findBox [⟨n, nbox, depth⟩] vis nscanned

/-! ## Find and AnyOverlap -/

/-- The visitor of `Find(Box, std::vector<Elem>&)`: its only member is the pointer `Out`; the
state is the vector it points to.  `Out->push_back(el); return true;` -/
def Find.visitorElems (out : List Elem) (el : Elem) : List Elem × Bool :=
  (out ++ [el], true)

/-- The visitor of `Find(Box, std::vector<size_t>&)`: `Out->push_back(el.Id); return true;` -/
def Find.visitorIds (out : List Nat) (el : Elem) : List Nat × Bool :=
  (out ++ [el.Id], true)

/-- The visitor of `AnyOverlap`: its only member is the value `bool Any`.
`Any = true; return false;` -/
def AnyOverlap.visitor (_any : Bool) (_el : Elem) : Bool × Bool :=
  (true, false)

/-- `Tree::Find(Box box, std::vector<Elem>& els)` (kdtree2d.h:218-230).  The visitor copy made
for `VisitorFind` holds the same pointer `&els`, so what the copy pushes lands in `els`.
Returns the vector `els` after the call and the tree (only `NScanned` changes). -/
def Tree.FindElems (t : Tree) (box : Box) (els : List Elem) : List Elem × Tree :=
  match VisitorFind Find.visitorElems t.Root t.RootBox 0 box els t.NScanned with
  | (out, nscanned) => (out, { t with NScanned := nscanned })

/-- `Tree::Find(Box box, std::vector<size_t>& ids)` (kdtree2d.h:232-244). -/
def Tree.FindIds (t : Tree) (box : Box) (ids : List Nat) : List Nat × Tree :=
  match VisitorFind Find.visitorIds t.Root t.RootBox 0 box ids t.NScanned with
  | (out, nscanned) => (out, { t with NScanned := nscanned })

/-- `std::vector<size_t> Tree::Find(Box box)` (kdtree2d.h:246-250). -/
def Tree.Find (t : Tree) (box : Box) : List Nat × Tree :=
  t.FindIds box []

/-- `Tree::AnyOverlap` (kdtree2d.h:252-265).  The local `visitor v` starts with `Any = false`
and is passed to `VisitorFind` by value: the callee sets `Any` on its own copy, which is
destroyed on return, and `return v.Any` reads the caller's object. -/
def Tree.AnyOverlap (t : Tree) (box : Box) : Bool × Tree :=
  let v : Bool := false
  match VisitorFind AnyOverlap.visitor t.Root t.RootBox 0 box v t.NScanned with
  | (_visCopy, nscanned) => (v, { t with NScanned := nscanned })

/-! ## Move

Copying is modelled on node objects in memory, further down. -/

/-- `Node::operator=(Node&& b)` (kdtree2d.h:127-139): the children of `*this` are deleted, the
three pointers of `b` are taken over and nulled in `b`, and `Elems = std::move(b.Elems)` takes
over the vector of `b`, which the standard library implementations leave empty.  Returns the
new `*this` and the new `b`. -/
def Node.moveAssign (_self : Node) : Node → Node × Node
  | .leaf els => (Node.leaf els, Node.leaf [])
  | .inner els a b c => (Node.inner els a b c, Node.leaf [])

/-- The implicit move assignment of `Tree` (`kd = std::move(copy);`): member-wise; the scalar
members and `RootBox` are copied, `Root` is move-assigned.  Returns the new `*this` and the
moved-from tree. -/
def Tree.moveAssign (self b : Tree) : Tree × Tree :=
  match Node.moveAssign self.Root b.Root with
  | (root, broot) =>
    ({ NodeSize := b.NodeSize, NScanned := b.NScanned, Root := root, RootBox := b.RootBox },
     { b with Root := broot })

/-! ## Call sequences -/

/-- `Insert` for each element of `es`, in order. -/
def Tree.InsertAll (t : Tree) (es : List Elem) : Tree :=
  es.foldl (fun t e => t.Insert e.Id e.Box) t

/-- A tree with overflow threshold `nodeSize` on which `Initialize(x1, y1, x2, y2)` and then
`Insert` for each element of `es` have been called. -/
def Tree.build (nodeSize : Nat) (x1 y1 x2 y2 : ℚ) (es : List Elem) : Option Tree :=
  ((Tree.fresh nodeSize).Initialize x1 y1 x2 y2).map (fun t => t.InsertAll es)

/-- A call of the public interface that changes the tree. -/
inductive Call where
  | Initialize (x1 y1 x2 y2 : ℚ) : Call
  | Insert (id : Nat) (box : Box) : Call

/-- One call. `none` is the failed assertion of `Initialize`. -/
def Tree.call (t : Tree) : Call → Option Tree
  | .Initialize x1 y1 x2 y2 => t.Initialize x1 y1 x2 y2
  | .Insert id box => some (t.Insert id box)

/-- A sequence of calls, stopping at the first failed assertion. -/
def Tree.run (t : Tree) : List Call → Option Tree
  | [] => some t
  | c :: cs => (t.call c).bind (fun t1 => t1.run cs)

/-- The elements inserted by a sequence of calls, in order. -/
def insertedBy : List Call → List Elem
  | [] => []
  | .Initialize _ _ _ _ :: cs => insertedBy cs
  | .Insert id box :: cs => ⟨id, box⟩ :: insertedBy cs

/-! ## Specification-side definitions -/

/-- `x1 <= x2` and `y1 <= y2`. -/
def Box.WellFormed (b : Box) : Prop :=
  b.X1 ≤ b.X2 ∧ b.Y1 ≤ b.Y2

instance (b : Box) : Decidable b.WellFormed := by
  unfold Box.WellFormed; infer_instance

/-- The point `(x, y)` lies in the closed rectangle `b`. -/
def Box.Contains (b : Box) (x y : ℚ) : Prop :=
  b.X1 ≤ x ∧ x ≤ b.X2 ∧ b.Y1 ≤ y ∧ y ≤ b.Y2

/-- The brute-force scan of the test driver (test.cpp:49-50): the elements of `es` whose box
overlaps the query. -/
def bruteForce (es : List Elem) (query : Box) : List Elem :=
  es.filter (fun e => e.Box.Overlaps query)

/-- The elements a traversal from node `n` (region `nbox`, depth `depth`) reports for a visitor
that never stops, in the order of the worklist: the node's own matches, then the subtrees of C,
B and A (the last pushed is popped first), each only when its region overlaps the query. -/
def Node.collect (findBox : Box) : Node → Box → Nat → List Elem
  | .leaf els, _, _ => els.filter (fun e => e.Box.Overlaps findBox)
  | .inner els a b c, nbox, depth =>
    els.filter (fun e => e.Box.Overlaps findBox) ++
      ((if (Subdivide depth nbox).2.2.Overlaps findBox
          then c.collect findBox (Subdivide depth nbox).2.2 (depth + 1) else []) ++
       ((if (Subdivide depth nbox).2.1.Overlaps findBox
          then b.collect findBox (Subdivide depth nbox).2.1 (depth + 1) else []) ++
        (if (Subdivide depth nbox).1.Overlaps findBox
          then a.collect findBox (Subdivide depth nbox).1 (depth + 1) else [])))

/-- What a never-stopping traversal reports for a whole worklist. -/
def collectQueue (findBox : Box) : List QueueItem → List Elem
  | [] => []
  | q :: queue => q.Node.collect findBox q.Box q.Depth ++ collectQueue findBox queue

/-- Every element of the subtree of `n` lies inside the region `nbox` of `n`, and the same holds
for each child with its region from `Subdivide`. -/
def Node.Enclosed : Node → Box → Nat → Prop
  | .leaf els, nbox, _ => ∀ e ∈ els, nbox.IsInsideMe e.Box = true
  | .inner els a b c, nbox, depth =>
    (∀ e ∈ (Node.inner els a b c).allElems, nbox.IsInsideMe e.Box = true) ∧
    a.Enclosed (Subdivide depth nbox).1 (depth + 1) ∧
    b.Enclosed (Subdivide depth nbox).2.1 (depth + 1) ∧
    c.Enclosed (Subdivide depth nbox).2.2 (depth + 1)

/-- A region with non-negative lower corner and `x1 <= x2`, `y1 <= y2`. -/
def Box.Positive (b : Box) : Prop :=
  0 ≤ b.X1 ∧ b.X1 ≤ b.X2 ∧ 0 ≤ b.Y1 ∧ b.Y1 ≤ b.Y2

/-- The elements of the test driver (test.cpp:15-21): for `x`, `y` in `[0, dim)` the box
`(x + 0.1, y + 0.1, x + 0.9, y + 0.9)`, with the running index `x * dim + y` as id. -/
def grid (dim : Nat) : List Elem :=
  (List.range dim).flatMap (fun x => (List.range dim).map (fun y =>
    ⟨x * dim + y, ⟨x + 1 / 10, y + 1 / 10, x + 9 / 10, y + 9 / 10⟩⟩))

/-! ## Definitions for the structural claims -/

/-- All nodes of a subtree: the node itself, then the nodes below `ChildA`, `ChildB`,
`ChildC`. -/
def Node.nodes : Node → List Node
  | .leaf els => [Node.leaf els]
  | .inner els a b c => Node.inner els a b c :: (a.nodes ++ (b.nodes ++ c.nodes))

/-- Every element is stored at a node whose region contains its box (`IsInsideMe`), the region
of the root being `nbox` and the region of a child the one `Subdivide` gives it. -/
def Node.storedInside : Node → Box → Nat → Bool
  | .leaf els, nbox, _ => els.all (fun e => nbox.IsInsideMe e.Box)
  | .inner els a b c, nbox, depth =>
    els.all (fun e => nbox.IsInsideMe e.Box) &&
      (a.storedInside (Subdivide depth nbox).1 (depth + 1) &&
        (b.storedInside (Subdivide depth nbox).2.1 (depth + 1) &&
          c.storedInside (Subdivide depth nbox).2.2 (depth + 1)))

/-- How many of the three child regions of a node with region `nbox` at `depth` overlap the
box `e`. -/
def overlapCount (depth : Nat) (nbox e : Box) : Nat :=
  (if (Subdivide depth nbox).1.Overlaps e then 1 else 0) +
    ((if (Subdivide depth nbox).2.1.Overlaps e then 1 else 0) +
      (if (Subdivide depth nbox).2.2.Overlaps e then 1 else 0))

/-- Every element stored directly on an internal node overlaps more than one of the three child
regions of that node. -/
def Node.innerElemsStraddle : Node → Box → Nat → Bool
  | .leaf _, _, _ => true
  | .inner els a b c, nbox, depth =>
    els.all (fun e => decide (1 < overlapCount depth nbox e.Box)) &&
      (a.innerElemsStraddle (Subdivide depth nbox).1 (depth + 1) &&
        (b.innerElemsStraddle (Subdivide depth nbox).2.1 (depth + 1) &&
          c.innerElemsStraddle (Subdivide depth nbox).2.2 (depth + 1)))

/-- Every leaf of the subtree holds fewer than `T` elements. -/
def Node.leavesBelow (T : Nat) : Node → Bool
  | .leaf els => decide (els.length < T)
  | .inner _ a b c => a.leavesBelow T && (b.leavesBelow T && c.leavesBelow T)

/-- The largest element count of a leaf of the subtree. -/
def Node.maxLeaf : Node → Nat
  | .leaf els => els.length
  | .inner _ a b c => max a.maxLeaf (max b.maxLeaf c.maxLeaf)

/-- The node `n` at which the descent loop of `Tree::Insert` stops (kdtree2d.h:154-178), as it
is when `Insert` returns: after the `push_back` and the `Split` that may follow. -/
def InsertAt.target (NodeSize : Nat) (id : Nat) (box : Box) : Node → Box → Nat → Node
  | .leaf els, nbox, depth => InsertAt NodeSize id box (Node.leaf els) nbox depth
  | .inner els a b c, nbox, depth =>
    match Subdivide depth nbox with
    | (boxA, boxB, boxC) =>
      let qa := boxA.IsInsideMe box
      let qb := boxB.IsInsideMe box
      let qc := boxC.IsInsideMe box
      if !(qa || qb || qc) then Node.inner (els ++ [⟨id, box⟩]) a b c
      else if qa then InsertAt.target NodeSize id box a boxA (depth + 1)
      else if qb then InsertAt.target NodeSize id box b boxB (depth + 1)
      else InsertAt.target NodeSize id box c boxC (depth + 1)

/-- The number of calls of `Split` that one `Tree::Insert` makes: the call site is the last
statement (kdtree2d.h:180-181), reached once, at the node where the descent stopped. -/
def InsertAt.splitCalls (NodeSize : Nat) (box : Box) : Node → Box → Nat → Nat
  | .leaf els, _, _ => if els.length + 1 ≥ NodeSize then 1 else 0
  | .inner _ a b c, nbox, depth =>
    match Subdivide depth nbox with
    | (boxA, boxB, boxC) =>
      let qa := boxA.IsInsideMe box
      let qb := boxB.IsInsideMe box
      let qc := boxC.IsInsideMe box
      if !(qa || qb || qc) then 0
      else if qa then InsertAt.splitCalls NodeSize box a boxA (depth + 1)
      else if qb then InsertAt.splitCalls NodeSize box b boxB (depth + 1)
      else InsertAt.splitCalls NodeSize box c boxC (depth + 1)

/-- The nodes that the loop of `VisitorFind` pops from the worklist, in order: the recursion of
`VisitorFind.loop` with the popped node recorded at each iteration. -/
def VisitorFind.popped {V : Type} (call : V → Elem → V × Bool) (findBox : Box) :
    List QueueItem → V → List Node
  | [], _ => []
  | ⟨.leaf els, _, _⟩ :: queue, vis =>
    match scanElems call findBox els vis with
    | (_, false) => [Node.leaf els]
    | (vis1, true) => Node.leaf els :: VisitorFind.popped call findBox queue vis1
  | ⟨.inner els a b c, box, depth⟩ :: queue, vis =>
    match scanElems call findBox els vis with
    | (_, false) => [Node.inner els a b c]
    | (vis1, true) =>
      Node.inner els a b c ::
        VisitorFind.popped call findBox (pushChildren findBox a b c box depth queue) vis1
termination_by queue => queueWeight queue
decreasing_by
  · simp [queueWeight, Node.size]
  · have h : queueWeight (pushChildren findBox a b c box depth queue)
        ≤ a.size + b.size + c.size + queueWeight queue := by
      unfold pushChildren
      rcases Subdivide depth box with ⟨boxA, boxB, boxC⟩
      simp only
      split_ifs <;> simp [queueWeight] <;> omega
    simp only [queueWeight, List.map_cons, List.sum_cons, Node.size] at h ⊢
    omega

/-- The nodes a traversal from node `n` visits when the visitor never stops: the node, then the
subtrees of C, B and A, each only when its region overlaps the query. -/
def Node.visitList (findBox : Box) : Node → Box → Nat → List Node
  | .leaf els, _, _ => [Node.leaf els]
  | .inner els a b c, nbox, depth =>
    Node.inner els a b c ::
      ((if (Subdivide depth nbox).2.2.Overlaps findBox
          then c.visitList findBox (Subdivide depth nbox).2.2 (depth + 1) else []) ++
       ((if (Subdivide depth nbox).2.1.Overlaps findBox
          then b.visitList findBox (Subdivide depth nbox).2.1 (depth + 1) else []) ++
        (if (Subdivide depth nbox).1.Overlaps findBox
          then a.visitList findBox (Subdivide depth nbox).1 (depth + 1) else [])))

/-- The nodes a never-stopping traversal visits for a whole worklist. -/
def visitQueue (findBox : Box) : List QueueItem → List Node
  | [] => []
  | q :: queue => q.Node.visitList findBox q.Box q.Depth ++ visitQueue findBox queue

/-- The prefix of a list up to and including the first entry that satisfies `p` (the whole list
when there is none). -/
def takeThrough {α : Type} (p : α → Bool) : List α → List α
  | [] => []
  | x :: xs => if p x then [x] else x :: takeThrough p xs

/-- The sum of the element-collection sizes of a list of nodes. -/
def scannedSize (ns : List Node) : Nat :=
  (ns.map (fun n => n.Elems.length)).sum

/-! ## Node objects in memory

Copying is about object identity: whether two trees share node objects.  For it the nodes are
objects at addresses, with the three child pointers of the source, and the functions that take
part in the copy test (`delete`, the copy assignment, `Split`, `Insert`, `VisitorFind`) are
embedded once more on these objects.  Recursion and loops over pointers need not terminate on
an arbitrary store, so these functions take a step budget. -/

/-- What stops a run: the use of a null or dangling pointer (undefined behaviour in C++), a
failed `assert`, or the step budget of the model running out. -/
inductive Fault where
  | dangling : Fault
  | assertion : Fault
  | fuel : Fault
deriving DecidableEq

/-- A `Node` object (kdtree2d.h:71-82): `ChildA`, `ChildB`, `ChildC` (`none` is `nullptr`) and
`Elems`. -/
structure Cell where
  ChildA : Option Nat
  ChildB : Option Nat
  ChildC : Option Nat
  Elems : List Elem
deriving DecidableEq

/-- The node objects that are alive, by address, and the next address that `new` hands out
(addresses are never handed out twice). -/
structure Store where
  cells : Nat → Option Cell
  next : Nat

/-- No object. -/
def Store.empty : Store :=
  { cells := fun _ => none, next := 0 }

/-- Access to the object at `p`; a dead object is a dangling pointer. -/
def Store.read (s : Store) (p : Nat) : Except Fault Cell :=
  match s.cells p with
  | some c => Except.ok c
  | none => Except.error Fault.dangling

/-- Assignment to the members of the object at `p`. -/
def Store.write (s : Store) (p : Nat) (c : Cell) : Store :=
  { cells := fun q => if q = p then some c else s.cells q, next := s.next }

/-- The storage of the object at `p` is released. -/
def Store.release (s : Store) (p : Nat) : Store :=
  { cells := fun q => if q = p then none else s.cells q, next := s.next }

/-- A default-constructed `Node` at a new address (`new Node()`, or the `Root` member of a new
`Tree`): the default member initializers make the three pointers null and `Elems` empty. -/
def Store.newNode (s : Store) : Store × Nat :=
  ({ cells := fun q => if q = s.next then some ⟨none, none, none, []⟩ else s.cells q,
     next := s.next + 1 }, s.next)

/-- `delete p` with `Node::~Node()` (kdtree2d.h:104-108): nothing for a null pointer; otherwise
the destructor deletes the three children of `*p`, then the storage of `*p` is released. -/
def Store.deleteNode : Nat → Store → Option Nat → Except Fault Store
  | _, s, none => Except.ok s
  | 0, _, some _ => Except.error Fault.fuel
  | fuel + 1, s, some p => do
    let c ← s.read p
    let s1 ← Store.deleteNode fuel s c.ChildA
    let c1 ← s1.read p
    let s2 ← Store.deleteNode fuel s1 c1.ChildB
    let c2 ← s2.read p
    let s3 ← Store.deleteNode fuel s2 c2.ChildC
    let _ ← s3.read p
    pure (s3.release p)

/-- The statements `delete ChildA; delete ChildB; delete ChildC;` of the object at `self`
(kdtree2d.h:111-113, 128-130).  The pointers are left as they were (dangling). -/
def Store.deleteChildren (fuel : Nat) (s : Store) (self : Nat) : Except Fault Store := do
  let c ← s.read self
  let s1 ← Store.deleteNode fuel s c.ChildA
  let c1 ← s1.read self
  let s2 ← Store.deleteNode fuel s1 c1.ChildB
  let c2 ← s2.read self
  Store.deleteNode fuel s2 c2.ChildC

/-- Dereference of a pointer (`*b.ChildB`, `q.Node->Elems`): a null pointer has no object. -/
def derefChild (p : Option Nat) : Except Fault Nat :=
  match p with
  | some q => Except.ok q
  | none => Except.error Fault.dangling

/-- One statement `Child = new Node(*b.Child);` of kdtree2d.h:115-117, for the child member read
by `get` and written by `set`.  `new Node(*p)` is a default-constructed node at a new address
that is then assigned from `*p` (the copy constructor, kdtree2d.h:96-98); `assign` is that
assignment. -/
def Store.copyChild (assign : Store → Nat → Nat → Except Fault Store) (s : Store) (self b : Nat)
    (get : Cell → Option Nat) (set : Cell → Option Nat → Cell) : Except Fault Store := do
  let cb ← s.read b
  let p ← derefChild (get cb)
  let s1 ← assign s.newNode.1 s.newNode.2 p
  let c ← s1.read self
  pure (s1.write self (set c (some s.newNode.2)))

/-- The part of `Node::operator=(const Node& b)` after the three `delete` statements
(kdtree2d.h:114-124): the `if (b.ChildA)` with its two branches, and `Elems = b.Elems`.  Every
member is read from the store at the point where the statement reads it. -/
def Store.copyMembers (assign : Store → Nat → Nat → Except Fault Store) (s : Store)
    (self b : Nat) : Except Fault Store := do
  let cb ← s.read b
  let s3 ←
    match cb.ChildA with
    | some _ => do
      let s1 ← Store.copyChild assign s self b (fun c => c.ChildA)
        (fun c p => { c with ChildA := p })
      let s2 ← Store.copyChild assign s1 self b (fun c => c.ChildB)
        (fun c p => { c with ChildB := p })
      Store.copyChild assign s2 self b (fun c => c.ChildC) (fun c p => { c with ChildC := p })
    | none => do
      let c ← s.read self
      pure (s.write self { c with ChildA := none, ChildB := none, ChildC := none })
  let cbe ← s3.read b
  let ce ← s3.read self
  pure (s3.write self { ce with Elems := cbe.Elems })

/-- `Node::operator=(const Node& b)` (kdtree2d.h:110-125) on the object at `self` with the
object at `b` as argument. -/
def Store.copyAssign : Nat → Store → Nat → Nat → Except Fault Store
  | 0, _, _, _ => Except.error Fault.fuel
  | fuel + 1, s, self, b => do
    let s1 ← Store.deleteChildren fuel s self
    Store.copyMembers (Store.copyAssign fuel) s1 self b

/-- `Tree::Split` (kdtree2d.h:267-288) on the node object at `n`: three `new Node()` become
the children of `*n`; the loop over `n->Elems` (`Split.loop`) pushes every element onto
`pruned` or onto the element vector of one of the new, empty children; `n->Elems` becomes
`pruned`. -/
def Store.Split (s : Store) (n : Nat) (nbox : Box) (depth : Nat) : Except Fault Store :=
  match Subdivide depth nbox with
  | (boxA, boxB, boxC) => do
    let c ← s.read n
    let sA := s.newNode
    let sB := sA.1.newNode
    let sC := sB.1.newNode
    match Split.loop boxA boxB boxC c.Elems [] [] [] [] with
    | (pruned, ea, eb, ec) =>
      pure ((((sC.1.write sA.2 ⟨none, none, none, ea⟩).write sB.2 ⟨none, none, none, eb⟩).write
        sC.2 ⟨none, none, none, ec⟩).write n ⟨some sA.2, some sB.2, some sC.2, pruned⟩)

/-- `Tree::Insert(size_t id, Box box)` (kdtree2d.h:150-182) from the node object at `n` onwards:
one call per iteration of the descent loop, then the `push_back` and the overflow test.  The
child pointer assigned to `n` is dereferenced at the top of the next iteration (`n->ChildA`). -/
def Store.InsertAt (NodeSize : Nat) (id : Nat) (box : Box) :
    Nat → Store → Nat → Box → Nat → Except Fault Store
  | 0, _, _, _, _ => Except.error Fault.fuel
  | fuel + 1, s, n, nbox, depth => do
    let c ← s.read n
    match c.ChildA with
    | none =>
      -- leaf node: break; push_back; Split when the count has reached NodeSize
      let s1 := s.write n { c with Elems := c.Elems ++ [(⟨id, box⟩ : Elem)] }
      if (c.Elems ++ [(⟨id, box⟩ : Elem)]).length ≥ NodeSize then s1.Split n nbox depth else pure s1
    | some pa =>
      match Subdivide depth nbox with
      | (boxA, boxB, boxC) =>
        let qa := boxA.IsInsideMe box
        let qb := boxB.IsInsideMe box
        let qc := boxC.IsInsideMe box
        if !(qa || qb || qc) then
          -- break; push_back; the node has children, so no Split
          pure (s.write n { c with Elems := c.Elems ++ [(⟨id, box⟩ : Elem)] })
        else if qa then Store.InsertAt NodeSize id box fuel s pa boxA (depth + 1)
        else if qb then do
          let pb ← derefChild c.ChildB
          Store.InsertAt NodeSize id box fuel s pb boxB (depth + 1)
        else do
          let pc ← derefChild c.ChildC
          Store.InsertAt NodeSize id box fuel s pc boxC (depth + 1)

/-- `struct QueueItem` of `VisitorFind`: the node pointer (`none` is `nullptr`), the region and
the depth. -/
structure PtrQueueItem where
  Node : Option Nat
  Box : kd2.Box
  Depth : Nat

/-- The loop of `Tree::VisitorFind` (kdtree2d.h:194-215) over node objects: `queue.back()`,
`pop_back`, the counter, the element loop (`scanElems`), and the three conditional
`push_back` calls, which store the child pointers as they are; a pointer is dereferenced when
its item is taken from the worklist. -/
def Store.VisitorFind.loop {V : Type} (call : V → Elem → V × Bool) (findBox : Box) (s : Store) :
    Nat → List PtrQueueItem → V → Nat → Except Fault (V × Nat)
  | _, [], vis, nscanned => Except.ok (vis, nscanned)
  | 0, _ :: _, _, _ => Except.error Fault.fuel
  | fuel + 1, q :: queue, vis, nscanned => do
    let p ← derefChild q.Node
    let c ← s.read p
    let nscanned1 := (nscanned + c.Elems.length) % 2 ^ SIZE_BITS
    match scanElems call findBox c.Elems vis with
    | (vis1, false) => pure (vis1, nscanned1)
    | (vis1, true) =>
      match c.ChildA with
      | none => Store.VisitorFind.loop call findBox s fuel queue vis1 nscanned1
      | some _ =>
        match Subdivide q.Depth q.Box with
        | (boxA, boxB, boxC) =>
          let queue1 :=
            if boxA.Overlaps findBox then ⟨c.ChildA, boxA, q.Depth + 1⟩ :: queue else queue
          let queue2 :=
            if boxB.Overlaps findBox then ⟨c.ChildB, boxB, q.Depth + 1⟩ :: queue1 else queue1
          let queue3 :=
            if boxC.Overlaps findBox then ⟨c.ChildC, boxC, q.Depth + 1⟩ :: queue2 else queue2
          Store.VisitorFind.loop call findBox s fuel queue3 vis1 nscanned1

/-- A `Tree` object (kdtree2d.h:58-92): the scalar members, `RootBox`, and the address of its
member `Root`. -/
structure TreeObj where
  NodeSize : Nat
  NScanned : Nat
  Root : Nat
  RootBox : Box

/-- A default-constructed `Tree` whose `NodeSize` has then been set to `nodeSize`; its `Root`
is a new node object. -/
def Store.newTree (s : Store) (nodeSize : Nat) : Store × TreeObj :=
  (s.newNode.1, { NodeSize := nodeSize, NScanned := 0, Root := s.newNode.2, RootBox := ⟨0, 0, 0, 0⟩ })

/-- `Tree::Initialize` (kdtree2d.h:141-144) on a tree object. -/
def TreeObj.Initialize (s : Store) (t : TreeObj) (x1 y1 x2 y2 : ℚ) : Except Fault TreeObj := do
  let c ← s.read t.Root
  if c.ChildA.isNone && c.Elems.length == 0 then
    pure { t with RootBox := ⟨x1, y1, x2, y2⟩ }
  else Except.error Fault.assertion

/-- `Tree::Insert(size_t id, Box box)` on a tree object. -/
def TreeObj.Insert (fuel : Nat) (s : Store) (t : TreeObj) (id : Nat) (box : Box) :
    Except Fault Store :=
  Store.InsertAt t.NodeSize id box fuel s t.Root t.RootBox 0

/-- `Insert` for each element of `es`, in order. -/
def TreeObj.InsertAll (fuel : Nat) (t : TreeObj) : Store → List Elem → Except Fault Store
  | s, [] => Except.ok s
  | s, e :: es => do
    let s1 ← t.Insert fuel s e.Id e.Box
    TreeObj.InsertAll fuel t s1 es

/-- `Tree::Find(Box box, std::vector<Elem>& els)` on a tree object: the vector after the call
and the tree object with its new `NScanned`. -/
def TreeObj.FindElems (fuel : Nat) (s : Store) (t : TreeObj) (box : Box) (els : List Elem) :
    Except Fault (List Elem × TreeObj) := do
  let r ← Store.VisitorFind.loop Find.visitorElems box s fuel [⟨some t.Root, t.RootBox, 0⟩] els
    t.NScanned
  pure (r.1, { t with NScanned := r.2 })

/-- `std::vector<size_t> Tree::Find(Box box)` on a tree object. -/
def TreeObj.Find (fuel : Nat) (s : Store) (t : TreeObj) (box : Box) :
    Except Fault (List Nat × TreeObj) := do
  let r ← Store.VisitorFind.loop Find.visitorIds box s fuel [⟨some t.Root, t.RootBox, 0⟩] []
    t.NScanned
  pure (r.1, { t with NScanned := r.2 })

/-- The implicit copy constructor of `Tree` (`kd2::Tree copy = kd;`), member-wise: the scalar
members and `RootBox` are copied, and the new `Root` is built by `Node::Node(const Node&)`, a
default-constructed node object assigned from `b.Root`. -/
def TreeObj.copyCtor (fuel : Nat) (s : Store) (b : TreeObj) : Except Fault (Store × TreeObj) := do
  let s1 ← Store.copyAssign fuel s.newNode.1 s.newNode.2 b.Root
  pure (s1, { NodeSize := b.NodeSize, NScanned := b.NScanned, Root := s.newNode.2,
              RootBox := b.RootBox })

/-- The implicit copy assignment of `Tree` (`kd = copy;`), member-wise: the scalar members and
`RootBox` are assigned and `Root = b.Root` is `Node::operator=(const Node&)`. -/
def TreeObj.copyAssign (fuel : Nat) (s : Store) (self b : TreeObj) :
    Except Fault (Store × TreeObj) := do
  let s1 ← Store.copyAssign fuel s self.Root b.Root
  pure (s1, { NodeSize := b.NodeSize, NScanned := b.NScanned, Root := self.Root,
              RootBox := b.RootBox })

/-! ## The copy test as a program on two tree objects -/

/-- A statement of a program with the two tree objects `kd` and `copy` of the copy test
(test.cpp:24-27).  The two sides of an assignment are different objects. -/
inductive CopyOp where
  | insertKd (e : Elem) : CopyOp
  | insertCopy (e : Elem) : CopyOp
  | kdAssignCopy : CopyOp
  | copyAssignKd : CopyOp

/-- The state of such a program: the node objects and the two tree objects. -/
structure TwoObjs where
  store : Store
  kd : TreeObj
  copy : TreeObj

/-- One statement: `kd.Insert(e.Id, e.Box)`, `copy.Insert(e.Id, e.Box)`, `kd = copy` or
`copy = kd`. -/
def TwoObjs.step (fuel : Nat) (st : TwoObjs) : CopyOp → Except Fault TwoObjs
  | .insertKd e => do
    let s ← st.kd.Insert fuel st.store e.Id e.Box
    pure { st with store := s }
  | .insertCopy e => do
    let s ← st.copy.Insert fuel st.store e.Id e.Box
    pure { st with store := s }
  | .kdAssignCopy => do
    let r ← TreeObj.copyAssign fuel st.store st.kd st.copy
    pure { st with store := r.1, kd := r.2 }
  | .copyAssignKd => do
    let r ← TreeObj.copyAssign fuel st.store st.copy st.kd
    pure { st with store := r.1, copy := r.2 }

/-- A sequence of statements. -/
def TwoObjs.run (fuel : Nat) : TwoObjs → List CopyOp → Except Fault TwoObjs
  | st, [] => Except.ok st
  | st, op :: ops => do
    let st1 ← st.step fuel op
    TwoObjs.run fuel st1 ops

/-- The program `kd2::Tree kd; kd.NodeSize = nodeSize; kd.Initialize(x1, y1, x2, y2);`
`kd.Insert(..)` for each element of `es`; `kd2::Tree copy = kd;` followed by the statements
`ops`. -/
def copyProgram (fuel : Nat) (nodeSize : Nat) (x1 y1 x2 y2 : ℚ) (es : List Elem)
    (ops : List CopyOp) : Except Fault TwoObjs := do
  let kd ← (Store.empty.newTree nodeSize).2.Initialize (Store.empty.newTree nodeSize).1
    x1 y1 x2 y2
  let s1 ← kd.InsertAll fuel (Store.empty.newTree nodeSize).1 es
  let r ← kd.copyCtor fuel s1
  TwoObjs.run fuel { store := r.1, kd := kd, copy := r.2 } ops

/-- The fault with which a run stops, `none` for a run that completes. -/
def faultOf {α : Type} : Except Fault α → Option Fault
  | .ok _ => none
  | .error e => some e

/-! ## Specification-side definitions for the node objects

A tree of node objects is described by a `Node` whose nodes carry their addresses (`PNode`);
`Store.Holds` says that the store contains it, and `PNode.toNode` is the tree as a value, on
which the functions of the first part work. -/

/-- A tree of node objects: a `Node` in which every node carries its address. -/
inductive PNode where
  | leaf (addr : Nat) (Elems : List Elem) : PNode
  | inner (addr : Nat) (Elems : List Elem) (ChildA ChildB ChildC : PNode) : PNode

/-- The address of the root object. -/
def PNode.addr : PNode → Nat
  | .leaf p _ => p
  | .inner p _ _ _ _ => p

/-- The addresses of all node objects of the tree. -/
def PNode.addrs : PNode → List Nat
  | .leaf p _ => [p]
  | .inner p _ a b c => p :: (a.addrs ++ (b.addrs ++ c.addrs))

/-- The tree as a value: the addresses forgotten. -/
def PNode.toNode : PNode → Node
  | .leaf _ els => Node.leaf els
  | .inner _ els a b c => Node.inner els a.toNode b.toNode c.toNode

/-- The store holds the tree `t`: at the address of every node of `t` there is a live node
object with the elements of that node and with pointers to the objects of its children (null
pointers for a leaf). -/
def Store.Holds (s : Store) : PNode → Prop
  | .leaf p els => s.cells p = some ⟨none, none, none, els⟩
  | .inner p els a b c =>
    s.cells p = some ⟨some a.addr, some b.addr, some c.addr, els⟩ ∧
      s.Holds a ∧ s.Holds b ∧ s.Holds c

/-- The tree object `o` is the tree `t` as a value: the store holds the tree of node objects
`pt` at the address of `o.Root`, `pt` without its addresses is `t.Root`, and the scalar members
and `RootBox` agree. -/
def TreeObj.Represents (o : TreeObj) (s : Store) (pt : PNode) (t : Tree) : Prop :=
  s.Holds pt ∧ pt.addr = o.Root ∧ pt.toNode = t.Root ∧ o.NodeSize = t.NodeSize ∧
    o.NScanned = t.NScanned ∧ o.RootBox = t.RootBox

/-- The two tree objects are the pair of trees `v`, and they share no node object. -/
def TwoObjs.Represents (st : TwoObjs) (v : Tree × Tree) : Prop :=
  ∃ tk tc : PNode, st.kd.Represents st.store tk v.1 ∧ st.copy.Represents st.store tc v.2 ∧
    (tk.addrs ++ tc.addrs).Nodup ∧ ∀ q ∈ tk.addrs ++ tc.addrs, q < st.store.next

/-- What `assign` has to do for `new Node(*p)` when `p` is the root of the tree `y`: assigned to
a new node object, it builds a tree equal to `y` out of new objects and changes no older
object. -/
def AssignsCopyOf (assign : Store → Nat → Nat → Except Fault Store) (y : PNode) : Prop :=
  ∀ s : Store, s.Holds y → (∀ q ∈ y.addrs, q < s.next) →
    ∃ s1 t1, assign s.newNode.1 s.next y.addr = Except.ok s1 ∧ s1.Holds t1 ∧
      t1.addr = s.next ∧ t1.toNode = y.toNode ∧ s.next < s1.next ∧
      (∀ q ∈ t1.addrs, s.next ≤ q ∧ q < s1.next) ∧ t1.addrs.Nodup ∧
      (∀ q, q < s.next → s1.cells q = s.cells q)

/-- What the copy test is to compute, on trees as values: an insert changes the tree it is
called on, and after an assignment the assigned tree is equal to the other one. -/
def copyReference.step (v : Tree × Tree) : CopyOp → Tree × Tree
  | .insertKd e => (v.1.Insert e.Id e.Box, v.2)
  | .insertCopy e => (v.1, v.2.Insert e.Id e.Box)
  | .kdAssignCopy => (v.2, v.2)
  | .copyAssignKd => (v.1, v.1)

/-- The values of `kd` and `copy` after `copyProgram`, when a copy is equal to its source and
independent of it. -/
def copyReference (nodeSize : Nat) (x1 y1 x2 y2 : ℚ) (es : List Elem) (ops : List CopyOp) :
    Option (Tree × Tree) :=
  (Tree.build nodeSize x1 y1 x2 y2 es).map (fun t => ops.foldl copyReference.step (t, t))

/-! # Lemmas -/

/-! ## Geometry lemmas -/

theorem Box.Overlaps_iff (a b : Box) :
    a.Overlaps b = true ↔ a.X1 ≤ b.X2 ∧ b.X1 ≤ a.X2 ∧ a.Y1 ≤ b.Y2 ∧ b.Y1 ≤ a.Y2 := by
  simp [Box.Overlaps, and_assoc]

theorem Box.IsInsideMe_iff (a b : Box) :
    a.IsInsideMe b = true ↔ a.X1 ≤ b.X1 ∧ a.Y1 ≤ b.Y1 ∧ b.X2 ≤ a.X2 ∧ b.Y2 ≤ a.Y2 := by
  simp [Box.IsInsideMe, and_assoc]

theorem Box.Overlaps_comm (a b : Box) : a.Overlaps b = b.Overlaps a := by
  rw [Bool.eq_iff_iff, Box.Overlaps_iff, Box.Overlaps_iff]
  tauto

/-- A region that contains a box overlaps whatever the box overlaps. -/
theorem Box.Overlaps_of_IsInsideMe {r e q : Box} (hin : r.IsInsideMe e = true)
    (hov : e.Overlaps q = true) : r.Overlaps q = true := by
  rw [Box.IsInsideMe_iff] at hin
  rw [Box.Overlaps_iff] at hov ⊢
  obtain ⟨h1, h2, h3, h4⟩ := hin
  obtain ⟨o1, o2, o3, o4⟩ := hov
  exact ⟨h1.trans o1, o2.trans h3, h2.trans o3, o4.trans h4⟩

/-! ## Split keeps every element exactly once -/

theorem Split.loop_perm (boxA boxB boxC : Box) (els pruned ea eb ec : List Elem) :
    ((Split.loop boxA boxB boxC els pruned ea eb ec).1 ++
      ((Split.loop boxA boxB boxC els pruned ea eb ec).2.1 ++
        ((Split.loop boxA boxB boxC els pruned ea eb ec).2.2.1 ++
          (Split.loop boxA boxB boxC els pruned ea eb ec).2.2.2))).Perm
      ((pruned ++ (ea ++ (eb ++ ec))) ++ els) := by
  induction els generalizing pruned ea eb ec with
  | nil => simp [Split.loop]
  | cons elem rest ih =>
    simp only [Split.loop]
    split_ifs <;>
    · refine (ih _ _ _ _).trans ?_
      rw [List.perm_iff_count]
      intro x
      simp only [List.count_append, List.count_cons, List.count_nil]
      omega

theorem Split_allElems_perm (n : Node) (nbox : Box) (depth : Nat) :
    (Split n nbox depth).allElems.Perm n.Elems := by
  unfold Split
  have h := Split.loop_perm (Subdivide depth nbox).1 (Subdivide depth nbox).2.1
    (Subdivide depth nbox).2.2 n.Elems [] [] [] []
  simpa [Node.allElems] using h

/-! ## Insert adds exactly the new element -/

theorem InsertAt_allElems_perm (NodeSize id : Nat) (box : Box) (n : Node) (nbox : Box)
    (depth : Nat) :
    (InsertAt NodeSize id box n nbox depth).allElems.Perm (n.allElems ++ [⟨id, box⟩]) := by
  induction n generalizing nbox depth with
  | leaf els =>
    simp only [InsertAt]
    split_ifs
    · exact Split_allElems_perm _ _ _
    · exact List.Perm.refl _
  | inner els a b c iha ihb ihc =>
    simp only [InsertAt]
    split_ifs
    · rw [List.perm_iff_count]
      intro x
      simp only [Node.allElems, List.count_append]
      omega
    · have h := (iha (Subdivide depth nbox).1 (depth + 1)).count_eq
      rw [List.perm_iff_count]
      intro x
      have hx := h x
      simp only [Node.allElems, List.count_append] at hx ⊢
      rw [hx]
      omega
    · have h := (ihb (Subdivide depth nbox).2.1 (depth + 1)).count_eq
      rw [List.perm_iff_count]
      intro x
      have hx := h x
      simp only [Node.allElems, List.count_append] at hx ⊢
      rw [hx]
      omega
    · have h := (ihc (Subdivide depth nbox).2.2 (depth + 1)).count_eq
      rw [List.perm_iff_count]
      intro x
      have hx := h x
      simp only [Node.allElems, List.count_append] at hx ⊢
      rw [hx]
      omega

/-! ## The traversal with a visitor that never stops -/

theorem scanElems_continue {V : Type} (call : V → Elem → V × Bool)
    (hc : ∀ v e, (call v e).2 = true) (findBox : Box) (els : List Elem) (vis : V) :
    scanElems call findBox els vis =
      ((els.filter (fun e => e.Box.Overlaps findBox)).foldl (fun v e => (call v e).1) vis,
        true) := by
  induction els generalizing vis with
  | nil => rfl
  | cons el rest ih =>
    unfold scanElems
    by_cases h : el.Box.Overlaps findBox = true
    · have h2 := hc vis el
      rcases hcall : call vis el with ⟨v1, b⟩
      rw [hcall] at h2
      simp only at h2
      subst h2
      simp [h, ih, hcall]
    · simp [h, ih]

theorem collectQueue_pushChildren (findBox : Box) (a b c : Node) (box : Box) (depth : Nat)
    (queue : List QueueItem) :
    collectQueue findBox (pushChildren findBox a b c box depth queue) =
      (if (Subdivide depth box).2.2.Overlaps findBox
          then c.collect findBox (Subdivide depth box).2.2 (depth + 1) else []) ++
       ((if (Subdivide depth box).2.1.Overlaps findBox
          then b.collect findBox (Subdivide depth box).2.1 (depth + 1) else []) ++
        ((if (Subdivide depth box).1.Overlaps findBox
          then a.collect findBox (Subdivide depth box).1 (depth + 1) else []) ++
         collectQueue findBox queue)) := by
  unfold pushChildren
  simp only
  split_ifs <;> simp [collectQueue]

theorem VisitorFind.loop_continue {V : Type} (call : V → Elem → V × Bool)
    (hc : ∀ v e, (call v e).2 = true) (findBox : Box) (queue : List QueueItem) (vis : V)
    (nscanned : Nat) :
    (VisitorFind.loop call findBox queue vis nscanned).1 =
      (collectQueue findBox queue).foldl (fun v e => (call v e).1) vis := by
  induction queue, vis, nscanned using VisitorFind.loop.induct call findBox with
  | case1 vis nscanned => simp [VisitorFind.loop, collectQueue]
  | case2 els box depth queue vis nscanned vis1 hscan =>
    rw [scanElems_continue call hc] at hscan
    simp at hscan
  | case3 els box depth queue vis nscanned nscanned1 vis1 hscan ih =>
    rw [VisitorFind.loop, hscan]
    simp only
    rw [ih]
    rw [scanElems_continue call hc] at hscan
    simp only [Prod.mk.injEq, and_true] at hscan
    simp [collectQueue, Node.collect, hscan]
  | case4 els a b c box depth queue vis nscanned vis1 hscan =>
    rw [scanElems_continue call hc] at hscan
    simp at hscan
  | case5 els a b c box depth queue vis nscanned nscanned1 vis1 hscan ih =>
    rw [VisitorFind.loop, hscan]
    simp only
    rw [ih, collectQueue_pushChildren]
    rw [scanElems_continue call hc] at hscan
    simp only [Prod.mk.injEq, and_true] at hscan
    simp [collectQueue, Node.collect, hscan]

theorem foldl_visitorElems (out l : List Elem) :
    l.foldl (fun v e => (Find.visitorElems v e).1) out = out ++ l := by
  induction l generalizing out with
  | nil => simp
  | cons e l ih =>
    rw [List.foldl_cons, ih]
    simp [Find.visitorElems]

theorem foldl_visitorIds (out : List Nat) (l : List Elem) :
    l.foldl (fun v e => (Find.visitorIds v e).1) out = out ++ l.map (fun e => e.Id) := by
  induction l generalizing out with
  | nil => simp
  | cons e l ih =>
    rw [List.foldl_cons, ih]
    simp [Find.visitorIds]

/-- `Find(box, els)` appends to `els` what the traversal from the root reports. -/
theorem Tree.FindElems_eq (t : Tree) (box : Box) (els : List Elem) :
    (t.FindElems box els).1 = els ++ t.Root.collect box t.RootBox 0 := by
  unfold Tree.FindElems VisitorFind
  simp only
  rw [VisitorFind.loop_continue _ (fun _ _ => rfl), foldl_visitorElems]
  simp [collectQueue]

theorem Tree.FindIds_eq (t : Tree) (box : Box) (ids : List Nat) :
    (t.FindIds box ids).1 = ids ++ (t.Root.collect box t.RootBox 0).map (fun e => e.Id) := by
  unfold Tree.FindIds VisitorFind
  simp only
  rw [VisitorFind.loop_continue _ (fun _ _ => rfl), foldl_visitorIds]
  simp [collectQueue]

theorem Tree.Find_eq (t : Tree) (box : Box) :
    (t.Find box).1 = (t.Root.collect box t.RootBox 0).map (fun e => e.Id) := by
  simp [Tree.Find, Tree.FindIds_eq]

theorem Tree.AnyOverlap_eq (t : Tree) (box : Box) : (t.AnyOverlap box).1 = false := rfl

/-! ## What the traversal reports is stored in the tree and overlaps the query -/

theorem Node.mem_collect {findBox : Box} {e : Elem} (n : Node) (nbox : Box) (depth : Nat)
    (h : e ∈ n.collect findBox nbox depth) :
    e ∈ n.allElems ∧ e.Box.Overlaps findBox = true := by
  induction n generalizing nbox depth with
  | leaf els =>
    simp only [Node.collect, List.mem_filter] at h
    exact h
  | inner els a b c iha ihb ihc =>
    simp only [Node.collect, List.mem_append, List.mem_filter] at h
    simp only [Node.allElems, List.mem_append]
    rcases h with h | h | h | h
    · exact ⟨Or.inl h.1, h.2⟩
    · split_ifs at h
      · exact ⟨Or.inr (Or.inr (Or.inr (ihc _ _ h).1)), (ihc _ _ h).2⟩
      · simp at h
    · split_ifs at h
      · exact ⟨Or.inr (Or.inr (Or.inl (ihb _ _ h).1)), (ihb _ _ h).2⟩
      · simp at h
    · split_ifs at h
      · exact ⟨Or.inr (Or.inl (iha _ _ h).1), (iha _ _ h).2⟩
      · simp at h

/-! ## The containment invariant -/

theorem Node.Enclosed.inside {n : Node} {nbox : Box} {depth : Nat}
    (h : n.Enclosed nbox depth) : ∀ e ∈ n.allElems, nbox.IsInsideMe e.Box = true := by
  cases n with
  | leaf els => exact h
  | inner els a b c => exact h.1

/-- Under the containment invariant the traversal reports every stored element that overlaps
the query exactly once. -/
theorem Node.collect_perm (findBox : Box) (n : Node) (nbox : Box) (depth : Nat)
    (h : n.Enclosed nbox depth) :
    (n.collect findBox nbox depth).Perm
      (n.allElems.filter (fun e => e.Box.Overlaps findBox)) := by
  induction n generalizing nbox depth with
  | leaf els => exact List.Perm.refl _
  | inner els a b c iha ihb ihc =>
    obtain ⟨_, ha, hb, hc⟩ := h
    have key : ∀ (m : Node) (mbox : Box) (d : Nat), m.Enclosed mbox d →
        (m.collect findBox mbox d).Perm (m.allElems.filter (fun e => e.Box.Overlaps findBox)) →
        (if mbox.Overlaps findBox then m.collect findBox mbox d else []).Perm
          (m.allElems.filter (fun e => e.Box.Overlaps findBox)) := by
      intro m mbox d hm hperm
      split_ifs with hov
      · exact hperm
      · have : m.allElems.filter (fun e => e.Box.Overlaps findBox) = [] := by
          rw [List.filter_eq_nil_iff]
          intro e he heo
          exact hov (Box.Overlaps_of_IsInsideMe (hm.inside e he) heo)
        rw [this]
    have pa := key a _ _ ha (iha _ _ ha)
    have pb := key b _ _ hb (ihb _ _ hb)
    have pc := key c _ _ hc (ihc _ _ hc)
    simp only [Node.collect, Node.allElems, List.filter_append]
    refine List.Perm.append_left _ ?_
    refine (List.Perm.append pc (List.Perm.append pb pa)).trans ?_
    rw [List.perm_iff_count]
    intro x
    simp only [List.count_append]
    omega

theorem Subdivide_Positive (depth : Nat) (nbox : Box) (h : nbox.Positive) :
    (Subdivide depth nbox).1.Positive ∧ (Subdivide depth nbox).2.1.Positive ∧
      (Subdivide depth nbox).2.2.Positive := by
  obtain ⟨h1, h2, h3, h4⟩ := h
  unfold Subdivide Box.Positive
  split_ifs <;> simp only <;> refine ⟨⟨?_, ?_, ?_, ?_⟩, ⟨?_, ?_, ?_, ?_⟩, ⟨?_, ?_, ?_, ?_⟩⟩ <;>
    linarith

/-- In a positive region, an element of the region that overlaps child A but not all three
children lies inside child A. -/
theorem Subdivide_inside_A (depth : Nat) (nbox e : Box) (hpos : nbox.Positive)
    (hwf : e.WellFormed) (hin : nbox.IsInsideMe e = true)
    (hA : (Subdivide depth nbox).1.Overlaps e = true)
    (hnot : ¬ ((Subdivide depth nbox).1.Overlaps e = true ∧
      (Subdivide depth nbox).2.1.Overlaps e = true ∧
      (Subdivide depth nbox).2.2.Overlaps e = true)) :
    (Subdivide depth nbox).1.IsInsideMe e = true := by
  obtain ⟨p1, p2, p3, p4⟩ := hpos
  obtain ⟨w1, w2⟩ := hwf
  rw [Box.IsInsideMe_iff] at hin
  obtain ⟨i1, i2, i3, i4⟩ := hin
  simp only [Box.Overlaps_iff, Box.IsInsideMe_iff] at hA hnot ⊢
  unfold Subdivide at hA hnot ⊢
  split_ifs at hA hnot ⊢ <;> simp only at hA hnot ⊢ <;> obtain ⟨a1, a2, a3, a4⟩ := hA
  · refine ⟨i1, i2, ?_, i4⟩
    by_contra hlt
    push_neg at hlt
    exact hnot ⟨⟨a1, a2, a3, a4⟩, ⟨by linarith, by linarith, by linarith, by linarith⟩,
      ⟨by linarith, by linarith, by linarith, by linarith⟩⟩
  · refine ⟨i1, i2, i3, ?_⟩
    by_contra hlt
    push_neg at hlt
    exact hnot ⟨⟨a1, a2, a3, a4⟩, ⟨by linarith, by linarith, by linarith, by linarith⟩,
      ⟨by linarith, by linarith, by linarith, by linarith⟩⟩

/-- In a positive region, an element of the region that does not overlap child A lies inside
child B. -/
theorem Subdivide_inside_B (depth : Nat) (nbox e : Box) (hpos : nbox.Positive)
    (hwf : e.WellFormed) (hin : nbox.IsInsideMe e = true)
    (hA : ¬ (Subdivide depth nbox).1.Overlaps e = true) :
    (Subdivide depth nbox).2.1.IsInsideMe e = true := by
  obtain ⟨p1, p2, p3, p4⟩ := hpos
  obtain ⟨w1, w2⟩ := hwf
  rw [Box.IsInsideMe_iff] at hin
  obtain ⟨i1, i2, i3, i4⟩ := hin
  simp only [Box.Overlaps_iff, Box.IsInsideMe_iff] at hA ⊢
  unfold Subdivide at hA ⊢
  split_ifs at hA ⊢ <;> simp only at hA ⊢
  · refine ⟨?_, i2, i3, i4⟩
    by_contra hlt
    push_neg at hlt
    exact hA ⟨by linarith, by linarith, by linarith, by linarith⟩
  · refine ⟨i1, ?_, i3, i4⟩
    by_contra hlt
    push_neg at hlt
    exact hA ⟨by linarith, by linarith, by linarith, by linarith⟩

theorem Box.Overlaps_of_IsInsideMe_self {r e : Box} (hwf : e.WellFormed)
    (hin : r.IsInsideMe e = true) : r.Overlaps e = true := by
  rw [Box.IsInsideMe_iff] at hin
  rw [Box.Overlaps_iff]
  obtain ⟨w1, w2⟩ := hwf
  obtain ⟨i1, i2, i3, i4⟩ := hin
  exact ⟨by linarith, by linarith, by linarith, by linarith⟩

/-! ## Split as four filters -/

theorem Split.loop_eq (boxA boxB boxC : Box) (els pruned ea eb ec : List Elem) :
    Split.loop boxA boxB boxC els pruned ea eb ec =
      (pruned ++ els.filter (fun e =>
          boxA.Overlaps e.Box && boxB.Overlaps e.Box && boxC.Overlaps e.Box),
       ea ++ els.filter (fun e =>
          !(boxA.Overlaps e.Box && boxB.Overlaps e.Box && boxC.Overlaps e.Box) &&
            boxA.Overlaps e.Box),
       eb ++ els.filter (fun e =>
          !(boxA.Overlaps e.Box && boxB.Overlaps e.Box && boxC.Overlaps e.Box) &&
            !boxA.Overlaps e.Box && boxB.Overlaps e.Box),
       ec ++ els.filter (fun e =>
          !(boxA.Overlaps e.Box && boxB.Overlaps e.Box && boxC.Overlaps e.Box) &&
            !boxA.Overlaps e.Box && !boxB.Overlaps e.Box)) := by
  induction els generalizing pruned ea eb ec with
  | nil => simp [Split.loop]
  | cons elem rest ih =>
    cases hA : boxA.Overlaps elem.Box <;> cases hB : boxB.Overlaps elem.Box <;>
      cases hC : boxC.Overlaps elem.Box <;>
      simp [Split.loop, hA, hB, hC, ih, List.filter_cons]

theorem Split_eq (n : Node) (nbox : Box) (depth : Nat) :
    Split n nbox depth =
      Node.inner
        (n.Elems.filter (fun e =>
          (Subdivide depth nbox).1.Overlaps e.Box && (Subdivide depth nbox).2.1.Overlaps e.Box
            && (Subdivide depth nbox).2.2.Overlaps e.Box))
        (Node.leaf (n.Elems.filter (fun e =>
          !((Subdivide depth nbox).1.Overlaps e.Box && (Subdivide depth nbox).2.1.Overlaps e.Box
            && (Subdivide depth nbox).2.2.Overlaps e.Box) &&
            (Subdivide depth nbox).1.Overlaps e.Box)))
        (Node.leaf (n.Elems.filter (fun e =>
          !((Subdivide depth nbox).1.Overlaps e.Box && (Subdivide depth nbox).2.1.Overlaps e.Box
            && (Subdivide depth nbox).2.2.Overlaps e.Box) &&
            !(Subdivide depth nbox).1.Overlaps e.Box && (Subdivide depth nbox).2.1.Overlaps e.Box)))
        (Node.leaf (n.Elems.filter (fun e =>
          !((Subdivide depth nbox).1.Overlaps e.Box && (Subdivide depth nbox).2.1.Overlaps e.Box
            && (Subdivide depth nbox).2.2.Overlaps e.Box) &&
            !(Subdivide depth nbox).1.Overlaps e.Box &&
            !(Subdivide depth nbox).2.1.Overlaps e.Box))) := by
  unfold Split
  simp only [Split.loop_eq, List.nil_append]

/-- Splitting a leaf of a positive region whose elements are well-formed and inside the region
establishes the containment invariant. -/
theorem Split_Enclosed (els : List Elem) (nbox : Box) (depth : Nat) (hpos : nbox.Positive)
    (hwf : ∀ e ∈ els, e.Box.WellFormed) (hin : ∀ e ∈ els, nbox.IsInsideMe e.Box = true) :
    (Split (Node.leaf els) nbox depth).Enclosed nbox depth := by
  have hall : ∀ e ∈ (Split (Node.leaf els) nbox depth).allElems,
      nbox.IsInsideMe e.Box = true := by
    intro e he
    exact hin e ((Split_allElems_perm (Node.leaf els) nbox depth).subset he)
  rw [Split_eq] at hall ⊢
  refine ⟨hall, ?_, ?_, ?_⟩
  · intro e he
    simp only [Node.Elems, List.mem_filter, Bool.and_eq_true, Bool.not_eq_true',
      Bool.and_eq_false_iff] at he
    obtain ⟨hmem, hnot, hA⟩ := he
    refine Subdivide_inside_A depth nbox e.Box hpos (hwf e hmem) (hin e hmem) hA ?_
    rintro ⟨h1, h2, h3⟩
    simp [h1, h2, h3] at hnot
  · intro e he
    simp only [Node.Elems, List.mem_filter, Bool.and_eq_true, Bool.not_eq_true',
      Bool.and_eq_false_iff] at he
    obtain ⟨hmem, ⟨_, hA⟩, _⟩ := he
    exact Subdivide_inside_B depth nbox e.Box hpos (hwf e hmem) (hin e hmem) (by simp [hA])
  · intro e he
    simp only [Node.Elems, List.mem_filter, Bool.and_eq_true, Bool.not_eq_true',
      Bool.and_eq_false_iff] at he
    obtain ⟨hmem, ⟨_, hA⟩, hB⟩ := he
    have hinB := Subdivide_inside_B depth nbox e.Box hpos (hwf e hmem) (hin e hmem)
      (by simp [hA])
    have := Box.Overlaps_of_IsInsideMe_self (hwf e hmem) hinB
    simp [hB] at this

/-- One `Insert` step keeps the containment invariant when the regions are positive and the
boxes well-formed and inside the region. -/
theorem InsertAt_Enclosed (NodeSize id : Nat) (box : Box) (n : Node) (nbox : Box) (depth : Nat)
    (hpos : nbox.Positive) (hbwf : box.WellFormed) (hbin : nbox.IsInsideMe box = true)
    (hwf : ∀ e ∈ n.allElems, e.Box.WellFormed) (henc : n.Enclosed nbox depth) :
    (InsertAt NodeSize id box n nbox depth).Enclosed nbox depth := by
  induction n generalizing nbox depth with
  | leaf els =>
    have hin2 : ∀ e ∈ els ++ [⟨id, box⟩], nbox.IsInsideMe e.Box = true := by
      intro e he
      rcases List.mem_append.mp he with h | h
      · exact henc e h
      · rw [List.mem_singleton.mp h]; exact hbin
    have hwf2 : ∀ e ∈ els ++ [⟨id, box⟩], e.Box.WellFormed := by
      intro e he
      rcases List.mem_append.mp he with h | h
      · exact hwf e h
      · rw [List.mem_singleton.mp h]; exact hbwf
    simp only [InsertAt]
    split_ifs
    · exact Split_Enclosed _ nbox depth hpos hwf2 hin2
    · exact hin2
  | inner els a b c iha ihb ihc =>
    have hall : ∀ e ∈ (InsertAt NodeSize id box (Node.inner els a b c) nbox depth).allElems,
        nbox.IsInsideMe e.Box = true := by
      intro e he
      have := (InsertAt_allElems_perm NodeSize id box (Node.inner els a b c) nbox depth).subset he
      rcases List.mem_append.mp this with h | h
      · exact henc.1 e h
      · rw [List.mem_singleton.mp h]; exact hbin
    obtain ⟨pa, pb, pc⟩ := Subdivide_Positive depth nbox hpos
    obtain ⟨_, ha, hb, hc⟩ := henc
    have wa : ∀ e ∈ a.allElems, e.Box.WellFormed := fun e he =>
      hwf e (by simp [Node.allElems, he])
    have wb : ∀ e ∈ b.allElems, e.Box.WellFormed := fun e he =>
      hwf e (by simp [Node.allElems, he])
    have wc : ∀ e ∈ c.allElems, e.Box.WellFormed := fun e he =>
      hwf e (by simp [Node.allElems, he])
    simp only [InsertAt] at hall ⊢
    split_ifs at hall ⊢ with h1 h2 h3
    · exact ⟨hall, ha, hb, hc⟩
    · exact ⟨hall, iha _ _ pa h2 wa ha, hb, hc⟩
    · exact ⟨hall, ha, ihb _ _ pb h3 wb hb, hc⟩
    · refine ⟨hall, ha, hb, ihc _ _ pc ?_ wc hc⟩
      simpa [h2, h3] using h1

/-! ## Whole-tree lemmas -/

theorem Tree.InsertAll_NodeSize (t : Tree) (es : List Elem) :
    (t.InsertAll es).NodeSize = t.NodeSize ∧ (t.InsertAll es).RootBox = t.RootBox ∧
      (t.InsertAll es).NScanned = t.NScanned := by
  induction es generalizing t with
  | nil => exact ⟨rfl, rfl, rfl⟩
  | cons e es ih =>
    have h := ih (t.Insert e.Id e.Box)
    simpa [Tree.InsertAll, Tree.Insert] using h

theorem Tree.InsertAll_allElems_perm (t : Tree) (es : List Elem) :
    (t.InsertAll es).Root.allElems.Perm (t.Root.allElems ++ es) := by
  induction es generalizing t with
  | nil => simp [Tree.InsertAll]
  | cons e es ih =>
    have h := ih (t.Insert e.Id e.Box)
    have h2 := InsertAt_allElems_perm t.NodeSize e.Id e.Box t.Root t.RootBox 0
    simp only [Tree.InsertAll, List.foldl_cons] at h ⊢
    refine h.trans ?_
    simp only [Tree.Insert]
    refine (List.Perm.append_right es h2).trans ?_
    simp

theorem Tree.build_eq (nodeSize : Nat) (x1 y1 x2 y2 : ℚ) (es : List Elem) :
    Tree.build nodeSize x1 y1 x2 y2 es =
      some (Tree.InsertAll
        { NodeSize := nodeSize, NScanned := 0, Root := Node.leaf [], RootBox := ⟨x1, y1, x2, y2⟩ }
        es) := rfl

theorem Tree.build_allElems_perm {nodeSize : Nat} {x1 y1 x2 y2 : ℚ} {es : List Elem} {t : Tree}
    (h : Tree.build nodeSize x1 y1 x2 y2 es = some t) : t.Root.allElems.Perm es := by
  rw [Tree.build_eq] at h
  injection h with h
  subst h
  simpa [Node.allElems] using Tree.InsertAll_allElems_perm
    { NodeSize := nodeSize, NScanned := 0, Root := Node.leaf [], RootBox := ⟨x1, y1, x2, y2⟩ } es

theorem Tree.InsertAll_Enclosed (t : Tree) (es : List Elem) (hpos : t.RootBox.Positive)
    (hes : ∀ e ∈ es, e.Box.WellFormed ∧ t.RootBox.IsInsideMe e.Box = true)
    (hwf : ∀ e ∈ t.Root.allElems, e.Box.WellFormed) (henc : t.Root.Enclosed t.RootBox 0) :
    (t.InsertAll es).Root.Enclosed t.RootBox 0 := by
  induction es generalizing t with
  | nil => exact henc
  | cons e es ih =>
    have he := hes e (List.mem_cons_self _ _)
    have h := ih (t.Insert e.Id e.Box) hpos
      (fun x hx => hes x (List.mem_cons_of_mem _ hx))
      (by
        intro x hx
        have := (InsertAt_allElems_perm t.NodeSize e.Id e.Box t.Root t.RootBox 0).subset hx
        rcases List.mem_append.mp this with h | h
        · exact hwf x h
        · rw [List.mem_singleton.mp h]; exact he.1)
      (InsertAt_Enclosed t.NodeSize e.Id e.Box t.Root t.RootBox 0 hpos he.1 he.2 hwf henc)
    exact h

theorem Tree.build_Enclosed {nodeSize : Nat} {x1 y1 x2 y2 : ℚ} {es : List Elem} {t : Tree}
    (hworld : 0 ≤ x1 ∧ x1 ≤ x2 ∧ 0 ≤ y1 ∧ y1 ≤ y2)
    (hes : ∀ e ∈ es, e.Box.WellFormed ∧ (Box.mk x1 y1 x2 y2).IsInsideMe e.Box = true)
    (h : Tree.build nodeSize x1 y1 x2 y2 es = some t) :
    t.RootBox = ⟨x1, y1, x2, y2⟩ ∧ t.Root.Enclosed ⟨x1, y1, x2, y2⟩ 0 := by
  rw [Tree.build_eq] at h
  injection h with h
  subst h
  refine ⟨(Tree.InsertAll_NodeSize _ es).2.1, ?_⟩
  exact Tree.InsertAll_Enclosed
    { NodeSize := nodeSize, NScanned := 0, Root := Node.leaf [], RootBox := ⟨x1, y1, x2, y2⟩ } es
    hworld hes (by simp [Node.allElems]) (by simp [Node.Enclosed])

/-! # Claims -/

/-- C1 (fails on the code): with the default threshold 64, `Initialize(0, -10, 1, -2)` and 64
inserts of the well-formed box `(0, -7, 1, -5)`, which lies inside the world rectangle, the query
`(0, -5.5, 1, -5)` overlaps every inserted box and `Find` returns no id at all.  With threshold 1
the same happens for the box `(-10, 10, 60, 20)` in the world `(0, 0, 50, 50)` and the query
`(-5, 10, -1, 20)`. -/
theorem Find_misses_overlapping_elements :
    (Tree.build 64 0 (-10) 1 (-2)
        ((List.range 64).map (fun i => (⟨i, ⟨0, -7, 1, -5⟩⟩ : Elem)))).map
      (fun t => (t.Find ⟨0, -11 / 2, 1, -5⟩).1) = some [] ∧
    (∀ e ∈ (List.range 64).map (fun i => (⟨i, ⟨0, -7, 1, -5⟩⟩ : Elem)),
      e.Box.WellFormed ∧ (Box.mk 0 (-10) 1 (-2)).IsInsideMe e.Box = true ∧
        e.Box.Overlaps ⟨0, -11 / 2, 1, -5⟩ = true) ∧
    (Tree.build 1 0 0 50 50 [⟨7, ⟨-10, 10, 60, 20⟩⟩]).map
      (fun t => (t.Find ⟨-5, 10, -1, 20⟩).1) = some [] ∧
    (Box.mk (-10) 10 60 20).WellFormed ∧
    (Box.mk (-10) 10 60 20).Overlaps ⟨-5, 10, -1, 20⟩ = true := by
  refine ⟨?_, ?_, ?_, ?_, ?_⟩
  · rw [Tree.build_eq, Option.map_some', Tree.Find_eq]
    decide!
  · decide!
  · rw [Tree.build_eq, Option.map_some', Tree.Find_eq]
    decide!
  · decide!
  · decide!

/-- C2: when the world rectangle has `0 <= x1 <= x2` and `0 <= y1 <= y2` and every inserted box
is well-formed and inside the world rectangle, then for every threshold and every query the
`(id, box)` list that `Find` produces is a permutation of the brute-force scan of the inserted
pairs (nothing missing, nothing extra, nothing twice), and the id list of `Find` is a
permutation of the ids of that scan. -/
theorem Find_perm_bruteForce (nodeSize : Nat) (x1 y1 x2 y2 : ℚ) (es : List Elem) (query : Box)
    (hworld : 0 ≤ x1 ∧ x1 ≤ x2 ∧ 0 ≤ y1 ∧ y1 ≤ y2)
    (hes : ∀ e ∈ es, e.Box.WellFormed ∧ (Box.mk x1 y1 x2 y2).IsInsideMe e.Box = true) :
    ∃ t, Tree.build nodeSize x1 y1 x2 y2 es = some t ∧
      (t.FindElems query []).1.Perm (bruteForce es query) ∧
      (t.Find query).1.Perm ((bruteForce es query).map (fun e => e.Id)) := by
  refine ⟨_, Tree.build_eq nodeSize x1 y1 x2 y2 es, ?_⟩
  obtain ⟨hbox, henc⟩ := Tree.build_Enclosed hworld hes (Tree.build_eq nodeSize x1 y1 x2 y2 es)
  have hperm := Tree.build_allElems_perm (Tree.build_eq nodeSize x1 y1 x2 y2 es)
  have key : (Node.collect query (Tree.InsertAll
      { NodeSize := nodeSize, NScanned := 0, Root := Node.leaf [],
        RootBox := ⟨x1, y1, x2, y2⟩ } es).Root ⟨x1, y1, x2, y2⟩ 0).Perm (bruteForce es query) :=
    (Node.collect_perm query _ _ _ henc).trans (hperm.filter _)
  rw [Tree.FindElems_eq, Tree.Find_eq, hbox]
  exact ⟨by simpa using key, key.map _⟩

/-- C2, the scenario of the test driver: `Initialize(0, 0, 50, 50)`, the 2500 grid boxes and the
query `(0, 0, 3, 3)` give exactly the nine ids of the cells `(0,0)..(2,2)`. -/
theorem Find_perm_bruteForce_grid :
    ∃ t, Tree.build 64 0 0 50 50 (grid 50) = some t ∧
      (t.Find ⟨0, 0, 3, 3⟩).1.Perm [0, 1, 2, 50, 51, 52, 100, 101, 102] := by
  have hes : ∀ e ∈ grid 50, e.Box.WellFormed ∧ (Box.mk 0 0 50 50).IsInsideMe e.Box = true := by
    decide!
  have hbf : (bruteForce (grid 50) ⟨0, 0, 3, 3⟩).map (fun e => e.Id) =
      [0, 1, 2, 50, 51, 52, 100, 101, 102] := by
    decide!
  obtain ⟨t, ht, _, hids⟩ := Find_perm_bruteForce 64 0 0 50 50 (grid 50) ⟨0, 0, 3, 3⟩
    (by norm_num) hes
  exact ⟨t, ht, hbf ▸ hids⟩

/-- C3: after `Initialize` and any sequence of `Insert` calls, every `(id, box)` pair that
`Find` returns was inserted and its box overlaps the query, and every id that `Find` returns is
the id of an inserted pair whose box overlaps the query. -/
theorem Find_no_false_positives (nodeSize : Nat) (x1 y1 x2 y2 : ℚ) (es : List Elem)
    (query : Box) :
    ∃ t, Tree.build nodeSize x1 y1 x2 y2 es = some t ∧
      (∀ e ∈ (t.FindElems query []).1, e ∈ es ∧ e.Box.Overlaps query = true) ∧
      (∀ i ∈ (t.Find query).1, ∃ e ∈ es, e.Id = i ∧ e.Box.Overlaps query = true) := by
  refine ⟨_, Tree.build_eq nodeSize x1 y1 x2 y2 es, ?_⟩
  have hperm := Tree.build_allElems_perm (Tree.build_eq nodeSize x1 y1 x2 y2 es)
  have key : ∀ e ∈ Node.collect query (Tree.InsertAll
      { NodeSize := nodeSize, NScanned := 0, Root := Node.leaf [],
        RootBox := ⟨x1, y1, x2, y2⟩ } es).Root (Tree.InsertAll
      { NodeSize := nodeSize, NScanned := 0, Root := Node.leaf [],
        RootBox := ⟨x1, y1, x2, y2⟩ } es).RootBox 0, e ∈ es ∧ e.Box.Overlaps query = true := by
    intro e he
    obtain ⟨hmem, hov⟩ := Node.mem_collect _ _ _ he
    exact ⟨hperm.subset hmem, hov⟩
  rw [Tree.FindElems_eq, Tree.Find_eq]
  refine ⟨by simpa using key, ?_⟩
  intro i hi
  obtain ⟨e, he, rfl⟩ := List.mem_map.mp hi
  exact ⟨e, (key e he).1, rfl, (key e he).2⟩

/-- C4 (fails on the code): `AnyOverlap` returns `false` for every tree and every query, because
`VisitorFind` works on a copy of the visitor.  After `Initialize(0, 0, 10, 10)` and
`Insert(1, (1, 1, 2, 2))` the query `(0, 0, 3, 3)` makes `Find` return `[1]` while `AnyOverlap`
returns `false`. -/
theorem AnyOverlap_always_false :
    (∀ (t : Tree) (query : Box), (t.AnyOverlap query).1 = false) ∧
    (Tree.build 64 0 0 10 10 [⟨1, ⟨1, 1, 2, 2⟩⟩]).map
      (fun t => ((t.Find ⟨0, 0, 3, 3⟩).1, (t.AnyOverlap ⟨0, 0, 3, 3⟩).1)) = some ([1], false) := by
  refine ⟨fun _ _ => rfl, ?_⟩
  rw [Tree.build_eq, Option.map_some', Tree.Find_eq]
  decide!

/-- C5: after `Initialize` and any sequence of `Insert` calls, with any boxes and any threshold,
the elements stored across all nodes of the tree are the inserted pairs, each as often as it was
inserted. -/
theorem stored_elements_are_inserted (nodeSize : Nat) (x1 y1 x2 y2 : ℚ) (es : List Elem) :
    ∃ t, Tree.build nodeSize x1 y1 x2 y2 es = some t ∧ t.Root.allElems.Perm es ∧
      (t.Root.allElems : Multiset Elem) = (es : Multiset Elem) := by
  have hperm := Tree.build_allElems_perm (Tree.build_eq nodeSize x1 y1 x2 y2 es)
  exact ⟨_, Tree.build_eq nodeSize x1 y1 x2 y2 es, hperm, Multiset.coe_eq_coe.mpr hperm⟩

/-- C9: after `Initialize` with any world rectangle and no `Insert`, every query makes both
`Find` overloads return an empty list and `AnyOverlap` return `false`. -/
theorem empty_tree_queries (nodeSize : Nat) (x1 y1 x2 y2 : ℚ) (query : Box) :
    ∃ t, Tree.build nodeSize x1 y1 x2 y2 [] = some t ∧
      (t.FindElems query []).1 = [] ∧ (t.Find query).1 = [] ∧
      (t.AnyOverlap query).1 = false := by
  refine ⟨_, Tree.build_eq nodeSize x1 y1 x2 y2 [], ?_, ?_, rfl⟩
  · rw [Tree.FindElems_eq]; simp [Tree.InsertAll, Node.collect]
  · rw [Tree.Find_eq]; simp [Tree.InsertAll, Node.collect]

/-- C10: for well-formed boxes `a` and `b`, `a.Overlaps(b)` is true exactly when some point
lies in both closed rectangles, and `a.Overlaps(b) = b.Overlaps(a)`. -/
theorem Overlaps_iff_common_point (a b : Box) (ha : a.WellFormed) (hb : b.WellFormed) :
    (a.Overlaps b = true ↔ ∃ x y : ℚ, a.Contains x y ∧ b.Contains x y) ∧
      a.Overlaps b = b.Overlaps a := by
  refine ⟨?_, Box.Overlaps_comm a b⟩
  obtain ⟨a1, a2⟩ := ha
  obtain ⟨b1, b2⟩ := hb
  rw [Box.Overlaps_iff]
  constructor
  · rintro ⟨h1, h2, h3, h4⟩
    refine ⟨max a.X1 b.X1, max a.Y1 b.Y1, ⟨le_max_left _ _, max_le a1 h2, le_max_left _ _,
      max_le a2 h4⟩, ⟨le_max_right _ _, max_le h1 b1, le_max_right _ _, max_le h3 b2⟩⟩
  · rintro ⟨x, y, ⟨p1, p2, p3, p4⟩, ⟨q1, q2, q3, q4⟩⟩
    exact ⟨p1.trans q2, q1.trans p2, p3.trans q4, q3.trans p4⟩

/-- C10 at the boxes `(0, 0, 1, 1)` and `(1, 1, 2, 2)`, which touch in one corner. -/
theorem Overlaps_iff_common_point_corner :
    ((Box.mk 0 0 1 1).Overlaps ⟨1, 1, 2, 2⟩ = true ↔
      ∃ x y : ℚ, (Box.mk 0 0 1 1).Contains x y ∧ (Box.mk 1 1 2 2).Contains x y) ∧
    (Box.mk 0 0 1 1).Overlaps ⟨1, 1, 2, 2⟩ = (Box.mk 1 1 2 2).Overlaps ⟨0, 0, 1, 1⟩ ∧
    (Box.mk 0 0 1 1).Overlaps ⟨1, 1, 2, 2⟩ = true :=
  ⟨(Overlaps_iff_common_point ⟨0, 0, 1, 1⟩ ⟨1, 1, 2, 2⟩ (by decide) (by decide)).1,
   (Overlaps_iff_common_point ⟨0, 0, 1, 1⟩ ⟨1, 1, 2, 2⟩ (by decide) (by decide)).2,
   by decide⟩

theorem Tree.Initialize_eq_none_iff (t : Tree) (x1 y1 x2 y2 : ℚ) :
    t.Initialize x1 y1 x2 y2 = none ↔ t.Root ≠ Node.leaf [] := by
  unfold Tree.Initialize
  cases hr : t.Root with
  | leaf els => cases els <;> simp [Node.hasChildA, Node.Elems]
  | inner els a b c => simp [Node.hasChildA, Node.Elems]

theorem Tree.Initialize_eq_some {t t1 : Tree} {x1 y1 x2 y2 : ℚ}
    (h : t.Initialize x1 y1 x2 y2 = some t1) :
    t1 = { t with RootBox := ⟨x1, y1, x2, y2⟩ } := by
  unfold Tree.Initialize at h
  split_ifs at h
  injection h with h
  exact h.symm

theorem Tree.run_allElems_perm (t0 t : Tree) (calls : List Call) (h : t0.run calls = some t) :
    t.Root.allElems.Perm (t0.Root.allElems ++ insertedBy calls) := by
  induction calls generalizing t0 with
  | nil =>
    simp only [Tree.run, Option.some.injEq] at h
    subst h
    simp [insertedBy]
  | cons c cs ih =>
    cases c with
    | Initialize x1 y1 x2 y2 =>
      simp only [Tree.run, Tree.call] at h
      cases hi : t0.Initialize x1 y1 x2 y2 with
      | none => simp [hi] at h
      | some t1 =>
        rw [hi] at h
        have h1 := ih t1 h
        rw [Tree.Initialize_eq_some hi] at h1
        simpa [insertedBy] using h1
    | Insert id box =>
      simp only [Tree.run, Tree.call, Option.some_bind] at h
      have h1 := ih _ h
      have h2 := InsertAt_allElems_perm t0.NodeSize id box t0.Root t0.RootBox 0
      refine h1.trans ?_
      simp only [Tree.Insert, insertedBy]
      refine (List.Perm.append_right _ h2).trans ?_
      simp

theorem Tree.run_Root_of_no_insert (t0 t : Tree) (calls : List Call)
    (hno : insertedBy calls = []) (h : t0.run calls = some t) : t.Root = t0.Root := by
  induction calls generalizing t0 with
  | nil =>
    simp only [Tree.run, Option.some.injEq] at h
    rw [h]
  | cons c cs ih =>
    cases c with
    | Initialize x1 y1 x2 y2 =>
      simp only [Tree.run, Tree.call] at h
      cases hi : t0.Initialize x1 y1 x2 y2 with
      | none => simp [hi] at h
      | some t1 =>
        rw [hi] at h
        have h1 := ih t1 (by simpa [insertedBy] using hno) h
        rw [h1, Tree.Initialize_eq_some hi]
    | Insert id box => simp [insertedBy] at hno

/-- C6: in every state reached from a new tree by `Initialize` and `Insert` calls, the assertion
of `Initialize` fails exactly when at least one element has been inserted, which is exactly when
the tree holds an element; and when `Initialize` passes, the result is the same tree with only
the root box replaced. -/
theorem Initialize_fails_iff_inserted (nodeSize : Nat) (calls : List Call) (t : Tree)
    (h : (Tree.fresh nodeSize).run calls = some t) (x1 y1 x2 y2 : ℚ) :
    (t.Initialize x1 y1 x2 y2 = none ↔ insertedBy calls ≠ []) ∧
    (t.Initialize x1 y1 x2 y2 = none ↔ t.Root.allElems ≠ []) ∧
    (∀ t1, t.Initialize x1 y1 x2 y2 = some t1 →
      t1 = { t with RootBox := ⟨x1, y1, x2, y2⟩ }) := by
  have hperm := Tree.run_allElems_perm _ _ _ h
  simp only [Tree.fresh, Node.allElems, List.nil_append] at hperm
  have hiff : t.Root ≠ Node.leaf [] ↔ insertedBy calls ≠ [] := by
    constructor
    · intro hne hno
      exact hne (Tree.run_Root_of_no_insert _ _ _ hno h)
    · intro hne hroot
      rw [hroot] at hperm
      exact hne (List.Perm.nil_eq hperm).symm
  have hiff2 : insertedBy calls ≠ [] ↔ t.Root.allElems ≠ [] := by
    constructor
    · intro hne hnil
      rw [hnil] at hperm
      exact hne (List.Perm.nil_eq hperm).symm
    · intro hne hnil
      rw [hnil] at hperm
      exact hne (List.Perm.eq_nil hperm)
  rw [Tree.Initialize_eq_none_iff]
  exact ⟨hiff, hiff.trans hiff2, fun t1 h1 => Tree.Initialize_eq_some h1⟩

/-- C6 at the call sequence `Initialize(0, 0, 50, 50); Insert(0, (1, 1, 2, 2))` on a tree with
the default threshold 64: a second `Initialize` fails. -/
theorem Initialize_fails_iff_inserted_example :
    (Tree.fresh 64).run [Call.Initialize 0 0 50 50, Call.Insert 0 ⟨1, 1, 2, 2⟩] =
      some ⟨64, 0, Node.leaf [⟨0, ⟨1, 1, 2, 2⟩⟩], ⟨0, 0, 50, 50⟩⟩ ∧
    (Tree.Initialize ⟨64, 0, Node.leaf [⟨0, ⟨1, 1, 2, 2⟩⟩], ⟨0, 0, 50, 50⟩⟩ 0 0 50 50 = none ↔
      insertedBy [Call.Initialize 0 0 50 50, Call.Insert 0 ⟨1, 1, 2, 2⟩] ≠ []) ∧
    Tree.Initialize ⟨64, 0, Node.leaf [⟨0, ⟨1, 1, 2, 2⟩⟩], ⟨0, 0, 50, 50⟩⟩ 0 0 50 50 = none :=
  ⟨by decide!,
   (Initialize_fails_iff_inserted 64 [Call.Initialize 0 0 50 50, Call.Insert 0 ⟨1, 1, 2, 2⟩]
      ⟨64, 0, Node.leaf [⟨0, ⟨1, 1, 2, 2⟩⟩], ⟨0, 0, 50, 50⟩⟩ (by decide!) 0 0 50 50).1,
   by decide!⟩

/-- C8: move-assigning `S` into `D` makes `D` equal to what `S` was, so every `Find` on `D`
returns what it returned on `S` before; `S` is left with a leaf root without elements and its
other members unchanged, which up to the counter `NScanned` is the tree that `Initialize` with
the root box of `S` makes of a new tree, so every `Find` on it returns the empty list and
`AnyOverlap` returns `false`. -/
theorem move_transfers_content (D S : Tree) (query : Box) (els : List Elem) :
    (D.moveAssign S).1 = S ∧
    ((D.moveAssign S).1.FindElems query els).1 = (S.FindElems query els).1 ∧
    ((D.moveAssign S).1.Find query).1 = (S.Find query).1 ∧
    (D.moveAssign S).2 = { S with Root := Node.leaf [] } ∧
    (Tree.fresh S.NodeSize).Initialize S.RootBox.X1 S.RootBox.Y1 S.RootBox.X2 S.RootBox.Y2 =
      some { (D.moveAssign S).2 with NScanned := 0 } ∧
    ((D.moveAssign S).2.FindElems query []).1 = [] ∧
    ((D.moveAssign S).2.Find query).1 = [] ∧
    ((D.moveAssign S).2.AnyOverlap query).1 = false := by
  have h1 : (D.moveAssign S).1 = S := by
    cases S with
    | mk ns sc root rb => cases root <;> rfl
  have h2 : (D.moveAssign S).2 = { S with Root := Node.leaf [] } := by
    cases S with
    | mk ns sc root rb => cases root <;> rfl
  refine ⟨h1, by rw [h1], by rw [h1], h2, ?_, ?_, ?_, rfl⟩
  · rw [h2]; rfl
  · rw [h2, Tree.FindElems_eq]; simp [Node.collect]
  · rw [h2, Tree.Find_eq]; simp [Node.collect]

/-! # Claims on the subdivision rule, the structure of the tree and the counter -/

theorem Subdivide_odd (depth : Nat) (b : Box) (h : depth % 2 = 1) :
    Subdivide depth b =
      (⟨b.X1, b.Y1, 50 / 100 * (b.X1 + b.X2), b.Y2⟩,
       ⟨50 / 100 * (b.X1 + b.X2), b.Y1, b.X2, b.Y2⟩,
       ⟨33 / 100 * (b.X1 + b.X2), b.Y1, 66 / 100 * (b.X1 + b.X2), b.Y2⟩) := by
  unfold Subdivide
  rw [Nat.and_one_is_mod, if_pos h]

theorem Subdivide_even (depth : Nat) (b : Box) (h : depth % 2 = 0) :
    Subdivide depth b =
      (⟨b.X1, b.Y1, b.X2, 50 / 100 * (b.Y1 + b.Y2)⟩,
       ⟨b.X1, 50 / 100 * (b.Y1 + b.Y2), b.X2, b.Y2⟩,
       ⟨b.X1, 33 / 100 * (b.Y1 + b.Y2), b.X2, 66 / 100 * (b.Y1 + b.Y2)⟩) := by
  unfold Subdivide
  rw [Nat.and_one_is_mod, if_neg (by omega)]

/-- C12 (fails on the code): for the parent `(0, 25, 50, 50)` at depth 0 the claimed band of
child C is `y in [33.25, 41.5]`, and `Subdivide` returns `y in [24.75, 49.5]`; likewise on the
x axis at depth 1.  In general the cuts of C are `0.33 * (lo + hi)` and `0.66 * (lo + hi)`,
which are the claimed `lo + 0.33 * (hi - lo)` and `lo + 0.66 * (hi - lo)` exactly when `lo = 0`;
the midpoint cut is the claimed `lo + 0.50 * (hi - lo)` for every box. -/
theorem Subdivide_C_band_is_not_a_fraction_of_the_way :
    (Subdivide 0 ⟨0, 25, 50, 50⟩).2.2 = ⟨0, 99 / 4, 50, 99 / 2⟩ ∧
    ((25 : ℚ) + 33 / 100 * (50 - 25) = 133 / 4 ∧ (25 : ℚ) + 66 / 100 * (50 - 25) = 83 / 2) ∧
    (Subdivide 1 ⟨25, 0, 50, 50⟩).2.2 = ⟨99 / 4, 0, 99 / 2, 50⟩ ∧
    (∀ (depth : Nat) (b : Box), depth % 2 = 0 →
      ((Subdivide depth b).2.2.Y1 = b.Y1 + 33 / 100 * (b.Y2 - b.Y1) ↔ b.Y1 = 0) ∧
      ((Subdivide depth b).2.2.Y2 = b.Y1 + 66 / 100 * (b.Y2 - b.Y1) ↔ b.Y1 = 0) ∧
      (Subdivide depth b).1.Y2 = b.Y1 + 50 / 100 * (b.Y2 - b.Y1) ∧
      (Subdivide depth b).2.1.Y1 = b.Y1 + 50 / 100 * (b.Y2 - b.Y1)) ∧
    (∀ (depth : Nat) (b : Box), depth % 2 = 1 →
      ((Subdivide depth b).2.2.X1 = b.X1 + 33 / 100 * (b.X2 - b.X1) ↔ b.X1 = 0) ∧
      ((Subdivide depth b).2.2.X2 = b.X1 + 66 / 100 * (b.X2 - b.X1) ↔ b.X1 = 0) ∧
      (Subdivide depth b).1.X2 = b.X1 + 50 / 100 * (b.X2 - b.X1) ∧
      (Subdivide depth b).2.1.X1 = b.X1 + 50 / 100 * (b.X2 - b.X1)) := by
  refine ⟨by decide!, ⟨by norm_num, by norm_num⟩, by decide!, ?_, ?_⟩
  · intro depth b h
    rw [Subdivide_even depth b h]
    refine ⟨⟨fun h1 => ?_, fun h1 => ?_⟩, ⟨fun h1 => ?_, fun h1 => ?_⟩, ?_, ?_⟩
    · simp only at h1; linarith
    · simp only; rw [h1]; ring
    · simp only at h1; linarith
    · simp only; rw [h1]; ring
    · simp only; ring
    · simp only; ring
  · intro depth b h
    rw [Subdivide_odd depth b h]
    refine ⟨⟨fun h1 => ?_, fun h1 => ?_⟩, ⟨fun h1 => ?_, fun h1 => ?_⟩, ?_, ?_⟩
    · simp only at h1; linarith
    · simp only; rw [h1]; ring
    · simp only at h1; linarith
    · simp only; rw [h1]; ring
    · simp only; ring
    · simp only; ring

/-- C13 (fails on the code): for the well-formed parent `(0, -10, 1, -2)` at depth 0 the region
of child C is `(0, -3.96, 1, -7.92)`: it is not well-formed, the A/B boundary `y = -6` is not
in its y extent, it overlaps neither A nor B, and the box `(0, -7, 1, -5)`, which crosses the
boundary, does not overlap it.  For a well-formed parent whose split-axis sum `lo + hi` is not
negative the claimed properties hold. -/
theorem Subdivide_C_does_not_straddle_for_negative_coordinates :
    (Box.mk 0 (-10) 1 (-2)).WellFormed ∧
    (Subdivide 0 ⟨0, -10, 1, -2⟩).1 = ⟨0, -10, 1, -6⟩ ∧
    (Subdivide 0 ⟨0, -10, 1, -2⟩).2.1 = ⟨0, -6, 1, -2⟩ ∧
    (Subdivide 0 ⟨0, -10, 1, -2⟩).2.2 = ⟨0, -99 / 25, 1, -198 / 25⟩ ∧
    (Subdivide 0 ⟨0, -10, 1, -2⟩).2.2.Y2 < (Subdivide 0 ⟨0, -10, 1, -2⟩).2.2.Y1 ∧
    (Subdivide 0 ⟨0, -10, 1, -2⟩).2.2.Overlaps (Subdivide 0 ⟨0, -10, 1, -2⟩).1 = false ∧
    (Subdivide 0 ⟨0, -10, 1, -2⟩).2.2.Overlaps (Subdivide 0 ⟨0, -10, 1, -2⟩).2.1 = false ∧
    (Subdivide 0 ⟨0, -10, 1, -2⟩).1.Overlaps ⟨0, -7, 1, -5⟩ = true ∧
    (Subdivide 0 ⟨0, -10, 1, -2⟩).2.1.Overlaps ⟨0, -7, 1, -5⟩ = true ∧
    (Subdivide 0 ⟨0, -10, 1, -2⟩).2.2.Overlaps ⟨0, -7, 1, -5⟩ = false ∧
    (∀ (depth : Nat) (b : Box), b.WellFormed →
      (if depth % 2 = 1 then 0 ≤ b.X1 + b.X2 else 0 ≤ b.Y1 + b.Y2) →
      (Subdivide depth b).2.2.WellFormed ∧
      (Subdivide depth b).2.2.Overlaps (Subdivide depth b).1 = true ∧
      (Subdivide depth b).2.2.Overlaps (Subdivide depth b).2.1 = true ∧
      (∀ e : Box, (Subdivide depth b).1.Overlaps e = true →
        (Subdivide depth b).2.1.Overlaps e = true →
        (Subdivide depth b).2.2.Overlaps e = true)) := by
  refine ⟨by decide!, by decide!, by decide!, by decide!, by decide!, by decide!, by decide!,
    by decide!, by decide!, by decide!, ?_⟩
  intro depth b hb hs
  obtain ⟨w1, w2⟩ := hb
  rcases Nat.mod_two_eq_zero_or_one depth with h | h
  · rw [if_neg (by omega)] at hs
    rw [Subdivide_even depth b h]
    simp only [Box.WellFormed, Box.Overlaps_iff]
    refine ⟨⟨w1, by linarith⟩, ⟨w1, w1, by linarith, by linarith⟩,
      ⟨w1, w1, by linarith, by linarith⟩, ?_⟩
    rintro e ⟨a1, a2, a3, a4⟩ ⟨b1, b2, b3, b4⟩
    exact ⟨a1, a2, by linarith, by linarith⟩
  · rw [if_pos h] at hs
    rw [Subdivide_odd depth b h]
    simp only [Box.WellFormed, Box.Overlaps_iff]
    refine ⟨⟨by linarith, w2⟩, ⟨by linarith, by linarith, w2, w2⟩,
      ⟨by linarith, by linarith, w2, w2⟩, ?_⟩
    rintro e ⟨a1, a2, a3, a4⟩ ⟨b1, b2, b3, b4⟩
    exact ⟨by linarith, by linarith, a3, a4⟩

/-- C14: an even depth splits the y axis and an odd depth the x axis; child A runs from `lo` to
the midpoint `(lo + hi) / 2` of the split axis and child B from the midpoint to `hi`; on the
other axis A, B and C have the extent of `b`; and every point of `b` lies in A or in B (a box
that has a point is well-formed). -/
theorem Subdivide_axis_and_halves (depth : Nat) (b : Box) :
    (depth % 2 = 0 →
      (Subdivide depth b).1 = ⟨b.X1, b.Y1, b.X2, (b.Y1 + b.Y2) / 2⟩ ∧
      (Subdivide depth b).2.1 = ⟨b.X1, (b.Y1 + b.Y2) / 2, b.X2, b.Y2⟩ ∧
      (Subdivide depth b).2.2.X1 = b.X1 ∧ (Subdivide depth b).2.2.X2 = b.X2) ∧
    (depth % 2 = 1 →
      (Subdivide depth b).1 = ⟨b.X1, b.Y1, (b.X1 + b.X2) / 2, b.Y2⟩ ∧
      (Subdivide depth b).2.1 = ⟨(b.X1 + b.X2) / 2, b.Y1, b.X2, b.Y2⟩ ∧
      (Subdivide depth b).2.2.Y1 = b.Y1 ∧ (Subdivide depth b).2.2.Y2 = b.Y2) ∧
    (∀ x y : ℚ, b.Contains x y →
      (Subdivide depth b).1.Contains x y ∨ (Subdivide depth b).2.1.Contains x y) := by
  have e50 : ∀ s : ℚ, 50 / 100 * s = s / 2 := fun s => by ring
  refine ⟨fun h => ?_, fun h => ?_, ?_⟩
  · rw [Subdivide_even depth b h, e50]
    exact ⟨rfl, rfl, rfl, rfl⟩
  · rw [Subdivide_odd depth b h, e50]
    exact ⟨rfl, rfl, rfl, rfl⟩
  · rintro x y ⟨p1, p2, p3, p4⟩
    rcases Nat.mod_two_eq_zero_or_one depth with h | h
    · rw [Subdivide_even depth b h]
      simp only [Box.Contains]
      rcases le_total y (50 / 100 * (b.Y1 + b.Y2)) with hy | hy
      · exact Or.inl ⟨p1, p2, p3, hy⟩
      · exact Or.inr ⟨p1, p2, hy, p4⟩
    · rw [Subdivide_odd depth b h]
      simp only [Box.Contains]
      rcases le_total x (50 / 100 * (b.X1 + b.X2)) with hx | hx
      · exact Or.inl ⟨p1, hx, p3, p4⟩
      · exact Or.inr ⟨hx, p2, p3, p4⟩

/-- C15: `Split` of a leaf with elements `els` leaves on the node exactly the elements whose box
overlaps all three child regions, in their order, and hands every other element to exactly one
of the three new leaf children; the four collections together are the old collection, each
element as often as before. -/
theorem Split_partitions_the_elements (els : List Elem) (nbox : Box) (depth : Nat) :
    ∃ pruned ea eb ec : List Elem,
      Split (Node.leaf els) nbox depth =
        Node.inner pruned (Node.leaf ea) (Node.leaf eb) (Node.leaf ec) ∧
      (pruned ++ (ea ++ (eb ++ ec))).Perm els ∧
      pruned = els.filter (fun e =>
        (Subdivide depth nbox).1.Overlaps e.Box && (Subdivide depth nbox).2.1.Overlaps e.Box
          && (Subdivide depth nbox).2.2.Overlaps e.Box) ∧
      (∀ e ∈ els,
        ¬ ((Subdivide depth nbox).1.Overlaps e.Box = true ∧
            (Subdivide depth nbox).2.1.Overlaps e.Box = true ∧
            (Subdivide depth nbox).2.2.Overlaps e.Box = true) →
        e ∉ pruned ∧
          ((e ∈ ea ∧ e ∉ eb ∧ e ∉ ec) ∨ (e ∉ ea ∧ e ∈ eb ∧ e ∉ ec) ∨
            (e ∉ ea ∧ e ∉ eb ∧ e ∈ ec))) := by
  refine ⟨_, _, _, _, Split_eq (Node.leaf els) nbox depth, ?_, rfl, ?_⟩
  · have h := Split_allElems_perm (Node.leaf els) nbox depth
    rw [Split_eq] at h
    simpa [Node.allElems, Node.Elems] using h
  · intro e he hnot
    simp only [Node.Elems, List.mem_filter, he, true_and]
    cases hA : (Subdivide depth nbox).1.Overlaps e.Box <;>
      cases hB : (Subdivide depth nbox).2.1.Overlaps e.Box <;>
      cases hC : (Subdivide depth nbox).2.2.Overlaps e.Box <;>
      simp_all

theorem Node.storedInside_of_Enclosed (n : Node) (nbox : Box) (depth : Nat)
    (h : n.Enclosed nbox depth) : n.storedInside nbox depth = true := by
  induction n generalizing nbox depth with
  | leaf els =>
    simp only [Node.storedInside, List.all_eq_true]
    exact h
  | inner els a b c iha ihb ihc =>
    obtain ⟨hall, ha, hb, hc⟩ := h
    simp only [Node.storedInside, Bool.and_eq_true, List.all_eq_true]
    refine ⟨fun e he => hall e ?_, iha _ _ ha, ihb _ _ hb, ihc _ _ hc⟩
    simp [Node.allElems, he]

/-- C11 (fails on the code): the world `(0, -10, 1, -2)` is well-formed and the box
`(0, -7, 1, -5)` is well-formed and inside it; after `Initialize` and 64 inserts of that box
with the default threshold 64 all 64 elements are stored at child A of the root, whose region
`(0, -10, 1, -6)` does not contain the box.  When the world has `0 <= x1 <= x2` and
`0 <= y1 <= y2` the containment invariant holds. -/
theorem element_stored_outside_its_node_region :
    (Box.mk 0 (-10) 1 (-2)).WellFormed ∧
    (∀ e ∈ (List.range 64).map (fun i => (⟨i, ⟨0, -7, 1, -5⟩⟩ : Elem)),
      e.Box.WellFormed ∧ (Box.mk 0 (-10) 1 (-2)).IsInsideMe e.Box = true) ∧
    (Tree.build 64 0 (-10) 1 (-2)
        ((List.range 64).map (fun i => (⟨i, ⟨0, -7, 1, -5⟩⟩ : Elem)))).map
      (fun t => t.Root) =
      some (Node.inner [] (Node.leaf ((List.range 64).map (fun i => ⟨i, ⟨0, -7, 1, -5⟩⟩)))
        (Node.leaf []) (Node.leaf [])) ∧
    (Subdivide 0 ⟨0, -10, 1, -2⟩).1 = ⟨0, -10, 1, -6⟩ ∧
    (Box.mk 0 (-10) 1 (-6)).IsInsideMe ⟨0, -7, 1, -5⟩ = false ∧
    (Tree.build 64 0 (-10) 1 (-2)
        ((List.range 64).map (fun i => (⟨i, ⟨0, -7, 1, -5⟩⟩ : Elem)))).map
      (fun t => t.Root.storedInside t.RootBox 0) = some false ∧
    (∀ (nodeSize : Nat) (x1 y1 x2 y2 : ℚ) (es : List Elem),
      (0 ≤ x1 ∧ x1 ≤ x2 ∧ 0 ≤ y1 ∧ y1 ≤ y2) →
      (∀ e ∈ es, e.Box.WellFormed ∧ (Box.mk x1 y1 x2 y2).IsInsideMe e.Box = true) →
      ∃ t, Tree.build nodeSize x1 y1 x2 y2 es = some t ∧
        t.Root.storedInside t.RootBox 0 = true) := by
  refine ⟨by decide!, by decide!, by decide!, by decide!, by decide!, by decide!, ?_⟩
  intro nodeSize x1 y1 x2 y2 es hworld hes
  refine ⟨_, Tree.build_eq nodeSize x1 y1 x2 y2 es, ?_⟩
  obtain ⟨hbox, henc⟩ := Tree.build_Enclosed hworld hes (Tree.build_eq nodeSize x1 y1 x2 y2 es)
  rw [hbox]
  exact Node.storedInside_of_Enclosed _ _ _ henc

/-! ## Elements on internal nodes -/

/-- A well-formed box inside a region that is inside neither half overlaps both halves. -/
theorem overlapCount_of_not_inside (depth : Nat) (nbox e : Box) (hwf : e.WellFormed)
    (hin : nbox.IsInsideMe e = true) (hA : (Subdivide depth nbox).1.IsInsideMe e = false)
    (hB : (Subdivide depth nbox).2.1.IsInsideMe e = false) :
    1 < overlapCount depth nbox e := by
  obtain ⟨w1, w2⟩ := hwf
  rw [Box.IsInsideMe_iff] at hin
  obtain ⟨i1, i2, i3, i4⟩ := hin
  rw [← Bool.not_eq_true, Box.IsInsideMe_iff] at hA hB
  have key : (Subdivide depth nbox).1.Overlaps e = true ∧
      (Subdivide depth nbox).2.1.Overlaps e = true := by
    simp only [Box.Overlaps_iff]
    rcases Nat.mod_two_eq_zero_or_one depth with h | h
    · rw [Subdivide_even depth nbox h] at hA hB ⊢
      simp only at hA hB ⊢
      have h1 : 50 / 100 * (nbox.Y1 + nbox.Y2) < e.Y2 := by
        by_contra hc
        exact hA ⟨i1, i2, i3, not_lt.mp hc⟩
      have h2 : e.Y1 < 50 / 100 * (nbox.Y1 + nbox.Y2) := by
        by_contra hc
        exact hB ⟨i1, not_lt.mp hc, i3, i4⟩
      exact ⟨⟨by linarith, by linarith, by linarith, by linarith⟩,
        ⟨by linarith, by linarith, by linarith, by linarith⟩⟩
    · rw [Subdivide_odd depth nbox h] at hA hB ⊢
      simp only at hA hB ⊢
      have h1 : 50 / 100 * (nbox.X1 + nbox.X2) < e.X2 := by
        by_contra hc
        exact hA ⟨i1, i2, not_lt.mp hc, i4⟩
      have h2 : e.X1 < 50 / 100 * (nbox.X1 + nbox.X2) := by
        by_contra hc
        exact hB ⟨not_lt.mp hc, i2, i3, i4⟩
      exact ⟨⟨by linarith, by linarith, by linarith, by linarith⟩,
        ⟨by linarith, by linarith, by linarith, by linarith⟩⟩
  unfold overlapCount
  rw [if_pos key.1, if_pos key.2]
  omega

theorem Split_innerElemsStraddle (n : Node) (nbox : Box) (depth : Nat) :
    (Split n nbox depth).innerElemsStraddle nbox depth = true := by
  rw [Split_eq]
  simp only [Node.innerElemsStraddle, Bool.and_true, List.all_eq_true, List.mem_filter,
    Bool.and_eq_true, decide_eq_true_eq]
  rintro e ⟨_, ⟨hA, hB⟩, hC⟩
  unfold overlapCount
  rw [if_pos hA, if_pos hB, if_pos hC]
  omega

theorem InsertAt_innerElemsStraddle (NodeSize id : Nat) (box : Box) (n : Node) (nbox : Box)
    (depth : Nat) (hbwf : box.WellFormed) (hbin : nbox.IsInsideMe box = true)
    (h : n.innerElemsStraddle nbox depth = true) :
    (InsertAt NodeSize id box n nbox depth).innerElemsStraddle nbox depth = true := by
  induction n generalizing nbox depth with
  | leaf els =>
    simp only [InsertAt]
    split_ifs
    · exact Split_innerElemsStraddle _ _ _
    · rfl
  | inner els a b c iha ihb ihc =>
    simp only [Node.innerElemsStraddle, Bool.and_eq_true] at h
    obtain ⟨hels, ha, hb, hc⟩ := h
    simp only [InsertAt]
    split_ifs with h1 h2 h3
    · simp only [Bool.not_eq_true', Bool.or_eq_false_iff] at h1
      simp only [Node.innerElemsStraddle, Bool.and_eq_true, List.all_append, List.all_cons,
        List.all_nil, Bool.and_true, decide_eq_true_eq]
      exact ⟨⟨hels, overlapCount_of_not_inside depth nbox box hbwf hbin h1.1.1 h1.1.2⟩,
        ha, hb, hc⟩
    · simp only [Node.innerElemsStraddle, Bool.and_eq_true]
      exact ⟨hels, iha _ _ h2 ha, hb, hc⟩
    · simp only [Node.innerElemsStraddle, Bool.and_eq_true]
      exact ⟨hels, ha, ihb _ _ h3 hb, hc⟩
    · simp only [Node.innerElemsStraddle, Bool.and_eq_true]
      refine ⟨hels, ha, hb, ihc _ _ ?_ hc⟩
      simpa [h2, h3] using h1

theorem Tree.InsertAll_innerElemsStraddle (t : Tree) (es : List Elem)
    (hes : ∀ e ∈ es, e.Box.WellFormed ∧ t.RootBox.IsInsideMe e.Box = true)
    (h : t.Root.innerElemsStraddle t.RootBox 0 = true) :
    (t.InsertAll es).Root.innerElemsStraddle t.RootBox 0 = true := by
  induction es generalizing t with
  | nil => exact h
  | cons e es ih =>
    have he := hes e (List.mem_cons_self _ _)
    exact ih (t.Insert e.Id e.Box) (fun x hx => hes x (List.mem_cons_of_mem _ hx))
      (InsertAt_innerElemsStraddle t.NodeSize e.Id e.Box t.Root t.RootBox 0 he.1 he.2 h)

/-- C16 (as stated it fails): with the default threshold 64, after `Initialize(0, 0, 50, 50)`,
64 inserts of `(1, 1, 2, 2)` and one insert of the well-formed box `(40, 1, 60, 2)`, which
sticks out of the world on the x axis, the root is internal and stores that box, and the box
overlaps only one of the root's child regions (child A). -/
theorem inner_element_overlapping_one_child :
    (Box.mk 40 1 60 2).WellFormed ∧ (Box.mk 1 1 2 2).WellFormed ∧
    (Tree.build 64 0 0 50 50
        ((List.range 64).map (fun i => (⟨i, ⟨1, 1, 2, 2⟩⟩ : Elem)) ++
          [⟨64, ⟨40, 1, 60, 2⟩⟩])).map
      (fun t => (t.Root.hasChildA, t.Root.Elems, t.Root.innerElemsStraddle t.RootBox 0)) =
      some (true, [⟨64, ⟨40, 1, 60, 2⟩⟩], false) ∧
    overlapCount 0 ⟨0, 0, 50, 50⟩ ⟨40, 1, 60, 2⟩ = 1 := by
  refine ⟨by decide!, by decide!, by decide!, by decide!⟩

/-- C16, amended: after `Initialize` and any sequence of `Insert` calls whose boxes are
well-formed and lie inside the world rectangle, every element stored directly on an internal
node overlaps more than one of that node's three child regions. -/
theorem inner_elements_overlap_two_children (nodeSize : Nat) (x1 y1 x2 y2 : ℚ)
    (es : List Elem)
    (hes : ∀ e ∈ es, e.Box.WellFormed ∧ (Box.mk x1 y1 x2 y2).IsInsideMe e.Box = true) :
    ∃ t, Tree.build nodeSize x1 y1 x2 y2 es = some t ∧
      t.Root.innerElemsStraddle t.RootBox 0 = true := by
  refine ⟨_, Tree.build_eq nodeSize x1 y1 x2 y2 es, ?_⟩
  rw [(Tree.InsertAll_NodeSize _ es).2.1]
  exact Tree.InsertAll_innerElemsStraddle
    { NodeSize := nodeSize, NScanned := 0, Root := Node.leaf [], RootBox := ⟨x1, y1, x2, y2⟩ } es
    hes rfl

/-- C16, amended, at the 50 x 50 grid of the test driver: the root is internal and every
element on an internal node overlaps more than one child region. -/
theorem inner_elements_overlap_two_children_grid :
    ∃ t, Tree.build 64 0 0 50 50 (grid 50) = some t ∧
      t.Root.innerElemsStraddle t.RootBox 0 = true :=
  inner_elements_overlap_two_children 64 0 0 50 50 (grid 50) (by decide!)

/-! ## Leaves and the overflow threshold -/

theorem Node.mem_nodes_self (n : Node) : n ∈ n.nodes := by
  cases n <;> simp [Node.nodes]

theorem Split_hasChildA (n : Node) (nbox : Box) (depth : Nat) :
    (Split n nbox depth).hasChildA = true := by
  rw [Split_eq]; rfl

theorem InsertAt.target_mem_nodes (NodeSize id : Nat) (box : Box) (n : Node) (nbox : Box)
    (depth : Nat) :
    InsertAt.target NodeSize id box n nbox depth ∈ (InsertAt NodeSize id box n nbox depth).nodes := by
  induction n generalizing nbox depth with
  | leaf els => exact Node.mem_nodes_self _
  | inner els a b c iha ihb ihc =>
    simp only [InsertAt.target, InsertAt]
    split_ifs
    · exact Node.mem_nodes_self _
    · simp only [Node.nodes, List.mem_cons, List.mem_append]
      exact Or.inr (Or.inl (iha _ _))
    · simp only [Node.nodes, List.mem_cons, List.mem_append]
      exact Or.inr (Or.inr (Or.inl (ihb _ _)))
    · simp only [Node.nodes, List.mem_cons, List.mem_append]
      exact Or.inr (Or.inr (Or.inr (ihc _ _)))

theorem InsertAt.target_not_overfull (NodeSize id : Nat) (box : Box) (n : Node) (nbox : Box)
    (depth : Nat) :
    (InsertAt.target NodeSize id box n nbox depth).hasChildA = true ∨
      (InsertAt.target NodeSize id box n nbox depth).Elems.length < NodeSize := by
  induction n generalizing nbox depth with
  | leaf els =>
    simp only [InsertAt.target, InsertAt]
    split_ifs with h
    · exact Or.inl (Split_hasChildA _ _ _)
    · exact Or.inr (not_le.mp h)
  | inner els a b c iha ihb ihc =>
    simp only [InsertAt.target]
    split_ifs
    · exact Or.inl rfl
    · exact iha _ _
    · exact ihb _ _
    · exact ihc _ _

theorem InsertAt.target_holds_element (NodeSize id : Nat) (box : Box) (n : Node) (nbox : Box)
    (depth : Nat) :
    (⟨id, box⟩ : Elem) ∈ (InsertAt.target NodeSize id box n nbox depth).allElems := by
  induction n generalizing nbox depth with
  | leaf els =>
    simp only [InsertAt.target]
    exact (InsertAt_allElems_perm NodeSize id box (Node.leaf els) nbox depth).symm.subset
      (by simp [Node.allElems])
  | inner els a b c iha ihb ihc =>
    simp only [InsertAt.target]
    split_ifs
    · simp [Node.allElems]
    · exact iha _ _
    · exact ihb _ _
    · exact ihc _ _

theorem InsertAt_root_not_overfull (NodeSize id : Nat) (box : Box) (n : Node) (nbox : Box)
    (depth : Nat) :
    (InsertAt NodeSize id box n nbox depth).hasChildA = true ∨
      (InsertAt NodeSize id box n nbox depth).Elems.length < NodeSize := by
  cases n with
  | leaf els =>
    simp only [InsertAt]
    split_ifs with h
    · exact Or.inl (Split_hasChildA _ _ _)
    · exact Or.inr (not_le.mp h)
  | inner els a b c =>
    simp only [InsertAt]
    split_ifs <;> exact Or.inl rfl

theorem Tree.InsertAll_root_not_overfull (t : Tree) (es : List Elem)
    (h : t.Root.hasChildA = true ∨ t.Root.Elems.length < t.NodeSize) :
    (t.InsertAll es).Root.hasChildA = true ∨
      (t.InsertAll es).Root.Elems.length < t.NodeSize := by
  induction es generalizing t with
  | nil => exact h
  | cons e es ih =>
    exact ih (t.Insert e.Id e.Box)
      (InsertAt_root_not_overfull t.NodeSize e.Id e.Box t.Root t.RootBox 0)

theorem Tree.Insert_target_is_a_node (t : Tree) (id : Nat) (box : Box) :
    InsertAt.target t.NodeSize id box t.Root t.RootBox 0 ∈ (t.Insert id box).Root.nodes :=
  InsertAt.target_mem_nodes t.NodeSize id box t.Root t.RootBox 0

/-- C17 (as stated it fails): with the threshold 64, after `Initialize(0, 0, 50, 50)` and 64
inserts of the box `(1, 1, 2, 2)` the root has been split and its child A is a leaf that holds
all 64 elements; after a 65th insert of the same box a leaf holds 65 elements. -/
theorem leaf_holding_threshold_many_elements :
    (Tree.build 64 0 0 50 50 ((List.range 64).map (fun i => (⟨i, ⟨1, 1, 2, 2⟩⟩ : Elem)))).map
      (fun t => (t.Root, t.Root.leavesBelow 64)) =
      some (Node.inner [] (Node.leaf ((List.range 64).map (fun i => ⟨i, ⟨1, 1, 2, 2⟩⟩)))
        (Node.leaf []) (Node.leaf []), false) ∧
    (Tree.build 64 0 0 50 50 ((List.range 65).map (fun i => (⟨i, ⟨1, 1, 2, 2⟩⟩ : Elem)))).map
      (fun t => (t.Root.leavesBelow 64, t.Root.maxLeaf)) = some (false, 65) := by
  refine ⟨by decide!, by decide!⟩

/-- C17, amended: with a threshold `T >= 1`, after `Initialize` and any sequence of `Insert`
calls the root is internal or holds fewer than `T` elements, and the node to which a further
`Insert` appends its element is, when that `Insert` returns, a node of the tree that is internal
or holds fewer than `T` elements, and the new element is in its subtree.  (The leaves that
`Split` creates are not re-checked and may hold `T` or more elements.) -/
theorem leaf_is_split_when_an_insert_fills_it (nodeSize : Nat) (hT : 1 ≤ nodeSize)
    (x1 y1 x2 y2 : ℚ) (es : List Elem) :
    ∃ t, Tree.build nodeSize x1 y1 x2 y2 es = some t ∧ t.NodeSize = nodeSize ∧
      (t.Root.hasChildA = true ∨ t.Root.Elems.length < nodeSize) ∧
      (∀ (id : Nat) (box : Box),
        InsertAt.target nodeSize id box t.Root t.RootBox 0 ∈ (t.Insert id box).Root.nodes ∧
        ((InsertAt.target nodeSize id box t.Root t.RootBox 0).hasChildA = true ∨
          (InsertAt.target nodeSize id box t.Root t.RootBox 0).Elems.length < nodeSize) ∧
        (⟨id, box⟩ : Elem) ∈ (InsertAt.target nodeSize id box t.Root t.RootBox 0).allElems) := by
  refine ⟨_, Tree.build_eq nodeSize x1 y1 x2 y2 es, (Tree.InsertAll_NodeSize _ es).1, ?_, ?_⟩
  · exact Tree.InsertAll_root_not_overfull
      { NodeSize := nodeSize, NScanned := 0, Root := Node.leaf [], RootBox := ⟨x1, y1, x2, y2⟩ }
      es (Or.inr (by simpa [Node.Elems] using hT))
  · intro id box
    refine ⟨?_, InsertAt.target_not_overfull _ _ _ _ _ _, InsertAt.target_holds_element _ _ _ _ _ _⟩
    have h := Tree.Insert_target_is_a_node (Tree.InsertAll (Tree.mk nodeSize 0 (Node.leaf [])
      ⟨x1, y1, x2, y2⟩) es) id box
    rw [(Tree.InsertAll_NodeSize _ es).1] at h
    exact h

/-- C17, amended, at the threshold 64 with 63 inserts of `(1, 1, 2, 2)` into the world
`(0, 0, 50, 50)`: the root is still a leaf, of 63 elements, and the 64th insert turns it into an
internal node. -/
theorem leaf_is_split_when_an_insert_fills_it_example :
    ∃ t, Tree.build 64 0 0 50 50 ((List.range 63).map (fun i => (⟨i, ⟨1, 1, 2, 2⟩⟩ : Elem)))
        = some t ∧
      (t.Root.hasChildA = true ∨ t.Root.Elems.length < 64) ∧
      ((InsertAt.target 64 63 ⟨1, 1, 2, 2⟩ t.Root t.RootBox 0).hasChildA = true ∨
        (InsertAt.target 64 63 ⟨1, 1, 2, 2⟩ t.Root t.RootBox 0).Elems.length < 64) := by
  obtain ⟨t, ht, _, hroot, htgt⟩ := leaf_is_split_when_an_insert_fills_it 64 (by decide) 0 0 50 50
    ((List.range 63).map (fun i => (⟨i, ⟨1, 1, 2, 2⟩⟩ : Elem)))
  exact ⟨t, ht, hroot, (htgt 63 ⟨1, 1, 2, 2⟩).2.1⟩

theorem Box.IsInsideMe_trans {r c e : Box} (h1 : r.IsInsideMe c = true)
    (h2 : c.IsInsideMe e = true) : r.IsInsideMe e = true := by
  rw [Box.IsInsideMe_iff] at h1 h2 ⊢
  obtain ⟨a1, a2, a3, a4⟩ := h1
  obtain ⟨b1, b2, b3, b4⟩ := h2
  exact ⟨a1.trans b1, a2.trans b2, b3.trans a3, b4.trans a4⟩

/-- C18 (fails on the code): in the world `(0, 40, 10, 50)`, with the default threshold 64 and
64 inserts of `(1, 41, 2, 42)` the root is internal.  The well-formed box `(1, 45, 2, 55)`
extends beyond the root rectangle on the y axis, yet it is inside the region
`(0, 29.7, 10, 59.4)` that `Subdivide(0, rootBox)` gives child C, and `Insert` stores it in
child C and not in the root's own collection.  When the three child regions lie inside the root
rectangle, as they do for a root `(x1, 0, x2, y2)` with `0 <= y2`, a box that is not inside
the root rectangle is appended to the root's own collection. -/
theorem box_beyond_root_is_stored_in_child_C :
    (Box.mk 1 45 2 55).WellFormed ∧
    (Box.mk 0 40 10 50).IsInsideMe ⟨1, 45, 2, 55⟩ = false ∧
    (Subdivide 0 ⟨0, 40, 10, 50⟩).2.2 = ⟨0, 297 / 10, 10, 297 / 5⟩ ∧
    (Subdivide 0 ⟨0, 40, 10, 50⟩).2.2.IsInsideMe ⟨1, 45, 2, 55⟩ = true ∧
    (Tree.build 64 0 40 10 50
        ((List.range 64).map (fun i => (⟨i, ⟨1, 41, 2, 42⟩⟩ : Elem)))).map
      (fun t => (t.Root, t.RootBox)) =
      some (Node.inner [] (Node.leaf ((List.range 64).map (fun i => ⟨i, ⟨1, 41, 2, 42⟩⟩)))
        (Node.leaf []) (Node.leaf []), ⟨0, 40, 10, 50⟩) ∧
    (Tree.build 64 0 40 10 50
        ((List.range 64).map (fun i => (⟨i, ⟨1, 41, 2, 42⟩⟩ : Elem)) ++
          [⟨64, ⟨1, 45, 2, 55⟩⟩])).map
      (fun t => t.Root) =
      some (Node.inner [] (Node.leaf ((List.range 64).map (fun i => ⟨i, ⟨1, 41, 2, 42⟩⟩)))
        (Node.leaf []) (Node.leaf [⟨64, ⟨1, 45, 2, 55⟩⟩])) ∧
    (∀ (NodeSize id : Nat) (box : Box) (els : List Elem) (a b c : Node) (rootBox : Box),
      rootBox.IsInsideMe box = false →
      rootBox.IsInsideMe (Subdivide 0 rootBox).1 = true →
      rootBox.IsInsideMe (Subdivide 0 rootBox).2.1 = true →
      rootBox.IsInsideMe (Subdivide 0 rootBox).2.2 = true →
      InsertAt NodeSize id box (Node.inner els a b c) rootBox 0 =
        Node.inner (els ++ [⟨id, box⟩]) a b c) ∧
    (∀ x1 x2 y2 : ℚ, 0 ≤ y2 →
      (Box.mk x1 0 x2 y2).IsInsideMe (Subdivide 0 ⟨x1, 0, x2, y2⟩).1 = true ∧
      (Box.mk x1 0 x2 y2).IsInsideMe (Subdivide 0 ⟨x1, 0, x2, y2⟩).2.1 = true ∧
      (Box.mk x1 0 x2 y2).IsInsideMe (Subdivide 0 ⟨x1, 0, x2, y2⟩).2.2 = true) := by
  refine ⟨by decide!, by decide!, by decide!, by decide!, by decide!, by decide!, ?_, ?_⟩
  · intro NodeSize id box els a b c rootBox hout hA hB hC
    have nA : (Subdivide 0 rootBox).1.IsInsideMe box = false := by
      rw [← Bool.not_eq_true] at hout ⊢
      exact fun h => hout (Box.IsInsideMe_trans hA h)
    have nB : (Subdivide 0 rootBox).2.1.IsInsideMe box = false := by
      rw [← Bool.not_eq_true] at hout ⊢
      exact fun h => hout (Box.IsInsideMe_trans hB h)
    have nC : (Subdivide 0 rootBox).2.2.IsInsideMe box = false := by
      rw [← Bool.not_eq_true] at hout ⊢
      exact fun h => hout (Box.IsInsideMe_trans hC h)
    simp [InsertAt, nA, nB, nC]
  · intro x1 x2 y2 hy
    rw [Subdivide_even 0 _ rfl]
    simp only [Box.IsInsideMe_iff]
    refine ⟨⟨le_refl _, le_refl _, le_refl _, by linarith⟩,
      ⟨le_refl _, by linarith, le_refl _, le_refl _⟩,
      ⟨le_refl _, by linarith, le_refl _, by linarith⟩⟩

/-! ## One insert, at most one split -/

theorem Split_size (n : Node) (nbox : Box) (depth : Nat) : (Split n nbox depth).size = 4 := by
  rw [Split_eq]; rfl

theorem InsertAt.splitCalls_le_one (NodeSize : Nat) (box : Box) (n : Node) (nbox : Box)
    (depth : Nat) : InsertAt.splitCalls NodeSize box n nbox depth ≤ 1 := by
  induction n generalizing nbox depth with
  | leaf els =>
    simp only [InsertAt.splitCalls]
    split_ifs <;> omega
  | inner els a b c iha ihb ihc =>
    simp only [InsertAt.splitCalls]
    split_ifs
    · omega
    · exact iha _ _
    · exact ihb _ _
    · exact ihc _ _

theorem InsertAt_size (NodeSize id : Nat) (box : Box) (n : Node) (nbox : Box) (depth : Nat) :
    (InsertAt NodeSize id box n nbox depth).size =
      n.size + 3 * InsertAt.splitCalls NodeSize box n nbox depth := by
  induction n generalizing nbox depth with
  | leaf els =>
    simp only [InsertAt, InsertAt.splitCalls, Node.Elems, List.length_append,
      List.length_singleton]
    split_ifs
    · rw [Split_size]; rfl
    · rfl
  | inner els a b c iha ihb ihc =>
    simp only [InsertAt, InsertAt.splitCalls]
    split_ifs
    · rfl
    · simp only [Node.size]
      rw [iha]
      omega
    · simp only [Node.size]
      rw [ihb]
      omega
    · simp only [Node.size]
      rw [ihc]
      omega

theorem Tree.InsertAll_size_le (t : Tree) (es : List Elem) :
    (t.InsertAll es).Root.size ≤ t.Root.size + 3 * es.length := by
  induction es generalizing t with
  | nil => simp [Tree.InsertAll]
  | cons e es ih =>
    have h := ih (t.Insert e.Id e.Box)
    have h1 : (t.Insert e.Id e.Box).Root.size =
        t.Root.size + 3 * InsertAt.splitCalls t.NodeSize e.Box t.Root t.RootBox 0 :=
      InsertAt_size t.NodeSize e.Id e.Box t.Root t.RootBox 0
    have h2 := InsertAt.splitCalls_le_one t.NodeSize e.Box t.Root t.RootBox 0
    rw [h1] at h
    simp only [Tree.InsertAll, List.foldl_cons, List.length_cons] at h ⊢
    omega

/-- C19: `Insert` is a total function of the tree, the threshold and the box; it calls `Split`
at most once, `Split` makes the node an internal node with three leaf children and calls
nothing further, so one `Insert` adds no node or exactly three nodes; and `k` inserts of the
same box add at most `3 * k` nodes. -/
theorem Insert_splits_at_most_once (t : Tree) (id : Nat) (box : Box) :
    InsertAt.splitCalls t.NodeSize box t.Root t.RootBox 0 ≤ 1 ∧
    (t.Insert id box).Root.size =
      t.Root.size + 3 * InsertAt.splitCalls t.NodeSize box t.Root t.RootBox 0 ∧
    ((t.Insert id box).Root.size = t.Root.size ∨
      (t.Insert id box).Root.size = t.Root.size + 3) ∧
    (∀ (n : Node) (nbox : Box) (depth : Nat), ∃ pruned ea eb ec : List Elem,
      Split n nbox depth = Node.inner pruned (Node.leaf ea) (Node.leaf eb) (Node.leaf ec)) ∧
    (∀ k : Nat, (t.InsertAll (List.replicate k ⟨id, box⟩)).Root.size ≤ t.Root.size + 3 * k) := by
  have h1 := InsertAt.splitCalls_le_one t.NodeSize box t.Root t.RootBox 0
  have h2 : (t.Insert id box).Root.size =
      t.Root.size + 3 * InsertAt.splitCalls t.NodeSize box t.Root t.RootBox 0 :=
    InsertAt_size t.NodeSize id box t.Root t.RootBox 0
  refine ⟨h1, h2, ?_, fun n nbox depth => ⟨_, _, _, _, Split_eq n nbox depth⟩, fun k => ?_⟩
  · rw [h2]
    omega
  · have h := Tree.InsertAll_size_le t (List.replicate k ⟨id, box⟩)
    simpa using h

/-! ## The counter `NScanned` and the popped nodes -/

theorem VisitorFind.loop_nscanned_mod {V : Type} (call : V → Elem → V × Bool) (findBox : Box)
    (queue : List QueueItem) (vis : V) (nscanned : Nat) :
    (VisitorFind.loop call findBox queue vis nscanned).2 % 2 ^ SIZE_BITS =
      (nscanned + scannedSize (VisitorFind.popped call findBox queue vis)) % 2 ^ SIZE_BITS := by
  induction queue, vis, nscanned using VisitorFind.loop.induct call findBox with
  | case1 vis nscanned => simp [VisitorFind.loop, VisitorFind.popped, scannedSize]
  | case2 els box depth queue vis nscanned vis1 hscan =>
    rw [VisitorFind.loop, VisitorFind.popped, hscan]
    simp [scannedSize, Node.Elems]
  | case3 els box depth queue vis nscanned nscanned1 vis1 hscan ih =>
    rw [VisitorFind.loop, VisitorFind.popped, hscan]
    simp only
    rw [ih]
    simp only [scannedSize, List.map_cons, List.sum_cons, Node.Elems]
    rw [Nat.add_mod, Nat.mod_mod, ← Nat.add_mod, Nat.add_assoc]
  | case4 els a b c box depth queue vis nscanned vis1 hscan =>
    rw [VisitorFind.loop, VisitorFind.popped, hscan]
    simp [scannedSize, Node.Elems]
  | case5 els a b c box depth queue vis nscanned nscanned1 vis1 hscan ih =>
    rw [VisitorFind.loop, VisitorFind.popped, hscan]
    simp only
    rw [ih]
    simp only [scannedSize, List.map_cons, List.sum_cons, Node.Elems]
    rw [Nat.add_mod, Nat.mod_mod, ← Nat.add_mod, Nat.add_assoc]

theorem VisitorFind.loop_nscanned_lt {V : Type} (call : V → Elem → V × Bool) (findBox : Box)
    (queue : List QueueItem) (vis : V) (nscanned : Nat)
    (h : queue ≠ [] ∨ nscanned < 2 ^ SIZE_BITS) :
    (VisitorFind.loop call findBox queue vis nscanned).2 < 2 ^ SIZE_BITS := by
  have hpos : 0 < 2 ^ SIZE_BITS := Nat.pos_pow_of_pos _ (by decide)
  induction queue, vis, nscanned using VisitorFind.loop.induct call findBox with
  | case1 vis nscanned =>
    rcases h with h | h
    · exact absurd rfl h
    · simpa [VisitorFind.loop] using h
  | case2 els box depth queue vis nscanned vis1 hscan =>
    rw [VisitorFind.loop, hscan]
    exact Nat.mod_lt _ hpos
  | case3 els box depth queue vis nscanned nscanned1 vis1 hscan ih =>
    rw [VisitorFind.loop, hscan]
    exact ih (Or.inr (Nat.mod_lt _ hpos))
  | case4 els a b c box depth queue vis nscanned vis1 hscan =>
    rw [VisitorFind.loop, hscan]
    exact Nat.mod_lt _ hpos
  | case5 els a b c box depth queue vis nscanned nscanned1 vis1 hscan ih =>
    rw [VisitorFind.loop, hscan]
    exact ih (Or.inr (Nat.mod_lt _ hpos))

/-- The counter after `VisitorFind`: the old value plus the collection sizes of the popped
nodes, in `size_t` arithmetic. -/
theorem VisitorFind_nscanned {V : Type} (call : V → Elem → V × Bool) (n : Node) (nbox : Box)
    (depth : Nat) (findBox : Box) (vis : V) (nscanned : Nat) :
    (VisitorFind call n nbox depth findBox vis nscanned).2 =
      (nscanned + scannedSize (VisitorFind.popped call findBox [⟨n, nbox, depth⟩] vis))
        % 2 ^ SIZE_BITS := by
  unfold VisitorFind
  rw [← VisitorFind.loop_nscanned_mod]
  exact (Nat.mod_eq_of_lt (VisitorFind.loop_nscanned_lt call findBox _ vis nscanned
    (Or.inl (by simp)))).symm

theorem visitQueue_pushChildren (findBox : Box) (a b c : Node) (box : Box) (depth : Nat)
    (queue : List QueueItem) :
    visitQueue findBox (pushChildren findBox a b c box depth queue) =
      (if (Subdivide depth box).2.2.Overlaps findBox
          then c.visitList findBox (Subdivide depth box).2.2 (depth + 1) else []) ++
       ((if (Subdivide depth box).2.1.Overlaps findBox
          then b.visitList findBox (Subdivide depth box).2.1 (depth + 1) else []) ++
        ((if (Subdivide depth box).1.Overlaps findBox
          then a.visitList findBox (Subdivide depth box).1 (depth + 1) else []) ++
         visitQueue findBox queue)) := by
  unfold pushChildren
  simp only
  split_ifs <;> simp [visitQueue]

/-- With a visitor that never stops the popped nodes are the nodes of the structural
traversal. -/
theorem VisitorFind.popped_continue {V : Type} (call : V → Elem → V × Bool)
    (hc : ∀ v e, (call v e).2 = true) (findBox : Box) (queue : List QueueItem) (vis : V) :
    VisitorFind.popped call findBox queue vis = visitQueue findBox queue := by
  induction queue, vis using VisitorFind.popped.induct call findBox with
  | case1 vis => simp [VisitorFind.popped, visitQueue]
  | case2 els box depth queue vis vis1 hscan =>
    rw [scanElems_continue call hc] at hscan
    simp at hscan
  | case3 els box depth queue vis vis1 hscan ih =>
    rw [VisitorFind.popped, hscan]
    simp only
    rw [ih]
    simp [visitQueue, Node.visitList]
  | case4 els a b c box depth queue vis vis1 hscan =>
    rw [scanElems_continue call hc] at hscan
    simp at hscan
  | case5 els a b c box depth queue vis vis1 hscan ih =>
    rw [VisitorFind.popped, hscan]
    simp only
    rw [ih, visitQueue_pushChildren]
    simp [visitQueue, Node.visitList]

theorem scanElems_AnyOverlap (findBox : Box) (els : List Elem) (vis : Bool) :
    (scanElems AnyOverlap.visitor findBox els vis).2 =
      !(els.any (fun e => e.Box.Overlaps findBox)) := by
  induction els generalizing vis with
  | nil => rfl
  | cons el rest ih =>
    unfold scanElems
    by_cases h : el.Box.Overlaps findBox = true
    · simp [h, AnyOverlap.visitor]
    · simp [h, ih]

/-- With the visitor of `AnyOverlap` the popped nodes are the nodes of the structural traversal
up to and including the first node that holds an element overlapping the query. -/
theorem VisitorFind.popped_AnyOverlap (findBox : Box) (queue : List QueueItem) (vis : Bool) :
    VisitorFind.popped AnyOverlap.visitor findBox queue vis =
      takeThrough (fun n => n.Elems.any (fun e => e.Box.Overlaps findBox))
        (visitQueue findBox queue) := by
  induction queue, vis using VisitorFind.popped.induct AnyOverlap.visitor findBox with
  | case1 vis => simp [VisitorFind.popped, visitQueue, takeThrough]
  | case2 els box depth queue vis vis1 hscan =>
    have h := scanElems_AnyOverlap findBox els vis
    rw [hscan] at h
    simp only [Bool.false_eq, Bool.not_eq_false'] at h
    rw [VisitorFind.popped, hscan]
    simp [visitQueue, Node.visitList, takeThrough, Node.Elems, h]
  | case3 els box depth queue vis vis1 hscan ih =>
    have h := scanElems_AnyOverlap findBox els vis
    rw [hscan] at h
    simp only [Bool.true_eq, Bool.not_eq_true'] at h
    rw [VisitorFind.popped, hscan]
    simp only
    rw [ih]
    simp [visitQueue, Node.visitList, takeThrough, Node.Elems, h]
  | case4 els a b c box depth queue vis vis1 hscan =>
    have h := scanElems_AnyOverlap findBox els vis
    rw [hscan] at h
    simp only [Bool.false_eq, Bool.not_eq_false'] at h
    rw [VisitorFind.popped, hscan]
    simp [visitQueue, Node.visitList, takeThrough, Node.Elems, h]
  | case5 els a b c box depth queue vis vis1 hscan ih =>
    have h := scanElems_AnyOverlap findBox els vis
    rw [hscan] at h
    simp only [Bool.true_eq, Bool.not_eq_true'] at h
    rw [VisitorFind.popped, hscan]
    simp only
    rw [ih, visitQueue_pushChildren]
    simp [visitQueue, Node.visitList, takeThrough, Node.Elems, h]

theorem visitQueue_single (findBox : Box) (n : Node) (nbox : Box) (depth : Nat) :
    visitQueue findBox [⟨n, nbox, depth⟩] = n.visitList findBox nbox depth := by
  simp [visitQueue]

/-- C20 (as stated it fails): on a tree whose counter `NScanned` is `2^64 - 1` and whose root
is a leaf with one element, `Find((0, 0, 3, 3))` and `AnyOverlap((0, 0, 3, 3))` each pop one
node, of collection size 1, and leave `NScanned = 0`: the counter has not increased by 1. -/
theorem NScanned_wraps_around :
    (Tree.Find ⟨64, 2 ^ 64 - 1, Node.leaf [⟨0, ⟨0, 0, 1, 1⟩⟩], ⟨0, 0, 10, 10⟩⟩
      ⟨0, 0, 3, 3⟩).2.NScanned = 0 ∧
    (Tree.AnyOverlap ⟨64, 2 ^ 64 - 1, Node.leaf [⟨0, ⟨0, 0, 1, 1⟩⟩], ⟨0, 0, 10, 10⟩⟩
      ⟨0, 0, 3, 3⟩).2.NScanned = 0 ∧
    VisitorFind.popped Find.visitorIds ⟨0, 0, 3, 3⟩
      [⟨Node.leaf [⟨0, ⟨0, 0, 1, 1⟩⟩], ⟨0, 0, 10, 10⟩, 0⟩] [] =
      [Node.leaf [⟨0, ⟨0, 0, 1, 1⟩⟩]] ∧
    VisitorFind.popped AnyOverlap.visitor ⟨0, 0, 3, 3⟩
      [⟨Node.leaf [⟨0, ⟨0, 0, 1, 1⟩⟩], ⟨0, 0, 10, 10⟩, 0⟩] false =
      [Node.leaf [⟨0, ⟨0, 0, 1, 1⟩⟩]] ∧
    scannedSize [Node.leaf [⟨0, ⟨0, 0, 1, 1⟩⟩]] = 1 := by
  refine ⟨?_, ?_, ?_, ?_, by decide⟩
  · simp only [Tree.Find, Tree.FindIds]
    rw [VisitorFind_nscanned, VisitorFind.popped_continue _ (fun _ _ => rfl), visitQueue_single]
    decide!
  · simp only [Tree.AnyOverlap]
    rw [VisitorFind_nscanned, VisitorFind.popped_AnyOverlap, visitQueue_single]
    decide!
  · rw [VisitorFind.popped_continue _ (fun _ _ => rfl), visitQueue_single]
    decide!
  · rw [VisitorFind.popped_AnyOverlap, visitQueue_single]
    decide!

/-- C20, amended: `Find` and `AnyOverlap` are total functions; they leave the root box,
`NodeSize`, the nodes and their elements unchanged and set `NScanned` to the old value plus the
sum of the element-collection sizes of the popped nodes, modulo `2^64` (so the counter grows by
exactly that sum whenever the sum does not carry it past `2^64 - 1`).  The popped nodes are the
nodes of the traversal for `Find`, and for `AnyOverlap` those up to and including the first
node that holds an element overlapping the query, each counted with its whole collection.  The
value of `NScanned` does not influence the result or the popped nodes. -/
theorem queries_only_change_NScanned (t : Tree) (query : Box) (els : List Elem)
    (ids : List Nat) (k : Nat) :
    ((t.FindElems query els).2 = { t with NScanned :=
        (t.NScanned +
          scannedSize (VisitorFind.popped Find.visitorElems query [⟨t.Root, t.RootBox, 0⟩] els))
          % 2 ^ SIZE_BITS } ∧
      VisitorFind.popped Find.visitorElems query [⟨t.Root, t.RootBox, 0⟩] els =
        t.Root.visitList query t.RootBox 0) ∧
    ((t.FindIds query ids).2 = { t with NScanned :=
        (t.NScanned +
          scannedSize (VisitorFind.popped Find.visitorIds query [⟨t.Root, t.RootBox, 0⟩] ids))
          % 2 ^ SIZE_BITS } ∧
      VisitorFind.popped Find.visitorIds query [⟨t.Root, t.RootBox, 0⟩] ids =
        t.Root.visitList query t.RootBox 0) ∧
    ((t.AnyOverlap query).2 = { t with NScanned :=
        (t.NScanned +
          scannedSize (VisitorFind.popped AnyOverlap.visitor query [⟨t.Root, t.RootBox, 0⟩]
            false)) % 2 ^ SIZE_BITS } ∧
      VisitorFind.popped AnyOverlap.visitor query [⟨t.Root, t.RootBox, 0⟩] false =
        takeThrough (fun n => n.Elems.any (fun e => e.Box.Overlaps query))
          (t.Root.visitList query t.RootBox 0)) ∧
    (t.NScanned + scannedSize (t.Root.visitList query t.RootBox 0) < 2 ^ SIZE_BITS →
      (t.FindElems query els).2.NScanned =
        t.NScanned + scannedSize (t.Root.visitList query t.RootBox 0) ∧
      (t.FindIds query ids).2.NScanned =
        t.NScanned + scannedSize (t.Root.visitList query t.RootBox 0)) ∧
    (t.NScanned + scannedSize (takeThrough (fun n => n.Elems.any (fun e => e.Box.Overlaps query))
        (t.Root.visitList query t.RootBox 0)) < 2 ^ SIZE_BITS →
      (t.AnyOverlap query).2.NScanned =
        t.NScanned + scannedSize (takeThrough
          (fun n => n.Elems.any (fun e => e.Box.Overlaps query))
          (t.Root.visitList query t.RootBox 0))) ∧
    (({ t with NScanned := k }).FindElems query els).1 = (t.FindElems query els).1 ∧
    (({ t with NScanned := k }).FindIds query ids).1 = (t.FindIds query ids).1 ∧
    (({ t with NScanned := k }).AnyOverlap query).1 = (t.AnyOverlap query).1 := by
  have p1 : VisitorFind.popped Find.visitorElems query [⟨t.Root, t.RootBox, 0⟩] els =
      t.Root.visitList query t.RootBox 0 := by
    rw [VisitorFind.popped_continue _ (fun _ _ => rfl), visitQueue_single]
  have p2 : VisitorFind.popped Find.visitorIds query [⟨t.Root, t.RootBox, 0⟩] ids =
      t.Root.visitList query t.RootBox 0 := by
    rw [VisitorFind.popped_continue _ (fun _ _ => rfl), visitQueue_single]
  have p3 : VisitorFind.popped AnyOverlap.visitor query [⟨t.Root, t.RootBox, 0⟩] false =
      takeThrough (fun n => n.Elems.any (fun e => e.Box.Overlaps query))
        (t.Root.visitList query t.RootBox 0) := by
    rw [VisitorFind.popped_AnyOverlap, visitQueue_single]
  have e1 : (t.FindElems query els).2 = { t with NScanned :=
      (t.NScanned +
        scannedSize (VisitorFind.popped Find.visitorElems query [⟨t.Root, t.RootBox, 0⟩] els))
        % 2 ^ SIZE_BITS } := by
    simp only [Tree.FindElems]
    rw [VisitorFind_nscanned]
  have e2 : (t.FindIds query ids).2 = { t with NScanned :=
      (t.NScanned +
        scannedSize (VisitorFind.popped Find.visitorIds query [⟨t.Root, t.RootBox, 0⟩] ids))
        % 2 ^ SIZE_BITS } := by
    simp only [Tree.FindIds]
    rw [VisitorFind_nscanned]
  have e3 : (t.AnyOverlap query).2 = { t with NScanned :=
      (t.NScanned +
        scannedSize (VisitorFind.popped AnyOverlap.visitor query [⟨t.Root, t.RootBox, 0⟩]
          false)) % 2 ^ SIZE_BITS } := by
    simp only [Tree.AnyOverlap]
    rw [VisitorFind_nscanned]
  refine ⟨⟨e1, p1⟩, ⟨e2, p2⟩, ⟨e3, p3⟩, ?_, ?_, ?_, ?_, rfl⟩
  · intro h
    rw [e1, e2, p1, p2]
    exact ⟨Nat.mod_eq_of_lt h, Nat.mod_eq_of_lt h⟩
  · intro h
    rw [e3, p3]
    exact Nat.mod_eq_of_lt h
  · rw [Tree.FindElems_eq, Tree.FindElems_eq]
  · rw [Tree.FindIds_eq, Tree.FindIds_eq]

/-! # The copy on node objects -/

/-! ## Lemmas on the store -/

theorem Fault.ok_bind {α β : Type} (a : α) (f : α → Except Fault β) :
    (Except.ok a >>= f) = f a := rfl

theorem Fault.pure_eq {α : Type} (a : α) : (pure a : Except Fault α) = Except.ok a := rfl

@[simp] theorem Store.newNode_snd (s : Store) : s.newNode.2 = s.next := rfl

@[simp] theorem Store.newNode_next (s : Store) : s.newNode.1.next = s.next + 1 := rfl

theorem Store.newNode_cells (s : Store) (q : Nat) :
    s.newNode.1.cells q = if q = s.next then some ⟨none, none, none, []⟩ else s.cells q := rfl

theorem Store.write_cells (s : Store) (p : Nat) (c : Cell) (q : Nat) :
    (s.write p c).cells q = if q = p then some c else s.cells q := rfl

@[simp] theorem Store.write_next (s : Store) (p : Nat) (c : Cell) :
    (s.write p c).next = s.next := rfl

theorem Store.read_eq_ok {s : Store} {p : Nat} {c : Cell} (h : s.cells p = some c) :
    s.read p = Except.ok c := by
  simp [Store.read, h]

@[simp] theorem PNode.addr_leaf (p : Nat) (els : List Elem) :
    (PNode.leaf p els).addr = p := rfl

@[simp] theorem PNode.addr_inner (p : Nat) (els : List Elem) (a b c : PNode) :
    (PNode.inner p els a b c).addr = p := rfl

theorem PNode.addr_mem_addrs (t : PNode) : t.addr ∈ t.addrs := by
  cases t <;> simp [PNode.addr, PNode.addrs]

theorem PNode.size_toNode_pos (t : PNode) : 1 ≤ t.toNode.size := by
  cases t
  · simp [PNode.toNode, Node.size]
  · simp only [PNode.toNode, Node.size]; omega

/-- What the store holds depends only on the objects at the addresses of the tree. -/
theorem Store.Holds.frame {s s1 : Store} {t : PNode} (h : s.Holds t)
    (hq : ∀ q ∈ t.addrs, s1.cells q = s.cells q) : s1.Holds t := by
  induction t with
  | leaf p els =>
    simp only [Store.Holds] at h ⊢
    rw [hq p (by simp [PNode.addrs]), h]
  | inner p els a b c iha ihb ihc =>
    simp only [Store.Holds] at h ⊢
    obtain ⟨hp, ha, hb, hc⟩ := h
    refine ⟨by rw [hq p (by simp [PNode.addrs]), hp], iha ha ?_, ihb hb ?_, ihc hc ?_⟩
    · intro q hqa; exact hq q (by simp [PNode.addrs, hqa])
    · intro q hqa; exact hq q (by simp [PNode.addrs, hqa])
    · intro q hqa; exact hq q (by simp [PNode.addrs, hqa])

theorem Store.Holds.cell {s : Store} {t : PNode} (h : s.Holds t) :
    ∃ c, s.cells t.addr = some c ∧ c.Elems = t.toNode.Elems := by
  cases t with
  | leaf p els => exact ⟨_, h, rfl⟩
  | inner p els a b c => exact ⟨_, h.1, rfl⟩

/-- `delete` of the root of a tree that the store holds (without shared nodes) succeeds and
changes no object outside the tree. -/
theorem Store.deleteNode_Holds (t : PNode) :
    ∀ (s : Store) (fuel : Nat), t.toNode.size ≤ fuel → s.Holds t → t.addrs.Nodup →
      ∃ s1, Store.deleteNode fuel s (some t.addr) = Except.ok s1 ∧ s1.next = s.next ∧
        ∀ q, q ∉ t.addrs → s1.cells q = s.cells q := by
  induction t with
  | leaf p els =>
    intro s fuel hf h hnd
    simp only [Store.Holds] at h
    obtain ⟨f, rfl⟩ : ∃ f, fuel = f + 1 := ⟨fuel - 1, by simp [PNode.toNode, Node.size] at hf; omega⟩
    refine ⟨s.release p, ?_, rfl, ?_⟩
    · simp only [Store.deleteNode, PNode.addr_leaf, Store.read_eq_ok h, Fault.ok_bind, Fault.pure_eq]
    · intro q hq
      simp only [PNode.addrs, List.mem_singleton] at hq
      simp [Store.release, hq]
  | inner p els a b c iha ihb ihc =>
    intro s fuel hf h hnd
    simp only [Store.Holds] at h
    obtain ⟨hp, ha, hb, hc⟩ := h
    simp only [PNode.toNode, Node.size] at hf
    obtain ⟨f, rfl⟩ : ∃ f, fuel = f + 1 := ⟨fuel - 1, by omega⟩
    simp only [PNode.addrs, List.nodup_cons, List.mem_append, not_or, List.nodup_append,
      List.disjoint_append_right] at hnd
    obtain ⟨⟨hpa, hpb, hpc⟩, hna, ⟨hnb, hnc, hbc⟩, hab, hac⟩ := hnd
    obtain ⟨s1, e1, n1, f1⟩ := iha s f (by omega) ha hna
    have hb1 : s1.Holds b := hb.frame (fun q hq => f1 q (fun hqa => hab hqa hq))
    have hc1 : s1.Holds c := hc.frame (fun q hq => f1 q (fun hqa => hac hqa hq))
    obtain ⟨s2, e2, n2, f2⟩ := ihb s1 f (by omega) hb1 hnb
    have hc2 : s2.Holds c := hc1.frame (fun q hq => f2 q (fun hqb => hbc hqb hq))
    obtain ⟨s3, e3, n3, f3⟩ := ihc s2 f (by omega) hc2 hnc
    have r1 : s1.cells p = some ⟨some a.addr, some b.addr, some c.addr, els⟩ := by
      rw [f1 p hpa, hp]
    have r2 : s2.cells p = some ⟨some a.addr, some b.addr, some c.addr, els⟩ := by
      rw [f2 p hpb, r1]
    have r3 : s3.cells p = some ⟨some a.addr, some b.addr, some c.addr, els⟩ := by
      rw [f3 p hpc, r2]
    refine ⟨s3.release p, ?_, ?_, ?_⟩
    · simp only [Store.deleteNode, PNode.addr_inner, Store.read_eq_ok hp, Fault.ok_bind, e1,
        Store.read_eq_ok r1, e2, Store.read_eq_ok r2, e3, Store.read_eq_ok r3, Fault.pure_eq]
    · simp [Store.release, n1, n2, n3]
    · intro q hq
      simp only [PNode.addrs, List.mem_cons, List.mem_append, not_or] at hq
      obtain ⟨hqp, hqa, hqb, hqc⟩ := hq
      simp only [Store.release, if_neg hqp]
      rw [f3 q hqc, f2 q hqb, f1 q hqa]

theorem Store.deleteChildren_Holds (t : PNode) (s : Store) (fuel : Nat)
    (hf : t.toNode.size ≤ fuel + 1) (h : s.Holds t) (hnd : t.addrs.Nodup) :
    ∃ s1, Store.deleteChildren fuel s t.addr = Except.ok s1 ∧ s1.next = s.next ∧
      s1.cells t.addr = s.cells t.addr ∧ ∀ q, q ∉ t.addrs → s1.cells q = s.cells q := by
  cases t with
  | leaf p els =>
    simp only [Store.Holds] at h
    refine ⟨s, ?_, rfl, rfl, fun _ _ => rfl⟩
    simp only [Store.deleteChildren, PNode.addr_leaf, Store.read_eq_ok h, Fault.ok_bind,
      Store.deleteNode]
  | inner p els a b c =>
    simp only [Store.Holds] at h
    obtain ⟨hp, ha, hb, hc⟩ := h
    simp only [PNode.toNode, Node.size] at hf
    simp only [PNode.addrs, List.nodup_cons, List.mem_append, not_or, List.nodup_append,
      List.disjoint_append_right] at hnd
    obtain ⟨⟨hpa, hpb, hpc⟩, hna, ⟨hnb, hnc, hbc⟩, hab, hac⟩ := hnd
    obtain ⟨s1, e1, n1, f1⟩ := Store.deleteNode_Holds a s fuel (by omega) ha hna
    have hb1 : s1.Holds b := hb.frame (fun q hq => f1 q (fun hqa => hab hqa hq))
    have hc1 : s1.Holds c := hc.frame (fun q hq => f1 q (fun hqa => hac hqa hq))
    obtain ⟨s2, e2, n2, f2⟩ := Store.deleteNode_Holds b s1 fuel (by omega) hb1 hnb
    have hc2 : s2.Holds c := hc1.frame (fun q hq => f2 q (fun hqb => hbc hqb hq))
    obtain ⟨s3, e3, n3, f3⟩ := Store.deleteNode_Holds c s2 fuel (by omega) hc2 hnc
    have r1 : s1.cells p = some ⟨some a.addr, some b.addr, some c.addr, els⟩ := by
      rw [f1 p hpa, hp]
    have r2 : s2.cells p = some ⟨some a.addr, some b.addr, some c.addr, els⟩ := by
      rw [f2 p hpb, r1]
    refine ⟨s3, ?_, by rw [n3, n2, n1], ?_, ?_⟩
    · simp only [Store.deleteChildren, PNode.addr_inner, Store.read_eq_ok hp, Fault.ok_bind, e1,
        Store.read_eq_ok r1, e2, Store.read_eq_ok r2, e3]
    · simp only [PNode.addr_inner]
      rw [f3 p hpc, r2, hp]
    · intro q hq
      simp only [PNode.addrs, List.mem_cons, List.mem_append, not_or] at hq
      obtain ⟨_, hqa, hqb, hqc⟩ := hq
      rw [f3 q hqc, f2 q hqb, f1 q hqa]

theorem Store.copyChild_Holds (assign : Store → Nat → Nat → Except Fault Store) (y : PNode)
    (hassign : AssignsCopyOf assign y) (s : Store) (d b : Nat) (cd cb : Cell)
    (get : Cell → Option Nat) (set : Cell → Option Nat → Cell)
    (hy : s.Holds y) (hylt : ∀ q ∈ y.addrs, q < s.next)
    (hb : s.cells b = some cb) (hget : get cb = some y.addr)
    (hd : s.cells d = some cd) (hdlt : d < s.next) :
    ∃ s1 t1, Store.copyChild assign s d b get set = Except.ok s1 ∧ s1.Holds t1 ∧
      t1.addr = s.next ∧ t1.toNode = y.toNode ∧ s.next < s1.next ∧
      (∀ q ∈ t1.addrs, s.next ≤ q ∧ q < s1.next) ∧ t1.addrs.Nodup ∧
      s1.cells d = some (set cd (some s.next)) ∧
      (∀ q, q ≠ d → q < s.next → s1.cells q = s.cells q) := by
  obtain ⟨s1, t1, e1, h1, a1, n1, lt1, r1, nd1, f1⟩ := hassign s hy hylt
  have hd1 : s1.cells d = some cd := by rw [f1 d hdlt, hd]
  refine ⟨s1.write d (set cd (some s.next)), t1, ?_, ?_, a1, n1, lt1, r1, nd1, ?_, ?_⟩
  · simp only [Store.copyChild, Store.read_eq_ok hb, Fault.ok_bind, hget, derefChild,
      Store.newNode_snd, e1, Store.read_eq_ok hd1, Fault.pure_eq]
  · refine h1.frame (fun q hq => ?_)
    have := (r1 q hq).1
    simp only [Store.write]
    rw [if_neg (by omega)]
  · simp [Store.write]
  · intro q hqd hq
    simp only [Store.write, if_neg hqd]
    exact f1 q hq

/-- `Node::operator=(const Node& b)` on an object `d` that roots the tree `td`, with the root
of a separate tree `x` as argument, succeeds; afterwards `d` roots a tree equal to `x` whose
other nodes are new objects, and no object outside `td` has changed. -/
theorem Store.copyAssign_Holds (x : PNode) :
    ∀ (td : PNode) (s : Store) (fuel : Nat),
      td.toNode.size + x.toNode.size ≤ fuel → s.Holds td → s.Holds x → td.addrs.Nodup →
      (∀ q ∈ td.addrs, q ∉ x.addrs) → (∀ q ∈ td.addrs, q < s.next) →
      (∀ q ∈ x.addrs, q < s.next) →
      ∃ s1 t1, Store.copyAssign fuel s td.addr x.addr = Except.ok s1 ∧ s1.Holds t1 ∧
        t1.addr = td.addr ∧ t1.toNode = x.toNode ∧ s.next ≤ s1.next ∧
        (∀ q ∈ t1.addrs, q = td.addr ∨ (s.next ≤ q ∧ q < s1.next)) ∧ t1.addrs.Nodup ∧
        (∀ q, q ∉ td.addrs → q < s.next → s1.cells q = s.cells q) := by
  induction x with
  | leaf p els =>
    intro td s fuel hf htd hx hnd hdis hdlt hxlt
    obtain ⟨f, rfl⟩ : ∃ f, fuel = f + 1 := ⟨fuel - 1, by have := td.size_toNode_pos; omega⟩
    obtain ⟨s3, e3, n3, c3, f3⟩ := Store.deleteChildren_Holds td s f (by omega) htd hnd
    obtain ⟨cd, hcd, _⟩ := htd.cell
    have hd3 : s3.cells td.addr = some cd := by rw [c3, hcd]
    have hpd : p ≠ td.addr := fun h =>
      hdis td.addr td.addr_mem_addrs (by simp [PNode.addrs, ← h])
    have hp3 : s3.cells p = some ⟨none, none, none, els⟩ := by
      rw [f3 p (fun h => hdis p h (by simp [PNode.addrs]))]
      exact hx
    refine ⟨(s3.write td.addr ⟨none, none, none, cd.Elems⟩).write td.addr
      ⟨none, none, none, els⟩, PNode.leaf td.addr els, ?_, ?_, rfl, rfl, ?_, ?_, ?_, ?_⟩
    · simp only [Store.copyAssign, e3, Fault.ok_bind, Store.copyMembers, PNode.addr_leaf,
        Store.read_eq_ok hp3, Store.read_eq_ok hd3, Fault.pure_eq]
      simp only [Store.read, Store.write_cells, if_neg hpd, hp3, if_true, Fault.ok_bind]
    · simp [Store.Holds, Store.write_cells]
    · simp only [Store.write_next]; omega
    · intro q hq
      simp only [PNode.addrs, List.mem_singleton] at hq
      exact Or.inl hq
    · simp [PNode.addrs]
    · intro q hq hlt
      have hqd : q ≠ td.addr := fun h => hq (h ▸ td.addr_mem_addrs)
      simp only [Store.write_cells, if_neg hqd]
      exact f3 q hq
  | inner p els a b c iha ihb ihc =>
    intro td s fuel hf htd hx hnd hdis hdlt hxlt
    simp only [PNode.toNode, Node.size] at hf
    obtain ⟨f, rfl⟩ : ∃ f, fuel = f + 1 := ⟨fuel - 1, by omega⟩
    have hsz := td.size_toNode_pos
    -- the recursive calls copy the children into new objects
    have hrec : ∀ (y : PNode), y.toNode.size + 1 ≤ f →
        (∀ (td : PNode) (s : Store) (fuel : Nat),
          td.toNode.size + y.toNode.size ≤ fuel → s.Holds td → s.Holds y → td.addrs.Nodup →
          (∀ q ∈ td.addrs, q ∉ y.addrs) → (∀ q ∈ td.addrs, q < s.next) →
          (∀ q ∈ y.addrs, q < s.next) →
          ∃ s1 t1, Store.copyAssign fuel s td.addr y.addr = Except.ok s1 ∧ s1.Holds t1 ∧
            t1.addr = td.addr ∧ t1.toNode = y.toNode ∧ s.next ≤ s1.next ∧
            (∀ q ∈ t1.addrs, q = td.addr ∨ (s.next ≤ q ∧ q < s1.next)) ∧ t1.addrs.Nodup ∧
            (∀ q, q ∉ td.addrs → q < s.next → s1.cells q = s.cells q)) →
        AssignsCopyOf (Store.copyAssign f) y := by
      intro y hy ih s0 h0 hlt0
      have hy0 : s0.newNode.1.Holds y := h0.frame (fun q hq => by
        rw [Store.newNode_cells, if_neg (by have := hlt0 q hq; omega)])
      obtain ⟨s1, t1, e1, h1, a1, n1, lt1, r1, nd1, f1⟩ :=
        ih (PNode.leaf s0.next []) s0.newNode.1 f
          (by simp only [PNode.toNode, Node.size]; omega)
          (by simp [Store.Holds, Store.newNode_cells]) hy0 (by simp [PNode.addrs])
          (by
            intro q hq hqy
            simp only [PNode.addrs, List.mem_singleton] at hq
            have := hlt0 q hqy
            omega)
          (by
            intro q hq
            simp only [PNode.addrs, List.mem_singleton] at hq
            simp only [Store.newNode_next]; omega)
          (by
            intro q hq
            have := hlt0 q hq
            simp only [Store.newNode_next]; omega)
      simp only [PNode.addr_leaf, Store.newNode_next] at e1 a1 lt1 r1 f1
      have hnext : s0.next < s1.next := by omega
      refine ⟨s1, t1, e1, h1, a1, n1, hnext, ?_, nd1, ?_⟩
      · intro q hq
        rcases r1 q hq with h | h
        · omega
        · omega
      · intro q hq
        rw [f1 q (by simp only [PNode.addrs, List.mem_singleton]; omega) (by omega),
          Store.newNode_cells, if_neg (by omega)]
    have ra := hrec a (by omega) iha
    have rb := hrec b (by omega) ihb
    have rc := hrec c (by omega) ihc
    -- the three deletes
    obtain ⟨s3, e3, n3, c3, f3⟩ := Store.deleteChildren_Holds td s f (by omega) htd hnd
    obtain ⟨cd, hcd, _⟩ := htd.cell
    have hd3 : s3.cells td.addr = some cd := by rw [c3, hcd]
    have hpd : p ≠ td.addr := fun h =>
      hdis td.addr td.addr_mem_addrs (by simp [PNode.addrs, ← h])
    have hx3 : s3.Holds (PNode.inner p els a b c) :=
      hx.frame (fun q hq => f3 q (fun h => hdis q h hq))
    simp only [Store.Holds] at hx3
    obtain ⟨hp3, ha3, hb3, hc3⟩ := hx3
    have hplt : p < s3.next := by rw [n3]; exact hxlt p (by simp [PNode.addrs])
    have hdlt3 : td.addr < s3.next := by rw [n3]; exact hdlt _ td.addr_mem_addrs
    have halt : ∀ q ∈ a.addrs, q < s3.next := fun q hq => by
      rw [n3]; exact hxlt q (by simp [PNode.addrs, hq])
    have hblt : ∀ q ∈ b.addrs, q < s3.next := fun q hq => by
      rw [n3]; exact hxlt q (by simp [PNode.addrs, hq])
    have hclt : ∀ q ∈ c.addrs, q < s3.next := fun q hq => by
      rw [n3]; exact hxlt q (by simp [PNode.addrs, hq])
    have hda : ∀ q ∈ a.addrs, q ≠ td.addr := fun q hq h =>
      hdis td.addr td.addr_mem_addrs (by simp [PNode.addrs, ← h, hq])
    have hdb : ∀ q ∈ b.addrs, q ≠ td.addr := fun q hq h =>
      hdis td.addr td.addr_mem_addrs (by simp [PNode.addrs, ← h, hq])
    have hdc : ∀ q ∈ c.addrs, q ≠ td.addr := fun q hq h =>
      hdis td.addr td.addr_mem_addrs (by simp [PNode.addrs, ← h, hq])
    -- ChildA = new Node(*b.ChildA);
    obtain ⟨s4, ta, e4, h4, a4, n4, lt4, r4, nd4, d4, f4⟩ :=
      Store.copyChild_Holds (Store.copyAssign f) a ra s3 td.addr p cd _
        (fun c => c.ChildA) (fun c p => { c with ChildA := p }) ha3 halt hp3 rfl hd3 hdlt3
    have hp4 : s4.cells p = some ⟨some a.addr, some b.addr, some c.addr, els⟩ := by
      rw [f4 p hpd hplt, hp3]
    have hb4 : s4.Holds b := hb3.frame (fun q hq => f4 q (hdb q hq) (hblt q hq))
    have hc4 : s4.Holds c := hc3.frame (fun q hq => f4 q (hdc q hq) (hclt q hq))
    -- ChildB = new Node(*b.ChildB);
    obtain ⟨s5, tb, e5, h5, a5, n5, lt5, r5, nd5, d5, f5⟩ :=
      Store.copyChild_Holds (Store.copyAssign f) b rb s4 td.addr p _ _
        (fun c => c.ChildB) (fun c p => { c with ChildB := p }) hb4
        (fun q hq => by have := hblt q hq; omega) hp4 rfl d4 (by omega)
    have hp5 : s5.cells p = some ⟨some a.addr, some b.addr, some c.addr, els⟩ := by
      rw [f5 p hpd (by omega), hp4]
    have hc5 : s5.Holds c :=
      hc4.frame (fun q hq => f5 q (hdc q hq) (by have := hclt q hq; omega))
    have ha5 : s5.Holds ta := h4.frame (fun q hq => by
      have := r4 q hq
      exact f5 q (by omega) (by omega))
    -- ChildC = new Node(*b.ChildC);
    obtain ⟨s6, tc, e6, h6, a6, n6, lt6, r6, nd6, d6, f6⟩ :=
      Store.copyChild_Holds (Store.copyAssign f) c rc s5 td.addr p _ _
        (fun c => c.ChildC) (fun c p => { c with ChildC := p }) hc5
        (fun q hq => by have := hclt q hq; omega) hp5 rfl d5 (by omega)
    have hp6 : s6.cells p = some ⟨some a.addr, some b.addr, some c.addr, els⟩ := by
      rw [f6 p hpd (by omega), hp5]
    have ha6 : s6.Holds ta := ha5.frame (fun q hq => by
      have := r4 q hq
      exact f6 q (by omega) (by omega))
    have hb6 : s6.Holds tb := h5.frame (fun q hq => by
      have := r5 q hq
      exact f6 q (by omega) (by omega))
    refine ⟨s6.write td.addr ⟨some s3.next, some s4.next, some s5.next, els⟩,
      PNode.inner td.addr els ta tb tc, ?_, ?_, rfl, ?_, ?_, ?_, ?_, ?_⟩
    · simp only [Store.copyAssign, e3, Fault.ok_bind, Store.copyMembers, PNode.addr_inner,
        Store.read_eq_ok hp3, e4, e5, e6, Store.read_eq_ok hp6, Store.read_eq_ok d6,
        Fault.pure_eq]
    · simp only [Store.Holds, Store.write_cells, if_true, a4, a5, a6]
      refine ⟨trivial, ha6.frame ?_, hb6.frame ?_, h6.frame ?_⟩
      · intro q hq
        have := r4 q hq
        rw [Store.write_cells, if_neg (by omega)]
      · intro q hq
        have := r5 q hq
        rw [Store.write_cells, if_neg (by omega)]
      · intro q hq
        have := r6 q hq
        rw [Store.write_cells, if_neg (by omega)]
    · simp only [PNode.toNode, n4, n5, n6]
    · simp only [Store.write_next]; omega
    · intro q hq
      simp only [PNode.addrs, List.mem_cons, List.mem_append] at hq
      simp only [PNode.addr_inner, Store.write_next]
      rcases hq with h | h | h | h
      · exact Or.inl h
      · have := r4 q h; right; omega
      · have := r5 q h; right; omega
      · have := r6 q h; right; omega
    · simp only [PNode.addrs, List.nodup_cons, List.mem_append, not_or, List.nodup_append,
        List.disjoint_append_right]
      refine ⟨⟨?_, ?_, ?_⟩, nd4, ⟨nd5, nd6, ?_⟩, ?_, ?_⟩
      · intro h; have := r4 _ h; omega
      · intro h; have := r5 _ h; omega
      · intro h; have := r6 _ h; omega
      · intro q h1 h2; have := r5 q h1; have := r6 q h2; omega
      · intro q h1 h2; have := r4 q h1; have := r5 q h2; omega
      · intro q h1 h2; have := r4 q h1; have := r6 q h2; omega
    · intro q hq hlt
      have hqd : q ≠ td.addr := fun h => hq (h ▸ td.addr_mem_addrs)
      simp only [Store.write_cells, if_neg hqd]
      rw [f6 q hqd (by omega), f5 q hqd (by omega), f4 q hqd (by omega)]
      exact f3 q hq

/-! ## Split and Insert on node objects -/

/-- `Split` on a leaf object: the object gets three new leaves as children, and the tree it
roots is `Split` of the leaf as a value. -/
theorem Store.Split_Holds (s : Store) (p : Nat) (els : List Elem) (nbox : Box) (depth : Nat)
    (hp : s.cells p = some ⟨none, none, none, els⟩) (hlt : p < s.next) :
    ∃ s1 t1, s.Split p nbox depth = Except.ok s1 ∧ s1.Holds t1 ∧ t1.addr = p ∧
      t1.toNode = kd2.Split (Node.leaf els) nbox depth ∧ s1.next = s.next + 3 ∧
      (∀ q ∈ t1.addrs, q = p ∨ (s.next ≤ q ∧ q < s1.next)) ∧ t1.addrs.Nodup ∧
      (∀ q, q ≠ p → q < s.next → s1.cells q = s.cells q) := by
  rcases hsub : Subdivide depth nbox with ⟨boxA, boxB, boxC⟩
  rcases hloop : Split.loop boxA boxB boxC els [] [] [] [] with ⟨pruned, ea, eb, ec⟩
  refine ⟨(((s.newNode.1.newNode.1.newNode.1.write s.next ⟨none, none, none, ea⟩).write
      (s.next + 1) ⟨none, none, none, eb⟩).write (s.next + 2) ⟨none, none, none, ec⟩).write p
      ⟨some s.next, some (s.next + 1), some (s.next + 2), pruned⟩,
    PNode.inner p pruned (PNode.leaf s.next ea) (PNode.leaf (s.next + 1) eb)
      (PNode.leaf (s.next + 2) ec), ?_, ?_, rfl, ?_, rfl, ?_, ?_, ?_⟩
  · simp only [Store.Split, hsub, Store.read_eq_ok hp, Fault.ok_bind, hloop, Fault.pure_eq,
      Store.newNode_snd, Store.newNode_next]
  · simp only [Store.Holds, Store.write_cells, PNode.addr_leaf, if_true, true_and]
    refine ⟨?_, ?_, ?_⟩
    · rw [if_neg (by omega), if_neg (by omega), if_neg (by omega)]
    · rw [if_neg (by omega), if_neg (by omega)]
    · rw [if_neg (by omega)]
  · simp only [PNode.toNode, kd2.Split, hsub, Node.Elems, hloop]
  · intro q hq
    simp only [PNode.addrs, List.mem_cons, List.mem_append, List.mem_singleton,
      List.not_mem_nil, or_false] at hq
    simp only [Store.write_next, Store.newNode_next]
    omega
  · simp only [PNode.addrs, List.nodup_cons, List.mem_append, List.mem_cons, List.mem_singleton,
      List.not_mem_nil, or_false, List.singleton_append, List.nodup_nil, not_false_eq_true,
      and_true, not_or]
    omega
  · intro q hqp hq
    simp only [Store.write_cells, Store.newNode_cells, Store.newNode_next, if_neg hqp]
    rw [if_neg (by omega), if_neg (by omega), if_neg (by omega), if_neg (by omega),
      if_neg (by omega), if_neg (by omega)]

/-- `Insert` from the root object of a tree that the store holds (without shared nodes)
succeeds; afterwards the object roots `InsertAt` of the tree as a value, the nodes that were
not in the tree before are new objects, and no object outside the tree has changed. -/
theorem Store.InsertAt_Holds (NodeSize id : Nat) (box : Box) (t : PNode) :
    ∀ (s : Store) (nbox : Box) (depth fuel : Nat), t.toNode.size ≤ fuel → s.Holds t →
      t.addrs.Nodup → (∀ q ∈ t.addrs, q < s.next) →
      ∃ s1 t1, Store.InsertAt NodeSize id box fuel s t.addr nbox depth = Except.ok s1 ∧
        s1.Holds t1 ∧ t1.addr = t.addr ∧
        t1.toNode = kd2.InsertAt NodeSize id box t.toNode nbox depth ∧ s.next ≤ s1.next ∧
        (∀ q ∈ t1.addrs, q ∈ t.addrs ∨ (s.next ≤ q ∧ q < s1.next)) ∧ t1.addrs.Nodup ∧
        (∀ q, q ∉ t.addrs → q < s.next → s1.cells q = s.cells q) := by
  induction t with
  | leaf p els =>
    intro s nbox depth fuel hf h hnd hlt
    simp only [Store.Holds] at h
    obtain ⟨f, rfl⟩ : ∃ f, fuel = f + 1 :=
      ⟨fuel - 1, by simp [PNode.toNode, Node.size] at hf; omega⟩
    have hplt : p < s.next := hlt p (by simp [PNode.addrs])
    by_cases hn : (els ++ [(⟨id, box⟩ : Elem)]).length ≥ NodeSize
    · obtain ⟨s1, t1, e1, h1, a1, n1, x1, r1, nd1, f1⟩ :=
        Store.Split_Holds (s.write p ⟨none, none, none, els ++ [(⟨id, box⟩ : Elem)]⟩) p
          (els ++ [(⟨id, box⟩ : Elem)]) nbox depth (by simp [Store.write_cells])
          (by simpa using hplt)
      simp only [Store.write_next] at x1 r1 f1
      refine ⟨s1, t1, ?_, h1, a1, ?_, by omega, ?_, nd1, ?_⟩
      · simp only [Store.InsertAt, PNode.addr_leaf, Store.read_eq_ok h, Fault.ok_bind, if_pos hn]
        exact e1
      · simp only [PNode.toNode, kd2.InsertAt, Node.Elems, if_pos hn, n1]
      · intro q hq
        rcases r1 q hq with hqp | hqp
        · left; simp [PNode.addrs, hqp]
        · right; exact hqp
      · intro q hq hqlt
        simp only [PNode.addrs, List.mem_singleton] at hq
        rw [f1 q hq hqlt, Store.write_cells, if_neg hq]
    · refine ⟨s.write p ⟨none, none, none, els ++ [(⟨id, box⟩ : Elem)]⟩,
        PNode.leaf p (els ++ [(⟨id, box⟩ : Elem)]), ?_, ?_, rfl, ?_, ?_, ?_, ?_, ?_⟩
      · simp only [Store.InsertAt, PNode.addr_leaf, Store.read_eq_ok h, Fault.ok_bind, if_neg hn,
          Fault.pure_eq]
      · simp [Store.Holds, Store.write_cells]
      · simp only [PNode.toNode, kd2.InsertAt, Node.Elems, if_neg hn]
      · simp
      · intro q hq; exact Or.inl hq
      · simp [PNode.addrs]
      · intro q hq _
        simp only [PNode.addrs, List.mem_singleton] at hq
        rw [Store.write_cells, if_neg hq]
  | inner p els a b c iha ihb ihc =>
    intro s nbox depth fuel hf h hnd hlt
    simp only [Store.Holds] at h
    obtain ⟨hp, ha, hb, hc⟩ := h
    simp only [PNode.toNode, Node.size] at hf
    obtain ⟨f, rfl⟩ : ∃ f, fuel = f + 1 := ⟨fuel - 1, by omega⟩
    simp only [PNode.addrs, List.nodup_cons, List.mem_append, not_or, List.nodup_append,
      List.disjoint_append_right] at hnd
    obtain ⟨⟨hpa, hpb, hpc⟩, hna, ⟨hnb, hnc, hbc⟩, hab, hac⟩ := hnd
    have hplt : p < s.next := hlt p (by simp [PNode.addrs])
    have halt : ∀ q ∈ a.addrs, q < s.next := fun q hq => hlt q (by simp [PNode.addrs, hq])
    have hblt : ∀ q ∈ b.addrs, q < s.next := fun q hq => hlt q (by simp [PNode.addrs, hq])
    have hclt : ∀ q ∈ c.addrs, q < s.next := fun q hq => hlt q (by simp [PNode.addrs, hq])
    rcases hsub : Subdivide depth nbox with ⟨boxA, boxB, boxC⟩
    by_cases hnone : (!(boxA.IsInsideMe box || boxB.IsInsideMe box || boxC.IsInsideMe box)) = true
    · refine ⟨s.write p ⟨some a.addr, some b.addr, some c.addr, els ++ [(⟨id, box⟩ : Elem)]⟩,
        PNode.inner p (els ++ [(⟨id, box⟩ : Elem)]) a b c, ?_, ?_, rfl, ?_, ?_, ?_, ?_, ?_⟩
      · simp only [Store.InsertAt, PNode.addr_inner, Store.read_eq_ok hp, Fault.ok_bind, hsub,
          if_pos hnone, Fault.pure_eq]
      · simp only [Store.Holds, Store.write_cells, if_true, true_and]
        refine ⟨ha.frame ?_, hb.frame ?_, hc.frame ?_⟩
        · intro q hq
          rw [Store.write_cells, if_neg (fun (h : q = p) => hpa (h ▸ hq))]
        · intro q hq
          rw [Store.write_cells, if_neg (fun (h : q = p) => hpb (h ▸ hq))]
        · intro q hq
          rw [Store.write_cells, if_neg (fun (h : q = p) => hpc (h ▸ hq))]
      · simp only [PNode.toNode, kd2.InsertAt, hsub, if_pos hnone]
      · simp
      · intro q hq; exact Or.inl hq
      · simp only [PNode.addrs, List.nodup_cons, List.mem_append, not_or, List.nodup_append,
          List.disjoint_append_right]
        exact ⟨⟨hpa, hpb, hpc⟩, hna, ⟨hnb, hnc, hbc⟩, hab, hac⟩
      · intro q hq _
        simp only [PNode.addrs, List.mem_cons, not_or] at hq
        rw [Store.write_cells, if_neg hq.1]
    · by_cases hqa : boxA.IsInsideMe box = true
      · obtain ⟨s1, t1, e1, h1, a1, n1, x1, r1, nd1, f1⟩ :=
          iha s boxA (depth + 1) f (by omega) ha hna halt
        have hp1 : p ∉ t1.addrs := fun hq => by
          rcases r1 p hq with h | h
          · exact hpa h
          · omega
        refine ⟨s1, PNode.inner p els t1 b c, ?_, ?_, rfl, ?_, x1, ?_, ?_, ?_⟩
        · simp only [Store.InsertAt, PNode.addr_inner, Store.read_eq_ok hp, Fault.ok_bind, hsub,
            if_neg hnone, if_pos hqa]
          exact e1
        · simp only [Store.Holds, a1]
          refine ⟨by rw [f1 p hpa hplt, hp], h1, hb.frame ?_, hc.frame ?_⟩
          · intro q hq; exact f1 q (fun h => hab h hq) (hblt q hq)
          · intro q hq; exact f1 q (fun h => hac h hq) (hclt q hq)
        · simp only [PNode.toNode, kd2.InsertAt, hsub, if_neg hnone, if_pos hqa, n1]
        · intro q hq
          simp only [PNode.addrs, List.mem_cons, List.mem_append] at hq ⊢
          rcases hq with h | h | h | h
          · exact Or.inl (Or.inl h)
          · rcases r1 q h with h | h
            · exact Or.inl (Or.inr (Or.inl h))
            · exact Or.inr h
          · exact Or.inl (Or.inr (Or.inr (Or.inl h)))
          · exact Or.inl (Or.inr (Or.inr (Or.inr h)))
        · simp only [PNode.addrs, List.nodup_cons, List.mem_append, not_or, List.nodup_append,
            List.disjoint_append_right]
          refine ⟨⟨hp1, hpb, hpc⟩, nd1, ⟨hnb, hnc, hbc⟩, ?_, ?_⟩
          · intro q h1 h2
            rcases r1 q h1 with h | h
            · exact hab h h2
            · have := hblt q h2; omega
          · intro q h1 h2
            rcases r1 q h1 with h | h
            · exact hac h h2
            · have := hclt q h2; omega
        · intro q hq hqlt
          simp only [PNode.addrs, List.mem_cons, List.mem_append, not_or] at hq
          exact f1 q hq.2.1 hqlt
      · by_cases hqb : boxB.IsInsideMe box = true
        · obtain ⟨s1, t1, e1, h1, a1, n1, x1, r1, nd1, f1⟩ :=
            ihb s boxB (depth + 1) f (by omega) hb hnb hblt
          have hp1 : p ∉ t1.addrs := fun hq => by
            rcases r1 p hq with h | h
            · exact hpb h
            · omega
          refine ⟨s1, PNode.inner p els a t1 c, ?_, ?_, rfl, ?_, x1, ?_, ?_, ?_⟩
          · simp only [Store.InsertAt, PNode.addr_inner, Store.read_eq_ok hp, Fault.ok_bind,
              hsub, if_neg hnone, if_neg hqa, if_pos hqb, derefChild]
            exact e1
          · simp only [Store.Holds, a1]
            refine ⟨by rw [f1 p hpb hplt, hp], ha.frame ?_, h1, hc.frame ?_⟩
            · intro q hq; exact f1 q (fun h => hab hq h) (halt q hq)
            · intro q hq; exact f1 q (fun h => hbc h hq) (hclt q hq)
          · simp only [PNode.toNode, kd2.InsertAt, hsub, if_neg hnone, if_neg hqa, if_pos hqb, n1]
          · intro q hq
            simp only [PNode.addrs, List.mem_cons, List.mem_append] at hq ⊢
            rcases hq with h | h | h | h
            · exact Or.inl (Or.inl h)
            · exact Or.inl (Or.inr (Or.inl h))
            · rcases r1 q h with h | h
              · exact Or.inl (Or.inr (Or.inr (Or.inl h)))
              · exact Or.inr h
            · exact Or.inl (Or.inr (Or.inr (Or.inr h)))
          · simp only [PNode.addrs, List.nodup_cons, List.mem_append, not_or, List.nodup_append,
              List.disjoint_append_right]
            refine ⟨⟨hpa, hp1, hpc⟩, hna, ⟨nd1, hnc, ?_⟩, ?_, hac⟩
            · intro q h1 h2
              rcases r1 q h1 with h | h
              · exact hbc h h2
              · have := hclt q h2; omega
            · intro q h1 h2
              rcases r1 q h2 with h | h
              · exact hab h1 h
              · have := halt q h1; omega
          · intro q hq hqlt
            simp only [PNode.addrs, List.mem_cons, List.mem_append, not_or] at hq
            exact f1 q hq.2.2.1 hqlt
        · obtain ⟨s1, t1, e1, h1, a1, n1, x1, r1, nd1, f1⟩ :=
            ihc s boxC (depth + 1) f (by omega) hc hnc hclt
          have hp1 : p ∉ t1.addrs := fun hq => by
            rcases r1 p hq with h | h
            · exact hpc h
            · omega
          refine ⟨s1, PNode.inner p els a b t1, ?_, ?_, rfl, ?_, x1, ?_, ?_, ?_⟩
          · simp only [Store.InsertAt, PNode.addr_inner, Store.read_eq_ok hp, Fault.ok_bind,
              hsub, if_neg hnone, if_neg hqa, if_neg hqb, derefChild]
            exact e1
          · simp only [Store.Holds, a1]
            refine ⟨by rw [f1 p hpc hplt, hp], ha.frame ?_, hb.frame ?_, h1⟩
            · intro q hq; exact f1 q (fun h => hac hq h) (halt q hq)
            · intro q hq; exact f1 q (fun h => hbc hq h) (hblt q hq)
          · simp only [PNode.toNode, kd2.InsertAt, hsub, if_neg hnone, if_neg hqa, if_neg hqb, n1]
          · intro q hq
            simp only [PNode.addrs, List.mem_cons, List.mem_append] at hq ⊢
            rcases hq with h | h | h | h
            · exact Or.inl (Or.inl h)
            · exact Or.inl (Or.inr (Or.inl h))
            · exact Or.inl (Or.inr (Or.inr (Or.inl h)))
            · rcases r1 q h with h | h
              · exact Or.inl (Or.inr (Or.inr (Or.inr h)))
              · exact Or.inr h
          · simp only [PNode.addrs, List.nodup_cons, List.mem_append, not_or, List.nodup_append,
              List.disjoint_append_right]
            refine ⟨⟨hpa, hpb, hp1⟩, hna, ⟨hnb, nd1, ?_⟩, hab, ?_⟩
            · intro q h1 h2
              rcases r1 q h2 with h | h
              · exact hbc h1 h
              · have := hblt q h1; omega
            · intro q h1 h2
              rcases r1 q h2 with h | h
              · exact hac h1 h
              · have := halt q h1; omega
          · intro q hq hqlt
            simp only [PNode.addrs, List.mem_cons, List.mem_append, not_or] at hq
            exact f1 q hq.2.2.2 hqlt

/-! ## The traversal on node objects -/

theorem queueWeight_cons (q : QueueItem) (queue : List QueueItem) :
    queueWeight (q :: queue) = q.Node.size + queueWeight queue := by
  simp [queueWeight]

/-- The traversal over node objects computes what the traversal over the trees as values
computes, when the store holds every tree on the worklist. -/
theorem Store.VisitorFind.loop_Holds {V : Type} (call : V → Elem → V × Bool) (findBox : Box)
    (s : Store) :
    ∀ (fuel : Nat) (pq : List (PNode × Box × Nat)) (vis : V) (nscanned : Nat),
      queueWeight (pq.map (fun x => (⟨x.1.toNode, x.2.1, x.2.2⟩ : QueueItem))) ≤ fuel →
      (∀ x ∈ pq, s.Holds x.1) →
      Store.VisitorFind.loop call findBox s fuel
          (pq.map (fun x => (⟨some x.1.addr, x.2.1, x.2.2⟩ : PtrQueueItem))) vis nscanned =
        Except.ok (kd2.VisitorFind.loop call findBox
          (pq.map (fun x => (⟨x.1.toNode, x.2.1, x.2.2⟩ : QueueItem))) vis nscanned) := by
  intro fuel
  induction fuel with
  | zero =>
    intro pq vis nscanned hw hh
    cases pq with
    | nil => simp [Store.VisitorFind.loop, kd2.VisitorFind.loop]
    | cons x pq =>
      have := x.1.size_toNode_pos
      simp only [List.map_cons, queueWeight_cons] at hw
      omega
  | succ f ih =>
    intro pq vis nscanned hw hh
    cases pq with
    | nil => simp [Store.VisitorFind.loop, kd2.VisitorFind.loop]
    | cons x pq =>
      obtain ⟨t, box, depth⟩ := x
      simp only [List.map_cons, queueWeight_cons] at hw
      have ht : s.Holds t := hh _ (List.mem_cons_self _ _)
      have hrest : ∀ x ∈ pq, s.Holds x.1 := fun x hx => hh x (List.mem_cons_of_mem _ hx)
      cases t with
      | leaf p els =>
        simp only [Store.Holds] at ht
        simp only [PNode.toNode, Node.size] at hw
        simp only [List.map_cons, Store.VisitorFind.loop, derefChild, PNode.addr_leaf,
          Store.read_eq_ok ht,
          Fault.ok_bind, PNode.toNode, kd2.VisitorFind.loop]
        rcases hscan : scanElems call findBox els vis with ⟨vis1, _ | _⟩
        · simp only [Fault.pure_eq]
        · simp only
          exact ih pq vis1 _ (by omega) hrest
      | inner p els a b c =>
        simp only [Store.Holds] at ht
        obtain ⟨hp, ha, hb, hc⟩ := ht
        simp only [PNode.toNode, Node.size] at hw
        simp only [List.map_cons, Store.VisitorFind.loop, derefChild, PNode.addr_inner,
          Store.read_eq_ok hp,
          Fault.ok_bind, PNode.toNode, kd2.VisitorFind.loop]
        rcases hscan : scanElems call findBox els vis with ⟨vis1, _ | _⟩
        · simp only [Fault.pure_eq]
        · simp only [pushChildren]
          rcases hsub : Subdivide depth box with ⟨boxA, boxB, boxC⟩
          simp only
          have key := ih
            ((if boxC.Overlaps findBox then [(c, boxC, depth + 1)] else []) ++
              ((if boxB.Overlaps findBox then [(b, boxB, depth + 1)] else []) ++
                ((if boxA.Overlaps findBox then [(a, boxA, depth + 1)] else []) ++ pq)))
            vis1 ((nscanned + els.length) % 2 ^ SIZE_BITS)
            (by
              by_cases hA : boxA.Overlaps findBox = true <;>
              by_cases hB : boxB.Overlaps findBox = true <;>
              by_cases hC : boxC.Overlaps findBox = true <;>
              simp only [hA, hB, hC, Bool.false_eq_true, if_true, if_false, List.nil_append, List.singleton_append,
                List.map_cons, queueWeight_cons] <;> omega)
            (by
              intro x hx
              simp only [List.mem_append] at hx
              rcases hx with hx | hx | hx | hx
              · split_ifs at hx
                · simp only [List.mem_singleton] at hx; rw [hx]; exact hc
                · simp at hx
              · split_ifs at hx
                · simp only [List.mem_singleton] at hx; rw [hx]; exact hb
                · simp at hx
              · split_ifs at hx
                · simp only [List.mem_singleton] at hx; rw [hx]; exact ha
                · simp at hx
              · exact hrest x hx)
          by_cases hA : boxA.Overlaps findBox = true <;>
          by_cases hB : boxB.Overlaps findBox = true <;>
          by_cases hC : boxC.Overlaps findBox = true <;>
          simp only [hA, hB, hC, Bool.false_eq_true, if_true, if_false, List.nil_append, List.singleton_append,
            List.map_cons, derefChild, Fault.ok_bind, Fault.pure_eq] at key ⊢ <;>
          exact key

/-! ## Tree objects -/

theorem Tree.InsertAll_cons (t : Tree) (e : Elem) (es : List Elem) :
    t.InsertAll (e :: es) = (t.Insert e.Id e.Box).InsertAll es := rfl

theorem Tree.Insert_size_le (t : Tree) (id : Nat) (box : Box) :
    (t.Insert id box).Root.size ≤ t.Root.size + 3 := by
  have h := InsertAt_size t.NodeSize id box t.Root t.RootBox 0
  have h1 := InsertAt.splitCalls_le_one t.NodeSize box t.Root t.RootBox 0
  simp only [Tree.Insert]
  rw [h]
  omega

/-- `Insert` on a tree object whose nodes are not shared. -/
theorem TreeObj.Insert_Represents (fuel : Nat) (o : TreeObj) (s : Store) (pt : PNode)
    (t : Tree) (id : Nat) (box : Box) (hrep : o.Represents s pt t) (hnd : pt.addrs.Nodup)
    (hlt : ∀ q ∈ pt.addrs, q < s.next) (hf : t.Root.size ≤ fuel) :
    ∃ s1 pt1, o.Insert fuel s id box = Except.ok s1 ∧ o.Represents s1 pt1 (t.Insert id box) ∧
      pt1.addrs.Nodup ∧ s.next ≤ s1.next ∧
      (∀ q ∈ pt1.addrs, q ∈ pt.addrs ∨ (s.next ≤ q ∧ q < s1.next)) ∧
      (∀ q, q ∉ pt.addrs → q < s.next → s1.cells q = s.cells q) := by
  obtain ⟨hh, ha, hn, hns, hsc, hrb⟩ := hrep
  obtain ⟨s1, t1, e1, h1, a1, n1, x1, r1, nd1, f1⟩ :=
    Store.InsertAt_Holds o.NodeSize id box pt s o.RootBox 0 fuel (by rw [hn]; exact hf) hh hnd hlt
  refine ⟨s1, t1, ?_, ⟨h1, by rw [a1, ha], ?_, hns, hsc, hrb⟩, nd1, x1, r1, f1⟩
  · simp only [TreeObj.Insert, ← ha]
    exact e1
  · simp only [Tree.Insert, n1, hn, hns, hrb]

/-- `Insert` for each element of a list on a tree object whose nodes are not shared. -/
theorem TreeObj.InsertAll_Represents (fuel : Nat) (o : TreeObj) (es : List Elem) :
    ∀ (s : Store) (pt : PNode) (t : Tree), o.Represents s pt t → pt.addrs.Nodup →
      (∀ q ∈ pt.addrs, q < s.next) → t.Root.size + 3 * es.length ≤ fuel →
      ∃ s1 pt1, o.InsertAll fuel s es = Except.ok s1 ∧ o.Represents s1 pt1 (t.InsertAll es) ∧
        pt1.addrs.Nodup ∧ (∀ q ∈ pt1.addrs, q < s1.next) := by
  induction es with
  | nil =>
    intro s pt t hrep hnd hlt _
    exact ⟨s, pt, rfl, hrep, hnd, hlt⟩
  | cons e es ih =>
    intro s pt t hrep hnd hlt hf
    simp only [List.length_cons] at hf
    obtain ⟨s1, pt1, e1, hrep1, nd1, x1, r1, _⟩ :=
      TreeObj.Insert_Represents fuel o s pt t e.Id e.Box hrep hnd hlt (by omega)
    have hsz := Tree.Insert_size_le t e.Id e.Box
    obtain ⟨s2, pt2, e2, hrep2, nd2, lt2⟩ := ih s1 pt1 (t.Insert e.Id e.Box) hrep1 nd1
      (fun q hq => by
        rcases r1 q hq with h | h
        · have := hlt q h; omega
        · exact h.2)
      (by omega)
    refine ⟨s2, pt2, ?_, ?_, nd2, lt2⟩
    · simp only [TreeObj.InsertAll, e1, Fault.ok_bind]
      exact e2
    · rw [Tree.InsertAll_cons]
      exact hrep2

/-- `Find` on a tree object returns what `Find` returns on the tree as a value. -/
theorem TreeObj.Find_Represents (fuel : Nat) (o : TreeObj) (s : Store) (pt : PNode) (t : Tree)
    (box : Box) (hrep : o.Represents s pt t) (hf : t.Root.size ≤ fuel) :
    o.Find fuel s box =
      Except.ok ((t.Find box).1, { o with NScanned := (t.Find box).2.NScanned }) := by
  obtain ⟨hh, ha, hn, hns, hsc, hrb⟩ := hrep
  have h := Store.VisitorFind.loop_Holds Find.visitorIds box s fuel [(pt, o.RootBox, 0)] []
    o.NScanned (by simpa [queueWeight, hn] using hf) (by simpa using hh)
  simp only [List.map_cons, List.map_nil, ha, hn, hsc, hrb] at h
  simp only [TreeObj.Find, hsc, hrb, h, Fault.ok_bind, Fault.pure_eq, Tree.Find, Tree.FindIds,
    VisitorFind]

/-! ## The two tree objects -/

/-- The copy assignment of a tree object from another tree object that shares no node with
it. -/
theorem TreeObj.copyAssign_Represents (fuel : Nat) (s : Store) (self b : TreeObj)
    (td x : PNode) (ts tb : Tree) (hself : self.Represents s td ts) (hb : b.Represents s x tb)
    (hnd : td.addrs.Nodup) (hdis : ∀ q ∈ td.addrs, q ∉ x.addrs)
    (hdlt : ∀ q ∈ td.addrs, q < s.next) (hxlt : ∀ q ∈ x.addrs, q < s.next)
    (hf : ts.Root.size + tb.Root.size ≤ fuel) :
    ∃ s1 o1 t1, TreeObj.copyAssign fuel s self b = Except.ok (s1, o1) ∧
      o1.Represents s1 t1 tb ∧ s1.Holds x ∧ o1.Root = self.Root ∧ t1.addrs.Nodup ∧
      s.next ≤ s1.next ∧ (∀ q ∈ t1.addrs, q = td.addr ∨ (s.next ≤ q ∧ q < s1.next)) ∧
      (∀ q, q ∉ td.addrs → q < s.next → s1.cells q = s.cells q) := by
  obtain ⟨hh, ha, hn, _, _, _⟩ := hself
  obtain ⟨hhb, hab, hnb, hnsb, hscb, hrbb⟩ := hb
  obtain ⟨s1, t1, e1, h1, a1, n1, x1, r1, nd1, f1⟩ :=
    Store.copyAssign_Holds x td s fuel (by rw [hn, hnb]; exact hf) hh hhb hnd hdis hdlt hxlt
  refine ⟨s1, TreeObj.mk b.NodeSize b.NScanned self.Root b.RootBox, t1, ?_,
    ⟨h1, by rw [a1, ha], by rw [n1, hnb], hnsb, hscb, hrbb⟩, ?_, rfl, nd1, x1, r1, f1⟩
  · simp only [TreeObj.copyAssign, ← ha, ← hab, e1, Fault.ok_bind, Fault.pure_eq]
  · exact hhb.frame (fun q hq => f1 q (fun h => hdis q h hq) (hxlt q hq))

theorem TwoObjs.Represents.swap_nodup {tk tc : PNode} (h : (tk.addrs ++ tc.addrs).Nodup) :
    tk.addrs.Nodup ∧ tc.addrs.Nodup ∧ (∀ q ∈ tk.addrs, q ∉ tc.addrs) ∧
      (∀ q ∈ tc.addrs, q ∉ tk.addrs) := by
  rw [List.nodup_append] at h
  exact ⟨h.1, h.2.1, fun q h1 h2 => h.2.2 h1 h2, fun q h1 h2 => h.2.2 h2 h1⟩

/-- One statement of the program on two tree objects that share no node: it succeeds, the two
objects still share no node, and their values are those of the reference. -/
theorem TwoObjs.step_Represents (fuel n : Nat) (st : TwoObjs) (v : Tree × Tree) (op : CopyOp)
    (hrep : st.Represents v) (h1 : v.1.Root.size ≤ n) (h2 : v.2.Root.size ≤ n)
    (hf : 2 * n ≤ fuel) :
    ∃ st1, st.step fuel op = Except.ok st1 ∧ st1.Represents (copyReference.step v op) ∧
      (copyReference.step v op).1.Root.size ≤ n + 3 ∧
      (copyReference.step v op).2.Root.size ≤ n + 3 := by
  obtain ⟨tk, tc, hk, hc, hnd, hlt⟩ := hrep
  obtain ⟨ndk, ndc, dkc, dck⟩ := TwoObjs.Represents.swap_nodup hnd
  have hklt : ∀ q ∈ tk.addrs, q < st.store.next := fun q hq =>
    hlt q (List.mem_append_left _ hq)
  have hclt : ∀ q ∈ tc.addrs, q < st.store.next := fun q hq =>
    hlt q (List.mem_append_right _ hq)
  cases op with
  | insertKd e =>
    obtain ⟨s1, pt1, e1, hrep1, nd1, x1, r1, f1⟩ :=
      TreeObj.Insert_Represents fuel st.kd st.store tk v.1 e.Id e.Box hk ndk hklt (by omega)
    have hsz := Tree.Insert_size_le v.1 e.Id e.Box
    refine ⟨{ st with store := s1 }, ?_, ⟨pt1, tc, hrep1, ?_, ?_, ?_⟩, ?_, ?_⟩
    · simp only [TwoObjs.step, e1, Fault.ok_bind, Fault.pure_eq]
    · obtain ⟨hh, rest⟩ := hc
      exact ⟨hh.frame (fun q hq => f1 q (dck q hq) (hclt q hq)), rest⟩
    · rw [List.nodup_append]
      refine ⟨nd1, ndc, ?_⟩
      intro q hq1 hq2
      rcases r1 q hq1 with h | h
      · exact dkc q h hq2
      · have := hclt q hq2; omega
    · intro q hq
      rcases List.mem_append.1 hq with h | h
      · rcases r1 q h with h | h
        · have := hklt q h; simp only; omega
        · exact h.2
      · have := hclt q h; simp only; omega
    · simp only [copyReference.step]; omega
    · simp only [copyReference.step]; omega
  | insertCopy e =>
    obtain ⟨s1, pt1, e1, hrep1, nd1, x1, r1, f1⟩ :=
      TreeObj.Insert_Represents fuel st.copy st.store tc v.2 e.Id e.Box hc ndc hclt (by omega)
    have hsz := Tree.Insert_size_le v.2 e.Id e.Box
    refine ⟨{ st with store := s1 }, ?_, ⟨tk, pt1, ?_, hrep1, ?_, ?_⟩, ?_, ?_⟩
    · simp only [TwoObjs.step, e1, Fault.ok_bind, Fault.pure_eq]
    · obtain ⟨hh, rest⟩ := hk
      exact ⟨hh.frame (fun q hq => f1 q (dkc q hq) (hklt q hq)), rest⟩
    · rw [List.nodup_append]
      refine ⟨ndk, nd1, ?_⟩
      intro q hq1 hq2
      rcases r1 q hq2 with h | h
      · exact dkc q hq1 h
      · have := hklt q hq1; omega
    · intro q hq
      rcases List.mem_append.1 hq with h | h
      · have := hklt q h; simp only; omega
      · rcases r1 q h with h | h
        · have := hclt q h; simp only; omega
        · exact h.2
    · simp only [copyReference.step]; omega
    · simp only [copyReference.step]; omega
  | kdAssignCopy =>
    obtain ⟨s1, o1, t1, e1, hrep1, hx1, ho1, nd1, x1, r1, f1⟩ :=
      TreeObj.copyAssign_Represents fuel st.store st.kd st.copy tk tc v.1 v.2 hk hc ndk dkc hklt
        hclt (by omega)
    have hka : tk.addr ∈ tk.addrs := tk.addr_mem_addrs
    refine ⟨{ st with store := s1, kd := o1 }, ?_, ⟨t1, tc, hrep1, ?_, ?_, ?_⟩, ?_, ?_⟩
    · simp only [TwoObjs.step, e1, Fault.ok_bind, Fault.pure_eq]
    · exact ⟨hx1, hc.2⟩
    · rw [List.nodup_append]
      refine ⟨nd1, ndc, ?_⟩
      intro q hq1 hq2
      rcases r1 q hq1 with h | h
      · exact dkc q (h ▸ hka) hq2
      · have := hclt q hq2; omega
    · intro q hq
      rcases List.mem_append.1 hq with h | h
      · rcases r1 q h with h | h
        · have := hklt q (h ▸ hka); simp only; omega
        · exact h.2
      · have := hclt q h; simp only; omega
    · simp only [copyReference.step]; omega
    · simp only [copyReference.step]; omega
  | copyAssignKd =>
    obtain ⟨s1, o1, t1, e1, hrep1, hx1, ho1, nd1, x1, r1, f1⟩ :=
      TreeObj.copyAssign_Represents fuel st.store st.copy st.kd tc tk v.2 v.1 hc hk ndc dck hclt
        hklt (by omega)
    have hca : tc.addr ∈ tc.addrs := tc.addr_mem_addrs
    refine ⟨{ st with store := s1, copy := o1 }, ?_, ⟨tk, t1, ?_, hrep1, ?_, ?_⟩, ?_, ?_⟩
    · simp only [TwoObjs.step, e1, Fault.ok_bind, Fault.pure_eq]
    · exact ⟨hx1, hk.2⟩
    · rw [List.nodup_append]
      refine ⟨ndk, nd1, ?_⟩
      intro q hq1 hq2
      rcases r1 q hq2 with h | h
      · exact dkc q hq1 (h ▸ hca)
      · have := hklt q hq1; omega
    · intro q hq
      rcases List.mem_append.1 hq with h | h
      · have := hklt q h; simp only; omega
      · rcases r1 q h with h | h
        · have := hclt q (h ▸ hca); simp only; omega
        · exact h.2
    · simp only [copyReference.step]; omega
    · simp only [copyReference.step]; omega

/-- A sequence of statements on two tree objects that share no node. -/
theorem TwoObjs.run_Represents (fuel : Nat) (ops : List CopyOp) :
    ∀ (st : TwoObjs) (v : Tree × Tree) (n : Nat), st.Represents v → v.1.Root.size ≤ n →
      v.2.Root.size ≤ n → 2 * (n + 3 * ops.length) ≤ fuel →
      ∃ st1, TwoObjs.run fuel st ops = Except.ok st1 ∧
        st1.Represents (ops.foldl copyReference.step v) ∧
        (ops.foldl copyReference.step v).1.Root.size ≤ n + 3 * ops.length ∧
        (ops.foldl copyReference.step v).2.Root.size ≤ n + 3 * ops.length := by
  induction ops with
  | nil =>
    intro st v n hrep h1 h2 _
    exact ⟨st, rfl, hrep, h1, h2⟩
  | cons op ops ih =>
    intro st v n hrep h1 h2 hf
    simp only [List.length_cons] at hf
    obtain ⟨st1, e1, hrep1, s1, s2⟩ :=
      TwoObjs.step_Represents fuel n st v op hrep h1 h2 (by omega)
    obtain ⟨st2, e2, hrep2, t1, t2⟩ :=
      ih st1 (copyReference.step v op) (n + 3) hrep1 s1 s2 (by omega)
    refine ⟨st2, ?_, hrep2, ?_, ?_⟩
    · simp only [TwoObjs.run, e1, Fault.ok_bind]
      exact e2
    · simp only [List.foldl_cons, List.length_cons]; omega
    · simp only [List.foldl_cons, List.length_cons]; omega

theorem TreeObj.FindElems_Represents (fuel : Nat) (o : TreeObj) (s : Store) (pt : PNode)
    (t : Tree) (box : Box) (els : List Elem) (hrep : o.Represents s pt t)
    (hf : t.Root.size ≤ fuel) :
    o.FindElems fuel s box els =
      Except.ok ((t.FindElems box els).1,
        { o with NScanned := (t.FindElems box els).2.NScanned }) := by
  obtain ⟨hh, ha, hn, hns, hsc, hrb⟩ := hrep
  have h := Store.VisitorFind.loop_Holds Find.visitorElems box s fuel [(pt, o.RootBox, 0)] els
    o.NScanned (by simpa [queueWeight, hn] using hf) (by simpa using hh)
  simp only [List.map_cons, List.map_nil, ha, hn, hsc, hrb] at h
  simp only [TreeObj.FindElems, hsc, hrb, h, Fault.ok_bind, Fault.pure_eq, Tree.FindElems,
    VisitorFind]

/-- `kd2::Tree copy = kd;` for a tree object whose nodes are not shared: the new tree object
has the value of `kd` and shares no node with it. -/
theorem TreeObj.copyCtor_Represents (fuel : Nat) (s : Store) (b : TreeObj) (x : PNode)
    (t : Tree) (hb : b.Represents s x t) (hxlt : ∀ q ∈ x.addrs, q < s.next)
    (hnd : x.addrs.Nodup) (hf : 1 + t.Root.size ≤ fuel) :
    ∃ r, b.copyCtor fuel s = Except.ok r ∧
      TwoObjs.Represents { store := r.1, kd := b, copy := r.2 } (t, t) := by
  obtain ⟨hhb, hab, hnb, hnsb, hscb, hrbb⟩ := hb
  have hx0 : s.newNode.1.Holds x := hhb.frame (fun q hq => by
    rw [Store.newNode_cells, if_neg (by have := hxlt q hq; omega)])
  obtain ⟨s1, t1, e1, h1, a1, n1, x1, r1, nd1, f1⟩ :=
    Store.copyAssign_Holds x (PNode.leaf s.next []) s.newNode.1 fuel
      (by simp only [PNode.toNode, Node.size, hnb]; omega)
      (by simp [Store.Holds, Store.newNode_cells]) hx0 (by simp [PNode.addrs])
      (by
        intro q hq hqx
        simp only [PNode.addrs, List.mem_singleton] at hq
        have := hxlt q hqx
        omega)
      (by
        intro q hq
        simp only [PNode.addrs, List.mem_singleton] at hq
        simp only [Store.newNode_next]; omega)
      (by
        intro q hq
        have := hxlt q hq
        simp only [Store.newNode_next]; omega)
  simp only [PNode.addr_leaf, Store.newNode_next] at e1 a1 x1 r1 f1
  have hx1 : s1.Holds x := hx0.frame (fun q hq => by
    have := hxlt q hq
    exact f1 q (by simp only [PNode.addrs, List.mem_singleton]; omega) (by omega))
  refine ⟨(s1, TreeObj.mk b.NodeSize b.NScanned s.next b.RootBox), ?_, x, t1,
    ⟨hx1, hab, hnb, hnsb, hscb, hrbb⟩, ⟨h1, a1, by rw [n1, hnb], hnsb, hscb, hrbb⟩, ?_, ?_⟩
  · simp only [TreeObj.copyCtor, Store.newNode_snd, ← hab, e1, Fault.ok_bind, Fault.pure_eq]
  · rw [List.nodup_append]
    refine ⟨hnd, nd1, ?_⟩
    intro q hq1 hq2
    have := hxlt q hq1
    rcases r1 q hq2 with h | h
    · omega
    · omega
  · intro q hq
    simp only
    rcases List.mem_append.1 hq with h | h
    · have := hxlt q h; omega
    · rcases r1 q h with h | h
      · omega
      · omega

theorem copyReference.foldl_insertCopy (es : List Elem) :
    ∀ v : Tree × Tree,
      (es.map CopyOp.insertCopy).foldl copyReference.step v = (v.1, v.2.InsertAll es) := by
  induction es with
  | nil => intro v; rfl
  | cons e es ih =>
    intro v
    simp only [List.map_cons, List.foldl_cons, ih, copyReference.step, Tree.InsertAll_cons]

theorem copyReference.foldl_insertKd (es : List Elem) :
    ∀ v : Tree × Tree,
      (es.map CopyOp.insertKd).foldl copyReference.step v = (v.1.InsertAll es, v.2) := by
  induction es with
  | nil => intro v; rfl
  | cons e es ih =>
    intro v
    simp only [List.map_cons, List.foldl_cons, ih, copyReference.step, Tree.InsertAll_cons]

/-- The program of the copy test runs without a fault, and afterwards the two tree objects
share no node and have the values of the reference. -/
theorem copyProgram_Represents (nodeSize : Nat) (x1 y1 x2 y2 : ℚ) (es : List Elem)
    (ops : List CopyOp) (fuel : Nat) (hf : 2 + 6 * (es.length + ops.length) ≤ fuel) :
    ∃ st, copyProgram fuel nodeSize x1 y1 x2 y2 es ops = Except.ok st ∧
      st.Represents (ops.foldl copyReference.step
        ((Tree.mk nodeSize 0 (Node.leaf []) ⟨x1, y1, x2, y2⟩).InsertAll es,
         (Tree.mk nodeSize 0 (Node.leaf []) ⟨x1, y1, x2, y2⟩).InsertAll es)) ∧
      (ops.foldl copyReference.step
        ((Tree.mk nodeSize 0 (Node.leaf []) ⟨x1, y1, x2, y2⟩).InsertAll es,
         (Tree.mk nodeSize 0 (Node.leaf []) ⟨x1, y1, x2, y2⟩).InsertAll es)).1.Root.size
        ≤ fuel ∧
      (ops.foldl copyReference.step
        ((Tree.mk nodeSize 0 (Node.leaf []) ⟨x1, y1, x2, y2⟩).InsertAll es,
         (Tree.mk nodeSize 0 (Node.leaf []) ⟨x1, y1, x2, y2⟩).InsertAll es)).2.Root.size
        ≤ fuel := by
  have hsz := Tree.InsertAll_size_le (Tree.mk nodeSize 0 (Node.leaf []) ⟨x1, y1, x2, y2⟩) es
  simp only [Node.size] at hsz
  obtain ⟨s1, pt1, e1, hrep1, nd1, lt1⟩ :=
    TreeObj.InsertAll_Represents fuel (TreeObj.mk nodeSize 0 0 ⟨x1, y1, x2, y2⟩) es
      (Store.empty.newTree nodeSize).1 (PNode.leaf 0 [])
      (Tree.mk nodeSize 0 (Node.leaf []) ⟨x1, y1, x2, y2⟩)
      ⟨rfl, rfl, rfl, rfl, rfl, rfl⟩ (by simp [PNode.addrs])
      (by
        intro q hq
        simp only [PNode.addrs, List.mem_singleton] at hq
        simp [Store.newTree, Store.empty, hq])
      (by simp only [Node.size]; omega)
  obtain ⟨r, e2, hrep2⟩ := TreeObj.copyCtor_Represents fuel s1 _ pt1 _ hrep1 lt1 nd1 (by omega)
  obtain ⟨st, e3, hrep3, z1, z2⟩ := TwoObjs.run_Represents fuel ops _ _ (1 + 3 * es.length)
    hrep2 hsz hsz (by omega)
  refine ⟨st, ?_, hrep3, by omega, by omega⟩
  have e0 : (Store.empty.newTree nodeSize).2.Initialize (Store.empty.newTree nodeSize).1
      x1 y1 x2 y2 = Except.ok (TreeObj.mk nodeSize 0 0 ⟨x1, y1, x2, y2⟩) := rfl
  simp only [copyProgram, e0, Fault.ok_bind, e1, e2]
  exact e3

/-- Self-assignment is not a copy: in `kd = kd` for a tree whose root has children,
`Node::operator=` deletes the children of the root and then copies from the deleted objects.
The run stops at the read of a deleted node object.  For a tree whose root is a leaf the
statement completes. -/
theorem Tree_self_assignment_reads_a_deleted_node :
    faultOf ((copyProgram 50 2 0 0 50 50
        [⟨0, ⟨0, 0, 1, 1⟩⟩, ⟨1, ⟨1, 1, 2, 2⟩⟩, ⟨2, ⟨2, 2, 3, 3⟩⟩] []).bind
      (fun st => TreeObj.copyAssign 50 st.store st.kd st.kd)) = some Fault.dangling ∧
    faultOf ((copyProgram 50 64 0 0 50 50
        [⟨0, ⟨0, 0, 1, 1⟩⟩, ⟨1, ⟨1, 1, 2, 2⟩⟩, ⟨2, ⟨2, 2, 3, 3⟩⟩] []).bind
      (fun st => TreeObj.copyAssign 50 st.store st.kd st.kd)) = none := by
  constructor <;> decide!

/-- The copy test on a small tree: after `copy.Insert(100, ..)` and `kd.Insert(200, ..)` each
tree reports its own new element and not the one of the other tree. -/
theorem copyProgram_small_run :
    ((copyProgram 50 2 0 0 50 50
        [⟨0, ⟨0, 0, 1, 1⟩⟩, ⟨1, ⟨1, 1, 2, 2⟩⟩, ⟨2, ⟨2, 2, 3, 3⟩⟩]
        [CopyOp.insertCopy ⟨100, ⟨1, 1, 2, 2⟩⟩, CopyOp.insertKd ⟨200, ⟨30, 30, 31, 31⟩⟩]).bind
      (fun st => do
        let a ← st.kd.Find 50 st.store ⟨0, 0, 50, 50⟩
        let b ← st.copy.Find 50 st.store ⟨0, 0, 50, 50⟩
        pure (a.1, b.1))).toOption = some ([200, 0, 1, 2], [0, 1, 2, 100]) := by
  decide!

/-- C7: the copy is deep and independent.  The program `kd2::Tree kd; ..Initialize..;`
`kd.Insert(..)` for any elements `es`; `kd2::Tree copy = kd;` followed by any statements `ops`
(inserts into `kd`, inserts into `copy`, `kd = copy`, `copy = kd`) runs on the node objects
without a fault, for every step budget from `2 + 6 * (es.length + ops.length)` on.  Afterwards
the node objects reachable from `kd.Root` and those reachable from `copy.Root` are two trees
without a common object; as values they are the trees of the reference, in which an insert
changes only the tree it is called on and an assignment makes the assigned tree equal to the
other one; and `Find` on either tree object returns what `Find` returns on that value.
Right after the copy (`ops = []`) both trees are equal to the original `t`, node by node, and
answer `Find` as `t` does.  After inserts into `copy` only, `kd` is still `t` and answers as
`t` does, and `copy` is `t` after the same inserts; likewise with the two trees exchanged. -/
theorem copy_shares_no_node_and_is_independent (nodeSize : Nat) (x1 y1 x2 y2 : ℚ)
    (es : List Elem) (ops : List CopyOp) (query : Box) (els : List Elem) :
    ∃ t : Tree, Tree.build nodeSize x1 y1 x2 y2 es = some t ∧
      ∀ fuel, 2 + 6 * (es.length + ops.length) ≤ fuel →
        ∃ (st : TwoObjs) (tk tc : PNode) (ref : Tree × Tree),
          copyProgram fuel nodeSize x1 y1 x2 y2 es ops = Except.ok st ∧
          copyReference nodeSize x1 y1 x2 y2 es ops = some ref ∧
          st.store.Holds tk ∧ tk.addr = st.kd.Root ∧
          st.store.Holds tc ∧ tc.addr = st.copy.Root ∧
          (tk.addrs ++ tc.addrs).Nodup ∧
          tk.toNode = ref.1.Root ∧ tc.toNode = ref.2.Root ∧
          st.kd.Find fuel st.store query = Except.ok ((ref.1.Find query).1,
            { st.kd with NScanned := (ref.1.Find query).2.NScanned }) ∧
          st.copy.Find fuel st.store query = Except.ok ((ref.2.Find query).1,
            { st.copy with NScanned := (ref.2.Find query).2.NScanned }) ∧
          st.kd.FindElems fuel st.store query els = Except.ok ((ref.1.FindElems query els).1,
            { st.kd with NScanned := (ref.1.FindElems query els).2.NScanned }) ∧
          st.copy.FindElems fuel st.store query els =
            Except.ok ((ref.2.FindElems query els).1,
              { st.copy with NScanned := (ref.2.FindElems query els).2.NScanned }) ∧
          (ops = [] →
            tk.toNode = t.Root ∧ tc.toNode = t.Root ∧
            st.kd.Find fuel st.store query = Except.ok ((t.Find query).1,
              { st.kd with NScanned := (t.Find query).2.NScanned }) ∧
            st.copy.Find fuel st.store query = Except.ok ((t.Find query).1,
              { st.copy with NScanned := (t.Find query).2.NScanned })) ∧
          (∀ es2, ops = es2.map CopyOp.insertCopy →
            tk.toNode = t.Root ∧ tc.toNode = (t.InsertAll es2).Root ∧
            st.kd.Find fuel st.store query = Except.ok ((t.Find query).1,
              { st.kd with NScanned := (t.Find query).2.NScanned }) ∧
            st.copy.Find fuel st.store query = Except.ok (((t.InsertAll es2).Find query).1,
              { st.copy with NScanned := ((t.InsertAll es2).Find query).2.NScanned })) ∧
          (∀ es2, ops = es2.map CopyOp.insertKd →
            tk.toNode = (t.InsertAll es2).Root ∧ tc.toNode = t.Root ∧
            st.kd.Find fuel st.store query = Except.ok (((t.InsertAll es2).Find query).1,
              { st.kd with NScanned := ((t.InsertAll es2).Find query).2.NScanned }) ∧
            st.copy.Find fuel st.store query = Except.ok ((t.Find query).1,
              { st.copy with NScanned := (t.Find query).2.NScanned })) := by
  refine ⟨(Tree.mk nodeSize 0 (Node.leaf []) ⟨x1, y1, x2, y2⟩).InsertAll es,
    Tree.build_eq nodeSize x1 y1 x2 y2 es, ?_⟩
  intro fuel hf
  obtain ⟨st, e, ⟨tk, tc, hk, hc, hnd, _⟩, z1, z2⟩ :=
    copyProgram_Represents nodeSize x1 y1 x2 y2 es ops fuel hf
  have fk := TreeObj.Find_Represents fuel st.kd st.store tk _ query hk z1
  have fc := TreeObj.Find_Represents fuel st.copy st.store tc _ query hc z2
  refine ⟨st, tk, tc, _, e, rfl, hk.1, hk.2.1, hc.1, hc.2.1, hnd, hk.2.2.1, hc.2.2.1, fk, fc,
    TreeObj.FindElems_Represents fuel st.kd st.store tk _ query els hk z1,
    TreeObj.FindElems_Represents fuel st.copy st.store tc _ query els hc z2, ?_, ?_, ?_⟩
  · intro h
    subst h
    exact ⟨hk.2.2.1, hc.2.2.1, fk, fc⟩
  · intro es2 h
    subst h
    rw [copyReference.foldl_insertCopy] at hk hc fk fc
    exact ⟨hk.2.2.1, hc.2.2.1, fk, fc⟩
  · intro es2 h
    subst h
    rw [copyReference.foldl_insertKd] at hk hc fk fc
    exact ⟨hk.2.2.1, hc.2.2.1, fk, fc⟩

end kd2
